import Mathlib

/-!
# TSPPD with draught limits: branch-and-cut model, capacity separator and cut callback

A shallow embedding of

* `src/solver/bc/callbacks/capacity_solver.cpp` (the capacity separator),
* `src/solver/bc/bc_setup_model.raw.cpp` (the rows and columns of the MIP),
* `src/src/solver/bc/callbacks/cuts_callback.cpp` (the snapshot of the LP solution and the
  callback that runs the separators),

followed by theorems about them.

Conventions of the embedding.

* C++ `int` data (demand, draught, capacity, cost, node numbers, row counters) are
  `Int`/`Nat`. The vectors `g.demand`, `g.draught` and the matrix `g.cost` are total
  functions, read only at indices `0..2n+1`. The coefficient `alpha` of the model builder
  is computed in `int`: a difference of two demands, or the opposite of a demand, that does
  not fit 32 bits is reduced modulo `2^32` (`wrap_int`), as the two's complement machine
  does. The subtractions in `beta` take `max(0, q(j))` from `Q` and from `d(j)`; they
  stay within `int` whenever `Q` and `d(j)` are at least `-1`, and are not reduced.
* C++ `double` values (the LP snapshot `sol.x`, flows, `eps`, left and right hand sides)
  are rationals, and every `double` operation of the capacity separator and of
  `compute_x_values` (`+`, `-`, `/`) is followed by the rounding `round64` to the nearest
  binary64 value. Infinities and NaN are not modelled. The times measured by the callback
  are added exactly.
* A `for` loop is a left fold over the list of values of its loop variable, threading the
  variables the body assigns; `while(true)` is a recursion on a fuel that is shown to
  suffice (`separate_valid_cuts_some`).
* The separators other than the capacity separator, the class `vi_separator_capacity` the
  callback instantiates, and the clock are outside these files: the callback takes the
  cuts each separator returns and the time measured around each call as arguments.
* An `IloNumColumn` is the list of its `(row, value)` entries, a row array the list of its
  rows; the coefficient of a variable in a row is the sum of the entries for that row.
-/

namespace Tsppddl

/-! ## Data model -/

/-- The instance graph: `n` requests, nodes `0..2n+1`. -/
structure Graph where
  n : Nat
  capacity : Int
  cost : Nat → Nat → Int
  demand : Nat → Int
  draught : Nat → Int

/-- The LP snapshot `ch::solution::x`, a dense matrix of x values. -/
abbrev XValues := Nat → Nat → ℚ

/-- The pair `ch::best_node(node, flow)`. -/
structure best_node where
  node : Nat
  flow : ℚ
deriving DecidableEq

/-- The inequality `lhs <= rhs` returned by `add_cut`: `expr` lists, in order, the column
index of each `lhs += x[col_index]`. -/
structure Cut where
  expr : List Nat
  rhs : ℚ
deriving DecidableEq

/-! ## Machine arithmetic -/

/-- The power `2^k` of two, `k` an integer. -/
def pow2 (k : Int) : ℚ :=
  if 0 ≤ k then ((2 ^ k.toNat : Nat) : ℚ) else 1 / ((2 ^ (-k).toNat : Nat) : ℚ)

/-- The integer nearest to `q`; of two equally near integers the even one. -/
def round_half_even (q : ℚ) : Int :=
  if q - ⌊q⌋ < 1 / 2 then ⌊q⌋
  else if q - ⌊q⌋ > 1 / 2 then ⌊q⌋ + 1
  else if ⌊q⌋ % 2 = 0 then ⌊q⌋ else ⌊q⌋ + 1

/-- The loop of `bit_log2`, run at most `fuel` times. -/
def bit_log2_loop : Nat → Nat → Nat
  | 0, _ => 0
  | fuel + 1, n => if 2 ≤ n then bit_log2_loop fuel (n / 2) + 1 else 0

/-- The number `k` with `2^k <= n < 2^(k+1)`, for `n >= 1`. -/
def bit_log2 (n : Nat) : Nat := bit_log2_loop n n

/-- The exponent `e` of `q ≠ 0`: `2^e <= |q| < 2^(e+1)`. -/
def exponent (q : ℚ) : Int :=
  let e : Int := (bit_log2 q.num.natAbs : Int) - (bit_log2 q.den : Int)
  if pow2 e ≤ |q| then e else e - 1

/-- Rounding to the nearest IEEE 754 binary64 value, ties to even: 53 significant bits,
least exponent `-1022` (below it the spacing stays `2^-1074`). Values of magnitude
`2^1024` and above, which a `double` rounds to an infinity, are left out of the model. -/
def round64 (q : ℚ) : ℚ :=
  if q = 0 then 0
  else round_half_even (q / pow2 (max (exponent q) (-1022) - 52)) *
    pow2 (max (exponent q) (-1022) - 52)

/-- The sum `a + b` of two values of type `double`. -/
def fadd (a b : ℚ) : ℚ := round64 (a + b)

/-- The difference `a - b` of two values of type `double`. -/
def fsub (a b : ℚ) : ℚ := round64 (a - b)

/-- The quotient `a / b` of two values of type `double`, `b` not zero. -/
def fdiv (a b : ℚ) : ℚ := round64 (a / b)

/-- The value of an `int` expression whose exact value is `v`: `v` reduced modulo `2^32`
into `[-2^31, 2^31 - 1]`. Signed overflow is undefined in C++; this is the value the two's
complement machine computes. -/
def wrap_int (v : Int) : Int := (v + 2147483648) % 4294967296 - 2147483648

/-- The value `v` is one an `int` holds: `-2^31 <= v <= 2^31 - 1`. -/
def int_range (v : Int) : Prop := -2147483648 ≤ v ∧ v ≤ 2147483647

instance (v : Int) : Decidable (int_range v) := by
  unfold int_range; infer_instance

/-! ## Loop nests -/

/-- The loop nest `for(ii = 0; ii <= 2n+1; ii++) for(jj = 0; jj <= 2n+1; jj++) body`. -/
def for_nodes2 {σ : Type} (n : Nat) (body : σ → Nat → Nat → σ) (init : σ) : σ :=
  (List.range (2 * n + 2)).foldl
    (fun s ii => (List.range (2 * n + 2)).foldl (fun s jj => body s ii jj) s) init

/-! ## Capacity separator (`capacity_solver.cpp`) -/

/-- The inner loop `for(s : A) flow += sol.x[s][i] + sol.x[i][s]`, from `flow = 0.0`. -/
def flow_to (x : XValues) (A : List Nat) (i : Nat) : ℚ :=
  A.foldl (fun flow s => fadd flow (fadd (x s i) (x i s))) 0

/-- Final `if(best_n != -1)` of the four candidate searches; `best_n = -1` is `none`. -/
def best_result (r : Option Nat × ℚ) : Option best_node :=
  match r.1 with
  | some best_n => some ⟨best_n, r.2⟩
  | none => none

/-- The method `CapacitySolver::best_pickup_node_for_T`. -/
def best_pickup_node_for_T (g : Graph) (x : XValues) (eps : ℚ) (S T : List Nat) :
    Option best_node :=
  best_result ((List.range' 1 g.n).foldl (fun (best : Option Nat × ℚ) i =>
    if i ∈ S then best
    else if i ∈ T then best
    else if flow_to x T i > fadd best.2 eps then (some i, flow_to x T i) else best) (none, 0))

/-- The method `CapacitySolver::best_delivery_node_for_T`. -/
def best_delivery_node_for_T (g : Graph) (x : XValues) (eps : ℚ) (S T : List Nat) :
    Option best_node :=
  best_result ((List.range' (g.n + 1) g.n).foldl (fun (best : Option Nat × ℚ) i =>
    if i ∈ S then best
    else if i ∈ T then best
    else if flow_to x T i > fadd best.2 eps then (some i, flow_to x T i) else best) (none, 0))

/-- The method `CapacitySolver::best_pickup_node_for_S`. -/
def best_pickup_node_for_S (g : Graph) (x : XValues) (eps : ℚ) (S : List Nat) :
    Option best_node :=
  best_result ((List.range' 1 g.n).foldl (fun (best : Option Nat × ℚ) i =>
    if i ∈ S then best
    else if flow_to x S i > fadd best.2 eps then (some i, flow_to x S i) else best) (none, 0))

/-- The method `CapacitySolver::best_delivery_node_for_S` (compares without `eps`). -/
def best_delivery_node_for_S (g : Graph) (x : XValues) (S : List Nat) :
    Option best_node :=
  best_result ((List.range' (g.n + 1) g.n).foldl (fun (best : Option Nat × ℚ) i =>
    if i ∈ S then best
    else if flow_to x S i > best.2 then (some i, flow_to x S i) else best) (none, 0))

/-- Lines 28-46 of `separate_valid_cuts` on the two candidates: the node pushed to `S`
(and removed from `T`), or `none` for `break`. -/
def choose_for_S (bps bds : Option best_node) : Option Nat :=
  match bps, bds with
  | none, none => none
  | none, some d => some d.node
  | some p, none => some p.node
  | some p, some d => if p.flow < d.flow ∧ d.flow ≥ 1 then some d.node else some p.node

/-- Lines 51-65 of `separate_valid_cuts` on the two candidates: the node pushed to `T`,
or `none` when `T` is left as it is. -/
def choose_for_T (bpt bdt : Option best_node) : Option Nat :=
  match bpt, bdt with
  | none, none => none
  | some p, none => some p.node
  | none, some d => some d.node
  | some p, some d => if d.flow < p.flow ∧ p.flow ≥ 1 then some p.node else some d.node

/-- Lines 25-46 of `separate_valid_cuts`: the new `(S, T)`, or `none` for `break`. -/
def grow_S (g : Graph) (x : XValues) (eps : ℚ) (S T : List Nat) :
    Option (List Nat × List Nat) :=
  match choose_for_S (best_pickup_node_for_S g x eps S) (best_delivery_node_for_S g x S) with
  | none => none
  | some v => some (S ++ [v], T.filter (fun t => t ≠ v))

/-- Lines 48-65 of `separate_valid_cuts`: the new `T`. -/
def grow_T (g : Graph) (x : XValues) (eps : ℚ) (S T : List Nat) : List Nat :=
  match choose_for_T (best_pickup_node_for_T g x eps S T) (best_delivery_node_for_T g x eps S T) with
  | none => T
  | some v => T ++ [v]

/-- The method `CapacitySolver::calculate_lhs`. -/
def calculate_lhs (x : XValues) (S T : List Nat) : ℚ :=
  let lhs := S.foldl (fun lhs s1 =>
    let lhs := S.foldl (fun lhs s2 => fadd lhs (x s1 s2)) lhs
    T.foldl (fun lhs t => fadd lhs (x s1 t)) lhs) 0
  T.foldl (fun lhs t1 => T.foldl (fun lhs t2 => fadd lhs (x t1 t2)) lhs) lhs

/-- The algorithm `std::max_element(first, last, comp)`: the first greatest element, `none`
on an empty range (where the C++ returns `last`). -/
def max_element (comp : Nat → Nat → Bool) : List Nat → Option Nat
  | [] => none
  | a :: l => some (l.foldl (fun largest c => if comp largest c then c else largest) a)

/-- The sum `demand_s` of `calculate_rhs`; an `int` converts to a `double` exactly. -/
def demand_s (g : Graph) (S : List Nat) : ℚ :=
  S.foldl (fun d s => fadd d (g.demand s : ℚ)) 0

/-- The sum `demand_u` of `calculate_rhs`. -/
def demand_u (g : Graph) (S T : List Nat) : ℚ :=
  T.foldl (fun d t =>
    if g.n + 1 ≤ t ∧ t ≤ 2 * g.n then
      if (t - g.n) ∉ S ∧ (t - g.n) ∉ T then fadd d (g.demand (t - g.n) : ℚ) else d
    else d) 0

/-- The `denominator` of `calculate_rhs`; `none` when `S` is empty, where the C++
dereferences `S.end()`. -/
def denominator (g : Graph) (S : List Nat) : Option ℚ :=
  match max_element (fun n1 n2 => decide (g.draught n1 < g.draught n2)) S with
  | none => none
  | some m => some ((min g.capacity (g.draught m) : Int) : ℚ)

/-- The method `CapacitySolver::calculate_rhs`; `std::ceil` is exact. A zero `denominator`
(an infinite or NaN quotient in C++) is outside the model: the division is then the one
of `ℚ`. -/
def calculate_rhs (g : Graph) (S T : List Nat) : Option ℚ :=
  match denominator g S with
  | none => none
  | some den =>
    some (fsub (fadd 0 ((S.length + T.length : Nat) : ℚ))
      ((⌈fdiv (fadd (demand_s g S) (demand_u g S T)) den⌉ : Int) : ℚ))

/-- The test of lines 89-99 of `add_cut`: does arc `(ii, jj)` get a term. -/
def in_cut (S T : List Nat) (ii jj : Nat) : Bool :=
  if ii ∈ S then
    if jj ∈ S then true
    else if jj ∈ T then true
    else false
  else if ii ∈ T then
    if jj ∈ T then true else false
  else false

/-- The method `CapacitySolver::add_cut`: the state of the loop nest is `(lhs, col_index)`. -/
def add_cut (g : Graph) (S T : List Nat) (rhs_val : ℚ) : Cut :=
  let r := for_nodes2 g.n (fun (s : List Nat × Nat) ii jj =>
    if g.cost ii jj ≥ 0 then
      ((if in_cut S T ii jj then s.1 ++ [s.2] else s.1), s.2 + 1)
    else s) ([], 0)
  ⟨r.1, rhs_val⟩

/-- The body of `while(true)` in `separate_valid_cuts`, run at most `fuel` times from
`(S, T)` with the cuts found so far. `none`: the fuel ran out, or `calculate_rhs` failed. -/
def growth_loop (g : Graph) (x : XValues) (eps : ℚ) :
    Nat → List Nat → List Nat → List Cut → Option (List Cut)
  | 0, _, _, _ => none
  | fuel + 1, S, T, cuts =>
    match grow_S g x eps S T with
    | none => some cuts
    | some (S1, T1) =>
      let T2 := grow_T g x eps S1 T1
      let lhs := calculate_lhs x S1 T2
      match calculate_rhs g S1 T2 with
      | none => none
      | some rhs =>
        growth_loop g x eps fuel S1 T2
          (if lhs > fadd rhs eps then cuts ++ [add_cut g S1 T2 rhs] else cuts)

/-- The method `CapacitySolver::separate_valid_cuts`. Every pass of the `while` loop that
does not `break` pushes onto `S` a node of `1..2n` not yet in it, so `2n` passes suffice. -/
def separate_valid_cuts (g : Graph) (x : XValues) (eps : ℚ) : Option (List Cut) :=
  (List.range' 1 g.n).foldlM (fun cuts i =>
    (List.range' (g.n + 1) g.n).foldlM (fun cuts j =>
      growth_loop g x eps (2 * g.n) [i] [j] cuts) cuts) []

/-! ## Model builder (`bc_setup_model.raw.cpp`) -/

/-- The options and external data the model builder reads: `params.bc.two_cycles_elim`,
`params.bc.subpath_elim`, the instance predicate `is_path_eliminable`, and the k-opt
restriction (`k_opt`, `k_opt_rhs`, `k_opt_lhs`). -/
structure Params where
  two_cycles_elim : Bool
  subpath_elim : Bool
  is_path_eliminable : Nat → Nat → Nat → Bool
  k_opt : Bool
  k_opt_rhs : Int
  k_opt_lhs : Nat → Nat → Int

/-- The string given to `setName` on a row, by its pattern and the numbers printed in it. -/
inductive RowName
  | outdegree (i : Nat)
  | indegree (i : Nat)
  | load (i : Nat)
  | y_lower (i j : Nat)
  | y_upper (i j : Nat)
  | initial_load
  | tce (i j : Nat)
  | sube (i j k : Nat)
  | k_opt_constraint
deriving DecidableEq

/-- An `IloRange(env, lb, ub)` of the model; `none` is an infinite bound. -/
structure Row where
  lb : Option Int
  ub : Option Int
  name : Option RowName
deriving DecidableEq

/-- The call `array[idx].setName(nm)`. -/
def setName : List Row → Nat → RowName → List Row
  | [], _, _ => []
  | r :: rs, 0, nm => { r with name := some nm } :: rs
  | r :: rs, idx + 1, nm => r :: setName rs idx nm

/-- A row as a column refers to it: the array and the index in it. -/
inductive RowRef
  | outdegree (idx : Nat)
  | indegree (idx : Nat)
  | load (idx : Nat)
  | y_lower (idx : Nat)
  | y_upper (idx : Nat)
  | initial_load (idx : Nat)
  | two_cycles_elimination (idx : Nat)
  | subpath_elimination (idx : Nat)
  | k_opt_constraint (idx : Nat)
deriving DecidableEq

/-- The row entries of an `IloNumColumn`, one `(row, value)` per `col += row(value)`. -/
abbrev Column := List (RowRef × Int)

/-- The type argument of `IloNumVar`. -/
inductive VarType
  | Bool
  | Int
deriving DecidableEq

/-- An `IloNumVar(col, lb, ub, type, name)`; `obj` is the objective coefficient the column
starts from, `name` the arc whose numbers are printed in `x_i_j` or `y_i_j`. -/
structure NumVar where
  obj : Int
  col : Column
  lb : Int
  ub : Int
  type : VarType
  name : Nat × Nat

/-- The row arrays and the variable arrays filled by the model builder. -/
structure Model where
  outdegree : List Row
  indegree : List Row
  load : List Row
  y_lower : List Row
  y_upper : List Row
  initial_load : List Row
  two_cycles_elimination : List Row
  subpath_elimination : List Row
  k_opt_constraint : List Row
  variables_x : List NumVar
  variables_y : List NumVar

/-- Lines 3-6: the `outdegree` rows. -/
def outdegree_rows (g : Graph) : List Row :=
  (List.range (2 * g.n + 1)).foldl (fun rows i =>
    setName (rows ++ [⟨some 1, some 1, none⟩]) i (RowName.outdegree i)) []

/-- Lines 7-10: the `indegree` rows. -/
def indegree_rows (g : Graph) : List Row :=
  (List.range' 1 (2 * g.n + 1)).foldl (fun rows i =>
    setName (rows ++ [⟨some 1, some 1, none⟩]) (i - 1) (RowName.indegree i)) []

/-- Lines 11-14: the `load` rows. -/
def load_rows (g : Graph) : List Row :=
  (List.range' 1 (2 * g.n)).foldl (fun rows i =>
    setName (rows ++ [⟨some (g.demand i), some (g.demand i), none⟩]) (i - 1) (RowName.load i)) []

/-- Lines 16-26: the `y_lower` and `y_upper` rows; the state is
`(y_lower, y_upper, row_n)`. -/
def y_rows (g : Graph) : List Row × List Row × Nat :=
  for_nodes2 g.n (fun (s : List Row × List Row × Nat) i j =>
    if g.cost i j ≥ 0 then
      (setName (s.1 ++ [⟨none, some 0, none⟩]) s.2.2 (RowName.y_lower i j),
       setName (s.2.1 ++ [⟨some 0, none, none⟩]) s.2.2 (RowName.y_upper i j),
       s.2.2 + 1)
    else s) ([], [], 0)

/-- Lines 28-29: the `initial_load` row. -/
def initial_load_rows : List Row :=
  setName ([] ++ [⟨some 0, some 0, none⟩]) 0 RowName.initial_load

/-- Lines 31-41: the `two_cycles_elimination` rows; the state is `(rows, row_n)`. -/
def two_cycles_rows (g : Graph) (params : Params) : List Row :=
  if params.two_cycles_elim then
    ((List.range (2 * g.n + 2)).foldl (fun s i =>
      (List.range' (i + 1) (2 * g.n + 1 - i)).foldl (fun (s : List Row × Nat) j =>
        if g.cost i j ≥ 0 ∧ g.cost j i ≥ 0 then
          (setName (s.1 ++ [⟨none, some 1, none⟩]) s.2 (RowName.tce i j), s.2 + 1)
        else s) s) ([], 0)).1
  else []

/-- Lines 43-55: the `subpath_elimination` rows; the state is `(rows, row_n)`. -/
def subpath_rows (g : Graph) (params : Params) : List Row :=
  if params.subpath_elim then
    ((List.range' 1 (2 * g.n)).foldl (fun s i =>
      (List.range' 1 (2 * g.n)).foldl (fun s j =>
        (List.range' 1 (2 * g.n)).foldl (fun (s : List Row × Nat) k =>
          if g.cost i j ≥ 0 ∧ g.cost j k ≥ 0 ∧ params.is_path_eliminable i j k = true then
            (setName (s.1 ++ [⟨none, some 1, none⟩]) s.2 (RowName.sube i j k), s.2 + 1)
          else s) s) s) ([], 0)).1
  else []

/-- Lines 57-60: the `k_opt_constraint` row. -/
def k_opt_rows (params : Params) : List Row :=
  if params.k_opt then
    setName ([] ++ [⟨some params.k_opt_rhs, none, none⟩]) 0 RowName.k_opt_constraint
  else []

/-- Lines 81-93: the value of `alpha` when `i == ii && j == jj`. -/
def alpha (g : Graph) (i j : Nat) : Int :=
  let alpha : Int := 0
  let alpha := if 1 ≤ i ∧ i ≤ g.n ∧ 1 ≤ j ∧ j ≤ g.n then g.demand i else alpha
  let alpha :=
    if g.n + 1 ≤ i ∧ i ≤ 2 * g.n ∧ g.n + 1 ≤ j ∧ j ≤ 2 * g.n then wrap_int (-g.demand j)
    else alpha
  if 1 ≤ i ∧ i ≤ g.n ∧ g.n + 1 ≤ j ∧ j ≤ 2 * g.n then
    if j ≠ i + g.n then wrap_int (g.demand i - g.demand j) else g.demand i
  else alpha

/-- Line 94: the value of `beta` when `i == ii && j == jj`. -/
def beta (g : Graph) (i j : Nat) : Int :=
  min (min (g.capacity - max 0 (g.demand j)) (g.draught i)) (g.draught j - max 0 (g.demand j))

/-- Lines 67-136: the column of `x_i_j`. -/
def x_column (g : Graph) (params : Params) (i j : Nat) : Column :=
  let col : Column := []
  let col := (List.range (2 * g.n + 1)).foldl (fun col ii =>
    if i = ii then col ++ [(RowRef.outdegree ii, 1)] else col) col
  let col := (List.range' 1 (2 * g.n + 1)).foldl (fun col jj =>
    if j = jj then col ++ [(RowRef.indegree (jj - 1), 1)] else col) col
  let col := (for_nodes2 g.n (fun (s : Column × Nat) ii jj =>
    if g.cost ii jj ≥ 0 then
      (s.1 ++ [(RowRef.y_lower s.2, if i = ii ∧ j = jj then alpha g i j else 0),
               (RowRef.y_upper s.2, if i = ii ∧ j = jj then beta g i j else 0)], s.2 + 1)
    else s) (col, 0)).1
  let col :=
    if params.two_cycles_elim then
      ((List.range (2 * g.n + 2)).foldl (fun s ii =>
        (List.range' (ii + 1) (2 * g.n + 1 - ii)).foldl (fun (s : Column × Nat) jj =>
          if g.cost ii jj ≥ 0 ∧ g.cost jj ii ≥ 0 then
            ((if (i = ii ∧ j = jj) ∨ (i = jj ∧ j = ii) then
                s.1 ++ [(RowRef.two_cycles_elimination s.2, 1)] else s.1), s.2 + 1)
          else s) s) (col, 0)).1
    else col
  let col :=
    if params.subpath_elim then
      ((List.range' 1 (2 * g.n)).foldl (fun s ii =>
        (List.range' 1 (2 * g.n)).foldl (fun s jj =>
          (List.range' 1 (2 * g.n)).foldl (fun (s : Column × Nat) kk =>
            if g.cost ii jj ≥ 0 ∧ g.cost jj kk ≥ 0 ∧ params.is_path_eliminable ii jj kk = true then
              ((if (i = ii ∧ j = jj) ∨ (i = jj ∧ j = kk) then
                  s.1 ++ [(RowRef.subpath_elimination s.2, 1)] else s.1), s.2 + 1)
            else s) s) s) (col, 0)).1
    else col
  if params.k_opt then col ++ [(RowRef.k_opt_constraint 0, params.k_opt_lhs i j)] else col

/-- Lines 148-168: the column of `y_i_j`. -/
def y_column (g : Graph) (i j : Nat) : Column :=
  let col : Column := []
  let col := (List.range' 1 (2 * g.n)).foldl (fun col ii =>
    let col := if i = ii then col ++ [(RowRef.load (ii - 1), 1)] else col
    if j = ii then col ++ [(RowRef.load (ii - 1), -1)] else col) col
  let col := (for_nodes2 g.n (fun (s : Column × Nat) ii jj =>
    if g.cost ii jj ≥ 0 then
      ((if i = ii ∧ j = jj then
          s.1 ++ [(RowRef.y_lower s.2, -1), (RowRef.y_upper s.2, -1)] else s.1), s.2 + 1)
    else s) (col, 0)).1
  col ++ [(RowRef.initial_load 0, if i = 0 then 1 else 0)]

/-- Lines 64-143: the array `variables_x`. -/
def variables_x (g : Graph) (params : Params) : List NumVar :=
  for_nodes2 g.n (fun vars i j =>
    if g.cost i j ≥ 0 then
      vars ++ [⟨g.cost i j, x_column g params i j, 0, 1, VarType.Bool, (i, j)⟩]
    else vars) []

/-- Lines 145-175: the array `variables_y`. -/
def variables_y (g : Graph) : List NumVar :=
  for_nodes2 g.n (fun vars i j =>
    if g.cost i j ≥ 0 then
      vars ++ [⟨0, y_column g i j, 0, g.capacity, VarType.Int, (i, j)⟩]
    else vars) []

/-- The model built by `bc_setup_model.raw.cpp`. -/
def setup_model (g : Graph) (params : Params) : Model where
  outdegree := outdegree_rows g
  indegree := indegree_rows g
  load := load_rows g
  y_lower := (y_rows g).1
  y_upper := (y_rows g).2.1
  initial_load := initial_load_rows
  two_cycles_elimination := two_cycles_rows g params
  subpath_elimination := subpath_rows g params
  k_opt_constraint := k_opt_rows params
  variables_x := variables_x g params
  variables_y := variables_y g

/-! ## Reading the model -/

/-- The coefficient of a column in a row: the sum of the values the column gives it. -/
def coef (col : Column) (r : RowRef) : Int :=
  ((col.filter (fun e => e.1 = r)).map (fun e => e.2)).sum

/-- The row a reference points to. -/
def Model.row (m : Model) : RowRef → Option Row
  | RowRef.outdegree idx => m.outdegree[idx]?
  | RowRef.indegree idx => m.indegree[idx]?
  | RowRef.load idx => m.load[idx]?
  | RowRef.y_lower idx => m.y_lower[idx]?
  | RowRef.y_upper idx => m.y_upper[idx]?
  | RowRef.initial_load idx => m.initial_load[idx]?
  | RowRef.two_cycles_elimination idx => m.two_cycles_elimination[idx]?
  | RowRef.subpath_elimination idx => m.subpath_elimination[idx]?
  | RowRef.k_opt_constraint idx => m.k_opt_constraint[idx]?

/-- The value of the linear expression of a row under an assignment of the x and y
variables, each named by its arc. -/
def Model.row_value (m : Model) (xv yv : Nat → Nat → Int) (r : RowRef) : Int :=
  (m.variables_x.map (fun v => coef v.col r * xv v.name.1 v.name.2)).sum +
  (m.variables_y.map (fun v => coef v.col r * yv v.name.1 v.name.2)).sum

/-- Value `v` is not below the lower bound `lb`; `none` is `-∞`. -/
def lower_ok (lb : Option Int) (v : Int) : Prop :=
  match lb with
  | none => True
  | some b => b ≤ v

/-- Value `v` is not above the upper bound `ub`; `none` is `+∞`. -/
def upper_ok (ub : Option Int) (v : Int) : Prop :=
  match ub with
  | none => True
  | some b => v ≤ b

instance (lb : Option Int) (v : Int) : Decidable (lower_ok lb v) := by
  unfold lower_ok; split <;> infer_instance

instance (ub : Option Int) (v : Int) : Decidable (upper_ok ub v) := by
  unfold upper_ok; split <;> infer_instance

/-- Does value `v` lie within the bounds of `row`. -/
def Row.holds (row : Row) (v : Int) : Prop :=
  lower_ok row.lb v ∧ upper_ok row.ub v

instance (row : Row) (v : Int) : Decidable (row.holds v) := by
  unfold Row.holds; infer_instance

/-- The assignment satisfies every row of the array `rows`, the row at index `idx` being
referred to by `ref idx`. -/
def Model.rows_hold (m : Model) (xv yv : Nat → Nat → Int) (rows : List Row)
    (ref : Nat → RowRef) : Prop :=
  ∀ q ∈ rows.enum, q.2.holds (m.row_value xv yv (ref q.1))

instance (m : Model) (xv yv : Nat → Nat → Int) (rows : List Row) (ref : Nat → RowRef) :
    Decidable (m.rows_hold xv yv rows ref) := by
  unfold Model.rows_hold; infer_instance

/-- The bounds `0 <= y <= Q` of the y variables. -/
def Model.y_bounds_hold (m : Model) (yv : Nat → Nat → Int) : Prop :=
  ∀ v ∈ m.variables_y, v.lb ≤ yv v.name.1 v.name.2 ∧ yv v.name.1 v.name.2 ≤ v.ub

instance (m : Model) (yv : Nat → Nat → Int) : Decidable (m.y_bounds_hold yv) := by
  unfold Model.y_bounds_hold; infer_instance

/-- The bounds `0 <= x <= 1` of the x variables. -/
def Model.x_bounds_hold (m : Model) (xv : Nat → Nat → Int) : Prop :=
  ∀ v ∈ m.variables_x, v.lb ≤ xv v.name.1 v.name.2 ∧ xv v.name.1 v.name.2 ≤ v.ub

instance (m : Model) (xv : Nat → Nat → Int) : Decidable (m.x_bounds_hold xv) := by
  unfold Model.x_bounds_hold; infer_instance

/-! ## The arc index and closed forms of the columns -/

/-- The allowed arcs, in row-major order: the arc index of the model. -/
def arcs (g : Graph) : List (Nat × Nat) :=
  for_nodes2 g.n (fun l ii jj => if g.cost ii jj ≥ 0 then l ++ [(ii, jj)] else l) []

/-- All pairs of nodes, in row-major order. -/
def node_pairs (n : Nat) : List (Nat × Nat) :=
  (List.range (2 * n + 2)).flatMap (fun i => (List.range (2 * n + 2)).map (fun j => (i, j)))

/-- The variable `x_i_j` as the model builder declares it. -/
def x_var (g : Graph) (params : Params) (p : Nat × Nat) : NumVar :=
  ⟨g.cost p.1 p.2, x_column g params p.1 p.2, 0, 1, VarType.Bool, (p.1, p.2)⟩

/-- The variable `y_i_j` as the model builder declares it. -/
def y_var (g : Graph) (p : Nat × Nat) : NumVar :=
  ⟨0, y_column g p.1 p.2, 0, g.capacity, VarType.Int, (p.1, p.2)⟩

/-- Rows of the optional strengthenings: 2-cycle, subpath and k-opt rows. -/
def RowRef.is_optional : RowRef → Prop
  | RowRef.two_cycles_elimination _ => True
  | RowRef.subpath_elimination _ => True
  | RowRef.k_opt_constraint _ => True
  | _ => False

/-- The entries of the column of `x_i_j` in the rows of the base model, in closed form. -/
def x_column_base (g : Graph) (i j : Nat) : Column :=
  (if i ∈ List.range (2 * g.n + 1) then [(RowRef.outdegree i, 1)] else []) ++
  (if j ∈ List.range' 1 (2 * g.n + 1) then [(RowRef.indegree (j - 1), 1)] else []) ++
  ((arcs g).enumFrom 0).flatMap (fun q =>
    [(RowRef.y_lower q.1, if i = q.2.1 ∧ j = q.2.2 then alpha g i j else 0),
     (RowRef.y_upper q.1, if i = q.2.1 ∧ j = q.2.2 then beta g i j else 0)])

/-- The entries of the column of `y_i_j`, in closed form. -/
def y_column_closed (g : Graph) (i j : Nat) : Column :=
  (List.range' 1 (2 * g.n)).flatMap (fun ii =>
    (if i = ii then [(RowRef.load (ii - 1), 1)] else []) ++
    (if j = ii then [(RowRef.load (ii - 1), -1)] else [])) ++
  ((arcs g).enumFrom 0).flatMap (fun q =>
    if i = q.2.1 ∧ j = q.2.2 then [(RowRef.y_lower q.1, -1), (RowRef.y_upper q.1, -1)] else []) ++
  [(RowRef.initial_load 0, if i = 0 then 1 else 0)]

/-- Column `col` is `col0` followed by entries in rows satisfying `P` only. -/
def Extends (P : RowRef → Prop) (col0 col : Column) : Prop :=
  ∃ ext : Column, col = col0 ++ ext ∧ ∀ e ∈ ext, P e.1

/-! ## The model as the specification words it -/

/-- Node `i` is a pickup. -/
def is_pickup (g : Graph) (i : Nat) : Prop := 1 ≤ i ∧ i ≤ g.n

/-- Node `i` is a delivery. -/
def is_delivery (g : Graph) (i : Nat) : Prop := g.n + 1 ≤ i ∧ i ≤ 2 * g.n

instance (g : Graph) (i : Nat) : Decidable (is_pickup g i) := by
  unfold is_pickup; infer_instance

instance (g : Graph) (i : Nat) : Decidable (is_delivery g i) := by
  unfold is_delivery; infer_instance

/-- The coefficient α(i,j) in the words of the specification: `q(i)` between two pickups,
`-q(j)` between two deliveries, `q(i) - q(j)` from a pickup to a delivery other than its
own, `q(i)` from a pickup to its own delivery, `0` otherwise. -/
def alpha_spec (g : Graph) (i j : Nat) : Int :=
  if is_pickup g i ∧ is_pickup g j then g.demand i
  else if is_delivery g i ∧ is_delivery g j then -g.demand j
  else if is_pickup g i ∧ is_delivery g j ∧ j ≠ g.n + i then g.demand i - g.demand j
  else if is_pickup g i ∧ j = g.n + i then g.demand i
  else 0

/-- The coefficient β(i,j) in the words of the specification:
`min(Q − max(0,q(j)), d(i), d(j) − max(0,q(j)))`. -/
def beta_spec (g : Graph) (i j : Nat) : Int :=
  min (g.capacity - max 0 (g.demand j)) (min (g.draught i) (g.draught j - max 0 (g.demand j)))

/-- The data-model invariants of the specification: zero demand at the depots, and for
every request `i` a positive pickup demand `q(i) <= Q` with `q(n+i) = -q(i)`; at every
node `d(i) >= max(0, q(i))`. -/
def data_model_invariants (g : Graph) : Prop :=
  g.demand 0 = 0 ∧ g.demand (2 * g.n + 1) = 0 ∧
  (∀ i ∈ List.range' 1 g.n,
    g.demand i > 0 ∧ g.demand (g.n + i) = -g.demand i ∧ g.demand i ≤ g.capacity) ∧
  (∀ i ∈ List.range (2 * g.n + 2), g.draught i ≥ max 0 (g.demand i))

instance (g : Graph) : Decidable (data_model_invariants g) := by
  unfold data_model_invariants; infer_instance

/-- The arcs `(v_k, v_{k+1})` of a path `v_0, v_1, ...`. -/
def tour_arcs (p : List Nat) : List (Nat × Nat) := p.zip p.tail

/-- Path `p` is a Hamiltonian path from `0` to `2n+1` over allowed arcs. -/
def is_tour (g : Graph) (p : List Nat) : Prop :=
  p.length = 2 * g.n + 2 ∧ p.Nodup ∧ (∀ v ∈ p, v ≤ 2 * g.n + 1) ∧
  p.head? = some 0 ∧ p.getLast? = some (2 * g.n + 1) ∧
  ∀ a ∈ tour_arcs p, g.cost a.1 a.2 ≥ 0

instance (g : Graph) (p : List Nat) : Decidable (is_tour g p) := by
  unfold is_tour; infer_instance

/-- The load `q(v_1) + ... + q(v_k)` carried on leaving the `k`-th node of a path (the
source is `v_0`, which is left empty). -/
def load_after (g : Graph) (p : List Nat) (k : Nat) : Int :=
  (((p.take (k + 1)).tail).map g.demand).sum

/-- Path `p` is a feasible tour: a Hamiltonian path from `0` to `2n+1` over allowed arcs
on which every pickup `i` precedes `n+i` and the load, on arrival at and on departure from
each node, is within `[0, min(Q, d(node))]`. -/
def feasible_tour (g : Graph) (p : List Nat) : Prop :=
  is_tour g p ∧
  (∀ i ∈ List.range' 1 g.n, p.indexOf i < p.indexOf (g.n + i)) ∧
  (∀ k ∈ List.range (2 * g.n + 2),
    0 ≤ load_after g p k ∧
    load_after g p k ≤ min g.capacity (g.draught (p.getD k 0)) ∧
    load_after g p (k - 1) ≤ min g.capacity (g.draught (p.getD k 0)))

instance (g : Graph) (p : List Nat) : Decidable (feasible_tour g p) := by
  unfold feasible_tour; infer_instance

/-- The LP snapshot that is the 0/1 arc vector of a path. -/
def tour_snapshot (p : List Nat) : XValues :=
  fun a b => if (a, b) ∈ tour_arcs p then 1 else 0

/-- The integer assignment of the x variables that is the 0/1 arc vector of a path. -/
def tour_x (p : List Nat) : Nat → Nat → Int :=
  fun a b => if (a, b) ∈ tour_arcs p then 1 else 0

/-- The value of the variable `x[k]` of the model in the 0/1 arc vector of a path. -/
def tour_column_value (g : Graph) (params : Params) (p : List Nat) (k : Nat) : ℚ :=
  match (variables_x g params)[k]? with
  | some v => if v.name ∈ tour_arcs p then 1 else 0
  | none => 0

/-- The inequality `Σ x[k] <= rhs` holds for the values `val` of the x variables. -/
def Cut.holds (cut : Cut) (val : Nat → ℚ) : Prop :=
  (cut.expr.map val).sum ≤ cut.rhs

instance (cut : Cut) (val : Nat → ℚ) : Decidable (cut.holds val) := by
  unfold Cut.holds; infer_instance

/-- The tour `0, 1, 4, 3, 2, 5, 6, 7` of `graph3`. -/
def tour3 : List Nat := [0, 1, 4, 3, 2, 5, 6, 7]

/-- The tour `0, 1, 2, 4, 3, 6, 5, 7` of `graph3b`. -/
def tour3b : List Nat := [0, 1, 2, 4, 3, 6, 5, 7]

/-! ## Concrete instances -/

/-- One request: pickup 1 with demand 5, delivery 2, capacity 10, draught 10 everywhere;
arcs into the source, out of the sink and from a node to itself are forbidden. -/
def graph1 : Graph where
  n := 1
  capacity := 10
  cost := fun i j => if i = j ∨ j = 0 ∨ i = 3 then -1 else 1
  demand := fun i => [0, 5, -5, 0].getD i 0
  draught := fun _ => 10

/-- Two requests of demand `2 * 10^9`, capacity and every draught `2 * 10^9`; arcs into
the source, out of the sink and from a node to itself are forbidden. Every datum is an
`int`, the difference `q(1) - q(4) = 4 * 10^9` is not. -/
def graph_big : Graph where
  n := 2
  capacity := 2000000000
  cost := fun i j => if i = j ∨ j = 0 ∨ i = 5 then -1 else 1
  demand := fun i => [0, 2000000000, 2000000000, -2000000000, -2000000000, 0].getD i 0
  draught := fun _ => 2000000000

/-- No optional strengthening. -/
def params1 : Params := ⟨false, false, fun _ _ _ => false, false, 0, fun _ _ => 0⟩

/-- The tour `0, 1, 2, 3` of `graph1`. -/
def tour1 : List Nat := [0, 1, 2, 3]

/-- The loads of `tour1` on `graph1`: 5 on the arc `(1, 2)`, 0 elsewhere. -/
def y_tour1 : Nat → Nat → Int := fun a b => if (a, b) = (1, 2) then 5 else 0

/-! ## Seeds, tours and instances for the capacity separator -/

/-- The values `(i, j)` of the two loop variables of `separate_valid_cuts`, in order: the
pairs from which `S = {i}`, `T = {j}` are grown. -/
def seed_pairs (n : Nat) : List (Nat × Nat) :=
  (List.range' 1 n).flatMap (fun i => (List.range' (n + 1) n).map (fun j => (i, j)))

/-- Three requests with demands 1, 3, 3 and capacity 10; the draught is 1 at pickup 1 and
at its delivery 4, and 10 elsewhere; arcs into the source, out of the sink and from a node
to itself are forbidden. -/
def graph3 : Graph where
  n := 3
  capacity := 10
  cost := fun i j => if i = j ∨ j = 0 ∨ i = 7 then -1 else 1
  demand := fun i => [0, 1, 3, 3, -1, -3, -3, 0].getD i 0
  draught := fun i => [10, 1, 10, 10, 1, 10, 10, 10].getD i 0

/-- Three requests with demands 2, 1, 6 and capacity 8; draughts 2, 4, 8 at the pickups,
5, 1, 7 at the deliveries and 8 at the depots; arcs into the source, out of the sink and
from a node to itself are forbidden. -/
def graph3b : Graph where
  n := 3
  capacity := 8
  cost := fun i j => if i = j ∨ j = 0 ∨ i = 7 then -1 else 1
  demand := fun i => [0, 2, 1, 6, -2, -1, -6, 0].getD i 0
  draught := fun i => [8, 2, 4, 8, 5, 1, 7, 8].getD i 0

/-- A snapshot with `x(1,2) = 1` and `x(5,1) = 1/2`, zero elsewhere. -/
def snapshot_S : XValues := fun a b =>
  if (a, b) = (1, 2) then 1 else if (a, b) = (5, 1) then 1 / 2 else 0

/-- A snapshot with `x(1,2) = 1`, `x(3,4) = 1/2` and `x(4,5) = 1/2`, zero elsewhere. -/
def snapshot_T : XValues := fun a b =>
  if (a, b) = (1, 2) then 1 else if (a, b) = (3, 4) ∨ (a, b) = (4, 5) then 1 / 2 else 0

/-! ## Candidate searches as one scan -/

/-- The body shared by the loops of the four candidate searches: a node that is skipped
leaves `(best_n, best_f)` as it is, a node whose flow exceeds `thr best_f` replaces it. -/
def scan_step (skip : Nat → Bool) (flow : Nat → ℚ) (thr : ℚ → ℚ) (best : Option Nat × ℚ)
    (i : Nat) : Option Nat × ℚ :=
  if skip i = true then best else if flow i > thr best.2 then (some i, flow i) else best

/-- The flow `Σ_{s ∈ A} (x(s,v) + x(v,s))` of node `v` to the set `A` as an exact sum,
without the rounding of `flow_to`. -/
def flow_sum (x : XValues) (A : List Nat) (v : Nat) : ℚ :=
  (A.map (fun s => x s v + x v s)).sum

/-- The sum of the snapshot over the pairs `calculate_lhs` adds, as an exact sum without
the rounding of `calculate_lhs`: `(s1, s2)` and `(s1, t)` for `s1, s2` in `S` and `t` in
`T`, and `(t1, t2)` for `t1, t2` in `T`. -/
def lhs_exact (x : XValues) (S T : List Nat) : ℚ :=
  (S.map (fun s1 => (S.map (fun s2 => x s1 s2)).sum + (T.map (fun t => x s1 t)).sum)).sum +
  (T.map (fun t1 => (T.map (fun t2 => x t1 t2)).sum)).sum

/-! ## The states of the growth loop -/

/-- The pairs `(S, T)` at which the loop of `separate_valid_cuts` evaluates
`calculate_lhs` and `calculate_rhs` (lines 67-68), in order, when it is run at most `fuel`
times from `(S, T)`: one pair for every pass that does not `break`. -/
def growth_trace (g : Graph) (x : XValues) (eps : ℚ) :
    Nat → List Nat → List Nat → List (List Nat × List Nat)
  | 0, _, _ => []
  | fuel + 1, S, T =>
    match grow_S g x eps S T with
    | none => []
    | some (S1, T1) =>
      (S1, grow_T g x eps S1 T1) :: growth_trace g x eps fuel S1 (grow_T g x eps S1 T1)

/-- Lines 67-72 of `separate_valid_cuts` at a pair `(S, T)`: the cut pushed, if any. -/
def emit_cut (g : Graph) (x : XValues) (eps : ℚ) (st : List Nat × List Nat) : Option Cut :=
  match calculate_rhs g st.1 st.2 with
  | none => none
  | some rhs =>
    if calculate_lhs x st.1 st.2 > fadd rhs eps then some (add_cut g st.1 st.2 rhs) else none

/-- The invariant of the growth loop: `S` and `T` are duplicate-free, disjoint, and
contained in `{1..2n}`. -/
def growth_invariant (g : Graph) (S T : List Nat) : Prop :=
  S.Nodup ∧ T.Nodup ∧ (∀ v ∈ S, v ∉ T) ∧
  (∀ v ∈ S, 1 ≤ v ∧ v ≤ 2 * g.n) ∧ (∀ v ∈ T, 1 ≤ v ∧ v ≤ 2 * g.n)

instance (g : Graph) (S T : List Nat) : Decidable (growth_invariant g S T) := by
  unfold growth_invariant; infer_instance

/-- The value of the variable `x[k]` of the model in a snapshot: the entry of the snapshot
at the arc of the variable. -/
def snapshot_column_value (g : Graph) (params : Params) (x : XValues) (k : Nat) : ℚ :=
  match (variables_x g params)[k]? with
  | some v => x v.name.1 v.name.2
  | none => 0

/-! ## The cut callback (`cuts_callback.cpp`) -/

/-- The snapshot `ch::solution(is_integer, xvals)`. -/
structure solution where
  is_integer : Bool
  x : XValues

/-- The variables of the loop of `compute_x_values`: `xvals`, `is_integer`, `col_index`. -/
structure XLoop where
  xvals : XValues
  is_integer : Bool
  col_index : Nat

/-- Lines 140-148, the body of the loop of `compute_x_values` at an allowed arc `(i, j)`:
`n = getValue(x[col_index++])`, then `xvals[i][j]` becomes `n` if `n > eps` and `0`
otherwise, and `is_integer` becomes `false` if `eps < n < 1 - eps`, the difference being
the `double` one. -/
def store_x_value (getValue : Nat → ℚ) (eps : ℚ) (st : XLoop) (i j : Nat) : XLoop :=
  let n := getValue st.col_index
  if n > eps then
    ⟨fun a b => if a = i ∧ b = j then n else st.xvals a b,
     if n < fsub 1 eps then false else st.is_integer,
     st.col_index + 1⟩
  else
    ⟨fun a b => if a = i ∧ b = j then 0 else st.xvals a b, st.is_integer, st.col_index + 1⟩

/-- Lines 131-154, `cuts_callback::compute_x_values`; `getValue k` is the value
`getValue(x[k])` of the `k`-th x variable in the LP solution of the node. The matrix starts
as `(2n+2) x (2n+2)` zeros. -/
def compute_x_values (g : Graph) (getValue : Nat → ℚ) (eps : ℚ) : solution :=
  let st := for_nodes2 g.n (fun (st : XLoop) i j =>
    if g.cost i j ≥ 0 then store_x_value getValue eps st i j else st)
    ⟨fun _ _ => 0, true, 0⟩
  ⟨st.is_integer, st.xvals⟩

/-! ## Row-major order of the arcs -/

/-- Pair `p` comes before pair `q` in row-major order. -/
def row_major_lt (p q : Nat × Nat) : Prop := p.1 < q.1 ∨ (p.1 = q.1 ∧ p.2 < q.2)

instance (p q : Nat × Nat) : Decidable (row_major_lt p q) := by
  unfold row_major_lt; infer_instance

/-- The number of allowed arcs that precede `(i, j)` in row-major order. -/
def arcs_before (g : Graph) (i j : Nat) : Nat :=
  ((node_pairs g.n).filter
    (fun p => decide (g.cost p.1 p.2 ≥ 0 ∧ row_major_lt p (i, j)))).length

/-- The test of the claimed integrality flag: `v` lies within `eps` of 0 or of 1. -/
def within_eps_of_01 (eps v : ℚ) : Prop := |v| ≤ eps ∨ |v - 1| ≤ eps

instance (eps v : ℚ) : Decidable (within_eps_of_01 eps v) := by
  unfold within_eps_of_01; infer_instance

/-- The separators `cuts_callback::main` calls: the feasibility cuts separator and the five
families of valid inequalities. -/
inductive Family
  | feasibility
  | subtour_elimination
  | generalised_order
  | capacity
  | simplified_fork
  | fork
deriving DecidableEq

/-- The fields `enabled` and `cut_every_n_nodes` of the parameters of one family. -/
structure FamilyParams where
  enabled : Bool
  cut_every_n_nodes : Nat

/-- The fields of `params.bc` the callback reads. -/
structure CallbackParams where
  subtour_elim : FamilyParams
  generalised_order : FamilyParams
  capacity : FamilyParams
  simplified_fork : FamilyParams
  fork : FamilyParams

/-- The fields of `data` the callback updates: accumulated separation times in seconds and
numbers of cuts added. -/
structure Data where
  time_spent_separating_subtour_elimination_vi : ℚ
  time_spent_separating_generalised_order_vi : ℚ
  time_spent_separating_capacity_vi : ℚ
  time_spent_separating_simplified_fork_vi : ℚ
  time_spent_separating_fork_vi : ℚ
  total_number_of_feasibility_cuts_added : Nat
  total_number_of_subtour_elimination_vi_added : Nat
  total_number_of_generalised_order_vi_added : Nat
  total_number_of_capacity_vi_added : Nat
  total_number_of_simplified_fork_vi_added : Nat
  total_number_of_fork_vi_added : Nat

/-- What an invocation of the callback acts on: `data`, the cuts handed to the solver with
`add(cut, UseCutForce)`, in order, and the log of the separators that were called. -/
structure CallbackState where
  data : Data
  added : List Cut
  ran : List Family

/-- The loop `for(auto& cut : cuts) { add(cut, IloCplex::UseCutForce).end(); counter++; }`;
`incr` is the increment of the counter of the family. -/
def add_cuts (incr : Data → Data) (cuts : List Cut) (st : CallbackState) : CallbackState :=
  cuts.foldl (fun st cut => { st with added := st.added ++ [cut], data := incr st.data }) st

/-- Lines 17-129, `cuts_callback::main`. The separators are defined outside this file:
`separate f sol` is the list of cuts separator `f` returns on the snapshot `sol`, and
`time_span f` is the wall-clock time `time_span.count()` measured around its call. `node_number` is
`getNnodes()`. In the source `node_number % cut_every_n_nodes` with `cut_every_n_nodes = 0`
is undefined; here it is `node_number`. -/
def cuts_callback_main (g : Graph) (params : CallbackParams)
    (separate : Family → solution → List Cut) (time_span : Family → ℚ)
    (getValue : Nat → ℚ) (eps : ℚ) (node_number : Nat) (st : CallbackState) : CallbackState :=
  let sol := compute_x_values g getValue eps
  let st :=
    if sol.is_integer then
      let feas_cuts := separate Family.feasibility sol
      let count := time_span Family.feasibility
      let st := { st with
        ran := st.ran ++ [Family.feasibility],
        data := { st.data with time_spent_separating_fork_vi :=
          st.data.time_spent_separating_fork_vi + count } }
      add_cuts (fun d => { d with total_number_of_feasibility_cuts_added :=
        d.total_number_of_feasibility_cuts_added + 1 }) feas_cuts st
    else st
  let st :=
    if params.subtour_elim.enabled ∧
        node_number % params.subtour_elim.cut_every_n_nodes = 0 then
      let valid_cuts_1 := separate Family.subtour_elimination sol
      let count := time_span Family.subtour_elimination
      let st := { st with
        ran := st.ran ++ [Family.subtour_elimination],
        data := { st.data with time_spent_separating_subtour_elimination_vi :=
          st.data.time_spent_separating_subtour_elimination_vi + count } }
      add_cuts (fun d => { d with total_number_of_subtour_elimination_vi_added :=
        d.total_number_of_subtour_elimination_vi_added + 1 }) valid_cuts_1 st
    else st
  let st :=
    if params.generalised_order.enabled ∧
        node_number % params.generalised_order.cut_every_n_nodes = 0 then
      let valid_cuts_2 := separate Family.generalised_order sol
      let count := time_span Family.generalised_order
      let st := { st with
        ran := st.ran ++ [Family.generalised_order],
        data := { st.data with time_spent_separating_generalised_order_vi :=
          st.data.time_spent_separating_generalised_order_vi + count } }
      add_cuts (fun d => { d with total_number_of_generalised_order_vi_added :=
        d.total_number_of_generalised_order_vi_added + 1 }) valid_cuts_2 st
    else st
  let st :=
    if params.capacity.enabled ∧ node_number % params.capacity.cut_every_n_nodes = 0 then
      let valid_cuts_3 := separate Family.capacity sol
      let count := time_span Family.capacity
      let st := { st with
        ran := st.ran ++ [Family.capacity],
        data := { st.data with time_spent_separating_capacity_vi :=
          st.data.time_spent_separating_capacity_vi + count } }
      add_cuts (fun d => { d with total_number_of_capacity_vi_added :=
        d.total_number_of_capacity_vi_added + 1 }) valid_cuts_3 st
    else st
  let st :=
    if params.simplified_fork.enabled ∧
        node_number % params.simplified_fork.cut_every_n_nodes = 0 then
      let valid_cuts_4 := separate Family.simplified_fork sol
      let count := time_span Family.simplified_fork
      let st := { st with
        ran := st.ran ++ [Family.simplified_fork],
        data := { st.data with time_spent_separating_simplified_fork_vi :=
          st.data.time_spent_separating_simplified_fork_vi + count } }
      add_cuts (fun d => { d with total_number_of_simplified_fork_vi_added :=
        d.total_number_of_simplified_fork_vi_added + 1 }) valid_cuts_4 st
    else st
  let st :=
    if params.fork.enabled ∧ node_number % params.fork.cut_every_n_nodes = 0 then
      let valid_cuts_5 := separate Family.fork sol
      let count := time_span Family.fork
      let st := { st with
        ran := st.ran ++ [Family.fork],
        data := { st.data with time_spent_separating_fork_vi :=
          st.data.time_spent_separating_fork_vi + count } }
      add_cuts (fun d => { d with total_number_of_fork_vi_added :=
        d.total_number_of_fork_vi_added + 1 }) valid_cuts_5 st
    else st
  st

/-! ## Reading the callback per family -/

/-- The parameters of a family of valid inequalities; the feasibility separator has none. -/
def CallbackParams.family (params : CallbackParams) : Family → Option FamilyParams
  | Family.feasibility => none
  | Family.subtour_elimination => some params.subtour_elim
  | Family.generalised_order => some params.generalised_order
  | Family.capacity => some params.capacity
  | Family.simplified_fork => some params.simplified_fork
  | Family.fork => some params.fork

/-- The counter of cuts added of a family. -/
def Data.cuts_added (d : Data) : Family → Nat
  | Family.feasibility => d.total_number_of_feasibility_cuts_added
  | Family.subtour_elimination => d.total_number_of_subtour_elimination_vi_added
  | Family.generalised_order => d.total_number_of_generalised_order_vi_added
  | Family.capacity => d.total_number_of_capacity_vi_added
  | Family.simplified_fork => d.total_number_of_simplified_fork_vi_added
  | Family.fork => d.total_number_of_fork_vi_added

/-- The accumulated separation time of a family of valid inequalities; `data` has no such
field for the feasibility separator. -/
def Data.time_spent (d : Data) : Family → Option ℚ
  | Family.feasibility => none
  | Family.subtour_elimination => some d.time_spent_separating_subtour_elimination_vi
  | Family.generalised_order => some d.time_spent_separating_generalised_order_vi
  | Family.capacity => some d.time_spent_separating_capacity_vi
  | Family.simplified_fork => some d.time_spent_separating_simplified_fork_vi
  | Family.fork => some d.time_spent_separating_fork_vi

/-- One block of `cuts_callback::main`: under condition `c`, separator `f` is called, its
time is added by `bump`, and its cuts are added, each counted by `incr`. -/
def run_family (c : Prop) [Decidable c] (f : Family) (bump incr : Data → Data)
    (cuts : List Cut) (st : CallbackState) : CallbackState :=
  if c then add_cuts incr cuts { st with ran := st.ran ++ [f], data := bump st.data } else st

/-- All counters and times zero, nothing added, nothing run. -/
def state0 : CallbackState :=
  ⟨⟨0, 0, 0, 0, 0, 0, 0, 0, 0, 0, 0⟩, [], []⟩

/-- Every family disabled, every period 1. -/
def all_disabled : CallbackParams :=
  ⟨⟨false, 1⟩, ⟨false, 1⟩, ⟨false, 1⟩, ⟨false, 1⟩, ⟨false, 1⟩⟩

/-- Only the capacity family enabled, every second node. -/
def capacity_every_2 : CallbackParams :=
  ⟨⟨false, 1⟩, ⟨false, 1⟩, ⟨true, 2⟩, ⟨false, 1⟩, ⟨false, 1⟩⟩

/-- The LP values of the x variables of `graph1` on the tour `0, 1, 2, 3`: the arcs in
row-major order are `(0,1), (0,2), (0,3), (1,2), (1,3), (2,1), (2,3)`. -/
def lp_tour1 : Nat → ℚ := fun k => [1, 0, 0, 1, 0, 0, 1].getD k 0

/-! ## The pairs of the 2-cycle rows -/

/-- The pairs `(i, j)`, `i < j`, of nodes `0..2n+1`, in the order of the loop nest
`for(i = 0; i <= 2n+1; i++) for(j = i + 1; j <= 2n+1; j++)`. -/
def upper_pairs (n : Nat) : List (Nat × Nat) :=
  (List.range (2 * n + 2)).flatMap (fun i =>
    (List.range' (i + 1) (2 * n + 1 - i)).map (fun j => (i, j)))

/-- The unordered pairs of distinct nodes with both arcs allowed, each as `(i, j)` with
`i < j`, in the order of the loop nest. -/
def tce_pairs (g : Graph) : List (Nat × Nat) :=
  (upper_pairs g.n).filter (fun p => decide (g.cost p.1 p.2 ≥ 0 ∧ g.cost p.2 p.1 ≥ 0))

/-- The entries of the column of `x_i_j` in the 2-cycle rows, in closed form. -/
def x_column_tce (g : Graph) (i j : Nat) : Column :=
  ((tce_pairs g).enumFrom 0).flatMap (fun q =>
    if (i = q.2.1 ∧ j = q.2.2) ∨ (i = q.2.2 ∧ j = q.2.1) then
      [(RowRef.two_cycles_elimination q.1, 1)] else [])

/-- Rows of the strengthenings the model builder adds after the 2-cycle rows. -/
def RowRef.is_after_tce : RowRef → Prop
  | RowRef.subpath_elimination _ => True
  | RowRef.k_opt_constraint _ => True
  | _ => False

/-- The 2-cycle rows only. -/
def params_tce : Params := ⟨true, false, fun _ _ _ => false, false, 0, fun _ _ => 0⟩

/-! ## The assignment of a tour -/

/-- The loads of a path as an assignment of the y variables: on an arc of the path the
load carried on leaving its tail, `0` on every other arc. -/
def tour_y (g : Graph) (p : List Nat) : Nat → Nat → Int :=
  fun a b => if (a, b) ∈ tour_arcs p then load_after g p (p.indexOf a) else 0

/-- On every arc `(v_k, v_{k+1})` of the path the load carried lies between the
coefficients alpha and beta of the arc and within `[0, Q]`. -/
def loads_fit_links (g : Graph) (p : List Nat) : Prop :=
  ∀ k ∈ List.range (2 * g.n + 1),
    alpha g (p.getD k 0) (p.getD (k + 1) 0) ≤ load_after g p k ∧
    load_after g p k ≤ beta g (p.getD k 0) (p.getD (k + 1) 0) ∧
    0 ≤ load_after g p k ∧ load_after g p k ≤ g.capacity

instance (g : Graph) (p : List Nat) : Decidable (loads_fit_links g p) := by
  unfold loads_fit_links; infer_instance

/-- The assignment `(xv, yv)` satisfies the rows of the base model (`outdegree`,
`indegree`, `load`, `initial_load`, `y_lower`, `y_upper`) and the bounds of the x and y
variables. -/
def Model.base_rows_hold (m : Model) (xv yv : Nat → Nat → Int) : Prop :=
  m.rows_hold xv yv m.outdegree RowRef.outdegree ∧
  m.rows_hold xv yv m.indegree RowRef.indegree ∧
  m.rows_hold xv yv m.load RowRef.load ∧
  m.rows_hold xv yv m.initial_load RowRef.initial_load ∧
  m.rows_hold xv yv m.y_lower RowRef.y_lower ∧
  m.rows_hold xv yv m.y_upper RowRef.y_upper ∧
  m.x_bounds_hold xv ∧ m.y_bounds_hold yv

instance (m : Model) (xv yv : Nat → Nat → Int) : Decidable (m.base_rows_hold xv yv) := by
  unfold Model.base_rows_hold; infer_instance

/-- Three requests of demand 1, capacity 10, draught 10 everywhere; arcs into the source,
out of the sink and from a node to itself are forbidden. -/
def graph3u : Graph where
  n := 3
  capacity := 10
  cost := fun i j => if i = j ∨ j = 0 ∨ i = 7 then -1 else 1
  demand := fun i => [0, 1, 1, 1, -1, -1, -1, 0].getD i 0
  draught := fun _ => 10

/-- The path `0, 1, 2, 6, 3, 4, 5, 7` of `graph3u`: the delivery 6 comes before its
pickup 3. -/
def tour3u : List Nat := [0, 1, 2, 6, 3, 4, 5, 7]

/-! ## Snapshots of `double` values -/

/-- The `double` nearest to `10^-6`, the value of the literal `1e-6`. -/
def eps64 : ℚ := 4722366482869645 / 4722366482869645213696

/-- Two requests of demand 1, capacity 10, draught 10 everywhere; arcs into the source,
out of the sink and from a node to itself are forbidden. -/
def graph2u : Graph where
  n := 2
  capacity := 10
  cost := fun i j => if i = j ∨ j = 0 ∨ i = 5 then -1 else 1
  demand := fun i => [0, 1, 1, -1, -1, 0].getD i 0
  draught := fun _ => 10

/-- A snapshot on `graph2u` of the `double` values `x(1,2) = 0.9`, `x(1,4) = 0.05`,
`x(2,1) = 0.5`, `x(2,3) = 0.3`, `x(2,4) = 0.15000099999999997`, `x(3,4) = 0.6`,
`x(4,3) = 0.5`, and 0 elsewhere. -/
def snapshot_lhs : XValues := fun a b =>
  if (a, b) = (1, 2) then 8106479329266893 / 9007199254740992
  else if (a, b) = (1, 4) then 3602879701896397 / 72057594037927936
  else if (a, b) = (2, 1) then 1 / 2
  else if (a, b) = (2, 3) then 5404319552844595 / 18014398509481984
  else if (a, b) = (2, 4) then 5404355581641613 / 36028797018963968
  else if (a, b) = (3, 4) then 5404319552844595 / 9007199254740992
  else if (a, b) = (4, 3) then 1 / 2
  else 0

/-- A snapshot on `graph2u` of the `double` values `x(1,3) = 0.1`, `x(3,1) = 0.2`,
`x(1,4) = 0.30000000000000004`, and 0 elsewhere. -/
def snapshot_flow : XValues := fun a b =>
  if (a, b) = (1, 3) then 3602879701896397 / 36028797018963968
  else if (a, b) = (3, 1) then 3602879701896397 / 18014398509481984
  else if (a, b) = (1, 4) then 1351079888211149 / 4503599627370496
  else 0

/-- The LP values of the x variables of `graph1` on `tour1`, with the `double` `0.999999`
in the place of the 1 of the arc `(1, 2)`. -/
def lp_near_tour1 : Nat → ℚ :=
  fun k => [1, 0, 0, 9007190247541737 / 9007199254740992, 0, 0, 1].getD k 0

/-! # Theorems -/

/-! ## Machine arithmetic -/

/-- The rounding on known values: the literals `0.1`, `0.2`, `0.3` and `1e-6` as
`double` values, the sum `0.1 + 0.2 = 0.30000000000000004`, the ties `2^53 + 1` and
`2^53 + 3` rounded to the even neighbour, the quotient `1.0 / 3.0`, and two `int` values
out of range. -/
theorem machine_arithmetic_examples :
    round64 (1 / 10) = 3602879701896397 / 36028797018963968 ∧
    round64 (2 / 10) = 3602879701896397 / 18014398509481984 ∧
    fadd (round64 (1 / 10)) (round64 (2 / 10)) = 1351079888211149 / 4503599627370496 ∧
    round64 (3 / 10) = 5404319552844595 / 18014398509481984 ∧
    round64 (1 / 1000000) = eps64 ∧
    round64 eps64 = eps64 ∧
    round64 9007199254740993 = 9007199254740992 ∧
    round64 9007199254740995 = 9007199254740996 ∧
    fdiv 1 3 = 6004799503160661 / 18014398509481984 ∧
    wrap_int 2147483648 = -2147483648 ∧
    wrap_int (-2147483649) = 2147483647 := by
  decide!

theorem pow2_eq_zpow (k : Int) : pow2 k = (2 : ℚ) ^ k := by
  unfold pow2
  split
  · rename_i h
    conv_rhs => rw [← Int.toNat_of_nonneg h]
    rw [zpow_natCast]
    push_cast
    rfl
  · rename_i h
    have h' : 0 ≤ -k := by omega
    have e : k = -((-k).toNat : Int) := by rw [Int.toNat_of_nonneg h']; omega
    conv_rhs => rw [e]
    rw [zpow_neg, zpow_natCast]
    push_cast
    rw [one_div]

theorem pow2_pos (k : Int) : 0 < pow2 k := by
  rw [pow2_eq_zpow]
  positivity

theorem bit_log2_loop_spec (fuel n : Nat) (h1 : 1 ≤ n) (h2 : n ≤ fuel) :
    2 ^ bit_log2_loop fuel n ≤ n ∧ n < 2 ^ (bit_log2_loop fuel n + 1) := by
  induction fuel generalizing n with
  | zero => omega
  | succ fuel ih =>
    unfold bit_log2_loop
    split
    · rename_i h
      obtain ⟨ih1, ih2⟩ := ih (n / 2) (by omega) (by omega)
      rw [pow_succ] at ih2 ⊢
      rw [pow_succ (n := bit_log2_loop fuel (n / 2) + 1), pow_succ]
      constructor <;> omega
    · simp
      omega

theorem bit_log2_spec (n : Nat) (h1 : 1 ≤ n) :
    2 ^ bit_log2 n ≤ n ∧ n < 2 ^ (bit_log2 n + 1) :=
  bit_log2_loop_spec n n h1 (le_refl n)

/-- A rational other than 0 lies in the binade of its exponent. -/
theorem exponent_spec (q : ℚ) (hq : q ≠ 0) :
    pow2 (exponent q) ≤ |q| ∧ |q| < pow2 (exponent q + 1) := by
  have hn : 1 ≤ q.num.natAbs := by
    have : q.num ≠ 0 := Rat.num_ne_zero.mpr hq
    omega
  have hd : 1 ≤ q.den := q.den_pos
  obtain ⟨a1, a2⟩ := bit_log2_spec _ hn
  obtain ⟨b1, b2⟩ := bit_log2_spec _ hd
  have habs : |q| = (q.num.natAbs : ℚ) / (q.den : ℚ) := by
    conv_lhs => rw [← Rat.num_div_den q]
    rw [abs_div, Nat.abs_cast, Nat.cast_natAbs, Int.cast_abs]
  have hdpos : (0 : ℚ) < (q.den : ℚ) := by exact_mod_cast hd
  have a1' : (2 : ℚ) ^ (bit_log2 q.num.natAbs) ≤ (q.num.natAbs : ℚ) := by exact_mod_cast a1
  have a2' : (q.num.natAbs : ℚ) < (2 : ℚ) ^ (bit_log2 q.num.natAbs + 1) := by exact_mod_cast a2
  have b1' : (2 : ℚ) ^ (bit_log2 q.den) ≤ (q.den : ℚ) := by exact_mod_cast b1
  have b2' : (q.den : ℚ) < (2 : ℚ) ^ (bit_log2 q.den + 1) := by exact_mod_cast b2
  unfold exponent
  simp only []
  split
  · rename_i h
    refine ⟨h, ?_⟩
    rw [pow2_eq_zpow, habs, div_lt_iff₀ hdpos]
    have e : ((bit_log2 q.num.natAbs : Int) - (bit_log2 q.den : Int) + 1) =
        ((bit_log2 q.num.natAbs + 1 : Nat) : Int) - ((bit_log2 q.den : Nat) : Int) := by
      push_cast; ring
    rw [e, zpow_sub₀ (by norm_num), zpow_natCast, zpow_natCast]
    have hp : (0 : ℚ) < (2 : ℚ) ^ bit_log2 q.den := by positivity
    calc (q.num.natAbs : ℚ) < (2 : ℚ) ^ (bit_log2 q.num.natAbs + 1) := a2'
      _ = (2 : ℚ) ^ (bit_log2 q.num.natAbs + 1) / (2 : ℚ) ^ bit_log2 q.den *
            (2 : ℚ) ^ bit_log2 q.den := by field_simp
      _ ≤ (2 : ℚ) ^ (bit_log2 q.num.natAbs + 1) / (2 : ℚ) ^ bit_log2 q.den * (q.den : ℚ) := by
          apply mul_le_mul_of_nonneg_left b1'
          positivity
  · rename_i h
    rw [not_le] at h
    constructor
    · rw [pow2_eq_zpow, habs, le_div_iff₀ hdpos]
      have e : ((bit_log2 q.num.natAbs : Int) - (bit_log2 q.den : Int) - 1) =
          ((bit_log2 q.num.natAbs : Nat) : Int) - ((bit_log2 q.den + 1 : Nat) : Int) := by
        push_cast; ring
      rw [e, zpow_sub₀ (by norm_num), zpow_natCast, zpow_natCast]
      have hp : (0 : ℚ) < (2 : ℚ) ^ (bit_log2 q.den + 1) := by positivity
      calc (2 : ℚ) ^ bit_log2 q.num.natAbs / (2 : ℚ) ^ (bit_log2 q.den + 1) * (q.den : ℚ)
          ≤ (2 : ℚ) ^ bit_log2 q.num.natAbs / (2 : ℚ) ^ (bit_log2 q.den + 1) *
              (2 : ℚ) ^ (bit_log2 q.den + 1) := by
            apply mul_le_mul_of_nonneg_left (le_of_lt b2')
            positivity
        _ = (2 : ℚ) ^ bit_log2 q.num.natAbs := by field_simp
        _ ≤ (q.num.natAbs : ℚ) := a1'
    · rw [sub_add_cancel]
      exact h

theorem round_half_even_near (x : ℚ) : |(round_half_even x : ℚ) - x| ≤ 1 / 2 := by
  have h1 := Int.floor_le x
  have h2 := Int.lt_floor_add_one x
  unfold round_half_even
  rw [abs_le]
  split_ifs <;> push_cast <;> constructor <;> linarith

/-- The value `round64 q` is a multiple of the spacing of the binade of `q`, at most half
a spacing away from `q`. -/
theorem round64_near (q : ℚ) :
    (∃ m : Int, round64 q = m * pow2 (max (exponent q) (-1022) - 52)) ∧
    |round64 q - q| ≤ pow2 (max (exponent q) (-1022) - 52) / 2 := by
  by_cases hq : q = 0
  · subst hq
    refine ⟨⟨0, by simp [round64]⟩, ?_⟩
    simp only [round64, if_true, sub_zero, abs_zero]
    exact le_of_lt (half_pos (pow2_pos _))
  · have hu := pow2_pos (max (exponent q) (-1022) - 52)
    have hr : round64 q = round_half_even (q / pow2 (max (exponent q) (-1022) - 52)) *
        pow2 (max (exponent q) (-1022) - 52) := by
      unfold round64
      rw [if_neg hq]
    refine ⟨⟨_, hr⟩, ?_⟩
    have h := round_half_even_near (q / pow2 (max (exponent q) (-1022) - 52))
    have e : round64 q - q = ((round_half_even (q / pow2 (max (exponent q) (-1022) - 52)) : ℚ) -
        q / pow2 (max (exponent q) (-1022) - 52)) * pow2 (max (exponent q) (-1022) - 52) := by
      rw [hr]
      field_simp
    rw [e, abs_mul, abs_of_pos hu]
    calc _ ≤ 1 / 2 * pow2 (max (exponent q) (-1022) - 52) :=
          mul_le_mul_of_nonneg_right h (le_of_lt hu)
      _ = _ := by ring


theorem round_half_even_mono (x y : ℚ) (h : x ≤ y) : round_half_even x ≤ round_half_even y := by
  have hx1 := Int.floor_le x
  have hx2 := Int.lt_floor_add_one x
  have hy1 := Int.floor_le y
  have hy2 := Int.lt_floor_add_one y
  have hf : ⌊x⌋ ≤ ⌊y⌋ := Int.floor_mono h
  have hxle : round_half_even x ≤ ⌊x⌋ + 1 := by
    unfold round_half_even
    split_ifs <;> omega
  have hyge : ⌊y⌋ ≤ round_half_even y := by
    unfold round_half_even
    split_ifs <;> omega
  rcases lt_or_eq_of_le hf with hlt | heq
  · omega
  · unfold round_half_even
    rw [heq] at hx1 hx2 ⊢
    split_ifs <;> first | omega | (exfalso; linarith)

theorem round_half_even_int (n : Int) : round_half_even (n : ℚ) = n := by
  unfold round_half_even
  simp

theorem round_half_even_neg (x : ℚ) : round_half_even (-x) = -round_half_even x := by
  by_cases hi : (⌊x⌋ : ℚ) = x
  · rw [← hi, ← Int.cast_neg, round_half_even_int, round_half_even_int]
  · have h1 := Int.floor_le x
    have h2 := Int.lt_floor_add_one x
    have h1' : (⌊x⌋ : ℚ) < x := lt_of_le_of_ne h1 hi
    have hfl : ⌊-x⌋ = -⌊x⌋ - 1 := by
      rw [Int.floor_eq_iff]
      push_cast
      constructor <;> linarith
    unfold round_half_even
    rw [hfl]
    push_cast
    split_ifs <;> first | omega | (exfalso; linarith)

theorem exponent_neg (q : ℚ) : exponent (-q) = exponent q := by
  unfold exponent
  simp only [Rat.neg_num, Rat.neg_den, Int.natAbs_neg, abs_neg]

theorem round64_neg (q : ℚ) : round64 (-q) = -round64 q := by
  unfold round64
  by_cases hq : q = 0
  · simp [hq]
  · have hq' : -q ≠ 0 := neg_ne_zero.mpr hq
    rw [if_neg hq, if_neg hq', exponent_neg, neg_div, round_half_even_neg]
    push_cast
    ring

theorem round64_nonneg (q : ℚ) (h : 0 ≤ q) : 0 ≤ round64 q := by
  unfold round64
  split
  · exact le_refl _
  · have hu := pow2_pos (max (exponent q) (-1022) - 52)
    have : round_half_even 0 ≤ round_half_even (q / pow2 (max (exponent q) (-1022) - 52)) :=
      round_half_even_mono _ _ (div_nonneg h (le_of_lt hu))
    have e : round_half_even 0 = 0 := by
      have := round_half_even_int 0
      simpa using this
    rw [e] at this
    exact mul_nonneg (by exact_mod_cast this) (le_of_lt hu)

theorem exponent_mono (a b : ℚ) (ha : 0 < a) (h : a ≤ b) : exponent a ≤ exponent b := by
  have hb : 0 < b := lt_of_lt_of_le ha h
  obtain ⟨a1, _⟩ := exponent_spec a (ne_of_gt ha)
  obtain ⟨_, b2⟩ := exponent_spec b (ne_of_gt hb)
  rw [abs_of_pos ha] at a1
  rw [abs_of_pos hb] at b2
  by_contra hlt
  rw [not_le] at hlt
  have : pow2 (exponent b + 1) ≤ pow2 (exponent a) := by
    rw [pow2_eq_zpow, pow2_eq_zpow]
    exact zpow_le_zpow_right₀ (by norm_num) (by omega)
  linarith

/-- For `q > 0` with binade exponent `E = max (exponent q) (-1022)`:
`round64 q <= 2^(E+1)`, and `2^(exponent q) <= round64 q` when `exponent q >= -1022`. -/
theorem round64_bounds (q : ℚ) (hq : 0 < q) :
    round64 q ≤ pow2 (max (exponent q) (-1022) + 1) ∧
    (-1022 ≤ exponent q → pow2 (exponent q) ≤ round64 q) := by
  obtain ⟨s1, s2⟩ := exponent_spec q (ne_of_gt hq)
  rw [abs_of_pos hq] at s1 s2
  have hu := pow2_pos (max (exponent q) (-1022) - 52)
  have hr : round64 q = round_half_even (q / pow2 (max (exponent q) (-1022) - 52)) *
      pow2 (max (exponent q) (-1022) - 52) := by
    unfold round64
    rw [if_neg (ne_of_gt hq)]
  constructor
  · have hle : q / pow2 (max (exponent q) (-1022) - 52) ≤ (((2 : Int) ^ 53 : Int) : ℚ) := by
      rw [div_le_iff₀ hu]
      have e : (((2 : Int) ^ 53 : Int) : ℚ) * pow2 (max (exponent q) (-1022) - 52) =
          pow2 (max (exponent q) (-1022) + 1) := by
        rw [pow2_eq_zpow, pow2_eq_zpow,
          show max (exponent q) (-1022) + 1 = 53 + (max (exponent q) (-1022) - 52) by ring,
          zpow_add₀ (by norm_num)]
        norm_num
      rw [e]
      have : pow2 (exponent q + 1) ≤ pow2 (max (exponent q) (-1022) + 1) := by
        rw [pow2_eq_zpow, pow2_eq_zpow]
        exact zpow_le_zpow_right₀ (by norm_num) (by omega)
      linarith
    have hm := round_half_even_mono _ _ hle
    rw [round_half_even_int] at hm
    rw [hr]
    have e : pow2 (max (exponent q) (-1022) + 1) =
        (((2 : Int) ^ 53 : Int) : ℚ) * pow2 (max (exponent q) (-1022) - 52) := by
      rw [pow2_eq_zpow, pow2_eq_zpow,
        show max (exponent q) (-1022) + 1 = 53 + (max (exponent q) (-1022) - 52) by ring,
        zpow_add₀ (by norm_num)]
      norm_num
    rw [e]
    exact mul_le_mul_of_nonneg_right (by exact_mod_cast hm) (le_of_lt hu)
  · intro hn
    have hmax : max (exponent q) (-1022) = exponent q := max_eq_left hn
    rw [hmax] at hr hu
    have e : pow2 (exponent q) =
        (((2 : Int) ^ 52 : Int) : ℚ) * pow2 (exponent q - 52) := by
      rw [pow2_eq_zpow, pow2_eq_zpow]
      conv_lhs => rw [show exponent q = 52 + (exponent q - 52) by ring]
      rw [zpow_add₀ (by norm_num)]
      norm_num
    have hle : (((2 : Int) ^ 52 : Int) : ℚ) ≤ q / pow2 (exponent q - 52) := by
      rw [le_div_iff₀ hu, ← e]
      exact s1
    have hm := round_half_even_mono _ _ hle
    rw [round_half_even_int] at hm
    rw [hr, e]
    exact mul_le_mul_of_nonneg_right (by exact_mod_cast hm) (le_of_lt hu)

theorem round64_mono_pos (a b : ℚ) (ha : 0 < a) (h : a ≤ b) : round64 a ≤ round64 b := by
  have hb : 0 < b := lt_of_lt_of_le ha h
  have he := exponent_mono a b ha h
  have hE : max (exponent a) (-1022) ≤ max (exponent b) (-1022) := max_le_max he (le_refl _)
  rcases lt_or_eq_of_le hE with hlt | heq
  · have hbn : -1022 ≤ exponent b := by
      by_contra hc
      rw [not_le] at hc
      rw [max_eq_right (le_of_lt hc)] at hlt
      have := le_max_right (exponent a) (-1022)
      omega
    have hEb : max (exponent b) (-1022) = exponent b := max_eq_left hbn
    have h1 := (round64_bounds a ha).1
    have h2 := (round64_bounds b hb).2 hbn
    have : pow2 (max (exponent a) (-1022) + 1) ≤ pow2 (exponent b) := by
      rw [pow2_eq_zpow, pow2_eq_zpow]
      exact zpow_le_zpow_right₀ (by norm_num) (by omega)
    linarith
  · unfold round64
    rw [if_neg (ne_of_gt ha), if_neg (ne_of_gt hb), heq]
    have hu := pow2_pos (max (exponent b) (-1022) - 52)
    have := round_half_even_mono _ _ (div_le_div_of_nonneg_right h (le_of_lt hu))
    exact mul_le_mul_of_nonneg_right (by exact_mod_cast this) (le_of_lt hu)

/-- Rounding to the nearest `double` is monotone. -/
theorem round64_mono (a b : ℚ) (h : a ≤ b) : round64 a ≤ round64 b := by
  rcases lt_trichotomy 0 a with ha | ha | ha
  · exact round64_mono_pos a b ha h
  · subst ha
    have := round64_nonneg b h
    simpa [round64] using this
  · rcases le_or_lt 0 b with hb | hb
    · have h1 := round64_nonneg (-a) (by linarith)
      rw [round64_neg] at h1
      have h2 := round64_nonneg b hb
      linarith
    · have := round64_mono_pos (-b) (-a) (by linarith) (by linarith)
      rw [round64_neg, round64_neg] at this
      linarith


theorem round64_of_multiple (r : ℚ) (n : Int)
    (h : r = n * pow2 (max (exponent r) (-1022) - 52)) : round64 r = r := by
  by_cases hr : r = 0
  · rw [hr]
    simp [round64]
  · have hu := pow2_pos (max (exponent r) (-1022) - 52)
    unfold round64
    rw [if_neg hr]
    have e : r / pow2 (max (exponent r) (-1022) - 52) = (n : ℚ) := by
      rw [div_eq_iff (ne_of_gt hu)]
      exact h
    rw [e, round_half_even_int]
    exact h.symm

theorem round64_idem_pos (q : ℚ) (hq : 0 < q) : round64 (round64 q) = round64 q := by
  have hu := pow2_pos (max (exponent q) (-1022) - 52)
  have hr : round64 q = round_half_even (q / pow2 (max (exponent q) (-1022) - 52)) *
      pow2 (max (exponent q) (-1022) - 52) := by
    unfold round64
    rw [if_neg (ne_of_gt hq)]
  have h0 := round64_nonneg q (le_of_lt hq)
  rcases eq_or_lt_of_le h0 with hz | hpos
  · rw [← hz]
    simp [round64]
  · obtain ⟨s1, s2⟩ := exponent_spec (round64 q) (ne_of_gt hpos)
    rw [abs_of_pos hpos] at s1 s2
    have hub := (round64_bounds q hq).1
    rcases le_or_lt (max (exponent (round64 q)) (-1022)) (max (exponent q) (-1022)) with hE | hE
    · obtain ⟨m, hm⟩ : ∃ m : Int, round64 q = m * pow2 (max (exponent q) (-1022) - 52) :=
        ⟨_, hr⟩
      apply round64_of_multiple (round64 q)
        (m * (2 : Int) ^ (max (exponent q) (-1022) - max (exponent (round64 q)) (-1022)).toNat)
      have e : pow2 (max (exponent q) (-1022) - 52) =
          (((2 : Int) ^ (max (exponent q) (-1022) -
            max (exponent (round64 q)) (-1022)).toNat : Int) : ℚ) *
          pow2 (max (exponent (round64 q)) (-1022) - 52) := by
        rw [pow2_eq_zpow, pow2_eq_zpow]
        push_cast
        rw [← zpow_natCast, Int.toNat_of_nonneg (by omega), ← zpow_add₀ (by norm_num)]
        congr 1
        ring
      conv_lhs => rw [hm, e]
      push_cast
      ring
    · have hn : -1022 < exponent (round64 q) := by
        by_contra hc
        rw [not_lt] at hc
        rw [max_eq_right hc] at hE
        have := le_max_right (exponent q) (-1022)
        omega
      have hE' : max (exponent (round64 q)) (-1022) = exponent (round64 q) :=
        max_eq_left (le_of_lt hn)
      rw [hE'] at hE
      have hle : exponent (round64 q) ≤ max (exponent q) (-1022) + 1 := by
        by_contra hc
        rw [not_le] at hc
        have : pow2 (max (exponent q) (-1022) + 1) < pow2 (exponent (round64 q)) := by
          rw [pow2_eq_zpow, pow2_eq_zpow]
          exact zpow_lt_zpow_right₀ (by norm_num) hc
        linarith
      have heq : exponent (round64 q) = max (exponent q) (-1022) + 1 := by omega
      have hval : round64 q = pow2 (exponent (round64 q)) := by
        apply le_antisymm
        · rw [heq]
          exact hub
        · exact s1
      apply round64_of_multiple (round64 q) ((2 : Int) ^ 52)
      rw [hE']
      conv_lhs => rw [hval]
      rw [pow2_eq_zpow, pow2_eq_zpow]
      conv_lhs => rw [show exponent (round64 q) = 52 + (exponent (round64 q) - 52) by ring]
      rw [zpow_add₀ (by norm_num)]
      norm_num

/-- A value `round64` returns is a `double`: rounding it again leaves it as it is. -/
theorem round64_idem (q : ℚ) : round64 (round64 q) = round64 q := by
  rcases lt_trichotomy 0 q with hq | hq | hq
  · exact round64_idem_pos q hq
  · subst hq
    simp [round64]
  · have := round64_idem_pos (-q) (by linarith)
    rw [round64_neg, round64_neg] at this
    exact neg_injective this

/-- Adding `eps >= 0` to a `double` in `double` arithmetic does not decrease it. -/
theorem le_fadd_of_nonneg (f eps : ℚ) (hf : round64 f = f) (he : 0 ≤ eps) : f ≤ fadd f eps := by
  unfold fadd
  calc f = round64 f := hf.symm
    _ ≤ round64 (f + eps) := round64_mono _ _ (by linarith)

/-! ## Loops as list operations -/

theorem foldl_flatMap_eq {α β σ : Type} (l : List α) (h : α → List β) (F : σ → β → σ) (init : σ) :
    (l.flatMap h).foldl F init = l.foldl (fun s a => (h a).foldl F s) init := by
  induction l generalizing init with
  | nil => rfl
  | cons a l ih => simp [List.flatMap_cons, List.foldl_append, ih]

theorem for_nodes2_eq_foldl {σ : Type} (n : Nat) (body : σ → Nat → Nat → σ) (init : σ) :
    for_nodes2 n body init = (node_pairs n).foldl (fun s p => body s p.1 p.2) init := by
  unfold for_nodes2 node_pairs
  rw [foldl_flatMap_eq]
  simp [List.foldl_map]

theorem foldl_ite_eq_filter {α σ : Type} (l : List α) (c : α → Bool) (step : σ → α → σ)
    (init : σ) :
    l.foldl (fun s a => if c a = true then step s a else s) init = (l.filter c).foldl step init := by
  induction l generalizing init with
  | nil => rfl
  | cons a l ih =>
    by_cases h : c a = true
    · simp [List.filter_cons, h, ih]
    · simp [List.filter_cons, h, ih]

theorem foldl_append_singleton {α β : Type} (l : List α) (f : α → β) (init : List β) :
    l.foldl (fun acc a => acc ++ [f a]) init = init ++ l.map f := by
  induction l generalizing init with
  | nil => simp
  | cons a l ih => simp [ih]

theorem foldl_append_flatMap {α β : Type} (l : List α) (f : α → List β) (init : List β) :
    l.foldl (fun acc a => acc ++ f a) init = init ++ l.flatMap f := by
  induction l generalizing init with
  | nil => simp
  | cons a l ih => simp [ih, List.flatMap_cons]

/-- The loop nest over allowed arcs is a fold over `arcs g`. -/
theorem for_nodes2_allowed {σ : Type} (g : Graph) (step : σ → Nat → Nat → σ) (init : σ) :
    for_nodes2 g.n (fun s ii jj => if g.cost ii jj ≥ 0 then step s ii jj else s) init =
      ((node_pairs g.n).filter (fun p => decide (g.cost p.1 p.2 ≥ 0))).foldl
        (fun s p => step s p.1 p.2) init := by
  rw [for_nodes2_eq_foldl, ← foldl_ite_eq_filter]
  simp

theorem arcs_eq (g : Graph) :
    arcs g = (node_pairs g.n).filter (fun p => decide (g.cost p.1 p.2 ≥ 0)) := by
  unfold arcs
  rw [for_nodes2_allowed g (fun l ii jj => l ++ [(ii, jj)]) []]
  have h := foldl_append_singleton
    ((node_pairs g.n).filter (fun p => decide (g.cost p.1 p.2 ≥ 0)))
    (fun p : Nat × Nat => (p.1, p.2)) []
  simpa using h

theorem for_nodes2_arcs {σ : Type} (g : Graph) (step : σ → Nat → Nat → σ) (init : σ) :
    for_nodes2 g.n (fun s ii jj => if g.cost ii jj ≥ 0 then step s ii jj else s) init =
      (arcs g).foldl (fun s p => step s p.1 p.2) init := by
  rw [for_nodes2_allowed, arcs_eq]

theorem mem_node_pairs (n a b : Nat) :
    (a, b) ∈ node_pairs n ↔ a ≤ 2 * n + 1 ∧ b ≤ 2 * n + 1 := by
  simp [node_pairs, List.mem_flatMap, List.mem_range]
  omega

theorem nodup_node_pairs (n : Nat) : (node_pairs n).Nodup := by
  unfold node_pairs
  rw [List.nodup_flatMap]
  constructor
  · intro i _
    exact (List.nodup_range _).map (fun a b h => by simpa using h)
  · apply (List.nodup_range _).pairwise_of_forall_ne
    intro a _ b _ hab
    simp only [Function.onFun, List.Disjoint]
    intro p hp1 hp2
    simp only [List.mem_map] at hp1 hp2
    obtain ⟨_, _, rfl⟩ := hp1
    obtain ⟨_, _, h⟩ := hp2
    simp at h
    exact hab h.1.symm

theorem mem_arcs (g : Graph) (a b : Nat) :
    (a, b) ∈ arcs g ↔ a ≤ 2 * g.n + 1 ∧ b ≤ 2 * g.n + 1 ∧ g.cost a b ≥ 0 := by
  rw [arcs_eq, List.mem_filter, mem_node_pairs]
  simp [and_assoc]

theorem nodup_arcs (g : Graph) : (arcs g).Nodup := by
  rw [arcs_eq]
  exact (nodup_node_pairs _).filter _

/-- A loop with a counter appends, for the `k`-th element, what the body makes of `k`. -/
theorem foldl_counter {α β : Type} (l : List α) (f : Nat → α → List β) (init : List β)
    (k0 : Nat) :
    l.foldl (fun (s : List β × Nat) a => (s.1 ++ f s.2 a, s.2 + 1)) (init, k0) =
      (init ++ (l.enumFrom k0).flatMap (fun q => f q.1 q.2), k0 + l.length) := by
  induction l generalizing init k0 with
  | nil => simp
  | cons a l ih =>
    simp only [List.foldl_cons, ih, List.enumFrom_cons, List.flatMap_cons, List.length_cons]
    simp [List.append_assoc]
    omega

theorem sum_enumFrom_select {α M : Type} [AddCommMonoid M] (l : List α) (k0 k : Nat)
    (c : α → M) :
    ((l.enumFrom k0).map (fun q => if q.1 = k then c q.2 else 0)).sum =
      if k0 ≤ k then ((l[k - k0]?).map c).getD 0 else 0 := by
  induction l generalizing k0 with
  | nil => simp
  | cons a l ih =>
    simp only [List.enumFrom_cons, List.map_cons, List.sum_cons, ih]
    by_cases h1 : k0 = k
    · subst h1
      simp
    · by_cases h2 : k0 ≤ k
      · have h3 : k0 + 1 ≤ k := by omega
        have h4 : k - k0 = (k - (k0 + 1)) + 1 := by omega
        simp [h1, h2, h3, h4]
      · have h3 : ¬ k0 + 1 ≤ k := by omega
        simp [h1, h2, h3]

theorem sum_select {α M : Type} [DecidableEq α] [AddCommMonoid M] (l : List α) (hl : l.Nodup)
    (a : α) (c : α → M) :
    (l.map (fun b => if b = a then c b else 0)).sum = if a ∈ l then c a else 0 := by
  induction l with
  | nil => simp
  | cons b l ih =>
    rw [List.nodup_cons] at hl
    simp only [List.map_cons, List.sum_cons, ih hl.2, List.mem_cons]
    by_cases h : b = a
    · subst h
      simp [hl.1]
    · have h' : ¬ a = b := fun e => h e.symm
      simp [h, h']

/-! ## The arc index in the model builder and in `add_cut` -/

theorem variables_x_eq (g : Graph) (params : Params) :
    variables_x g params = (arcs g).map (x_var g params) := by
  unfold variables_x
  refine (for_nodes2_arcs g (fun (vars : List NumVar) i j =>
    vars ++ [x_var g params (i, j)]) []).trans ?_
  have h := foldl_append_singleton (arcs g) (x_var g params) []
  simpa [x_var] using h

theorem variables_y_eq (g : Graph) : variables_y g = (arcs g).map (y_var g) := by
  unfold variables_y
  refine (for_nodes2_arcs g (fun (vars : List NumVar) i j =>
    vars ++ [y_var g (i, j)]) []).trans ?_
  have h := foldl_append_singleton (arcs g) (y_var g) []
  simpa [y_var] using h

theorem add_cut_expr (g : Graph) (S T : List Nat) (rhs_val : ℚ) :
    (add_cut g S T rhs_val).expr =
      ((arcs g).enumFrom 0).flatMap (fun q => if in_cut S T q.2.1 q.2.2 = true then [q.1] else []) := by
  unfold add_cut
  have h1 : (fun (s : List Nat × Nat) (ii jj : Nat) =>
      if g.cost ii jj ≥ 0 then
        ((if in_cut S T ii jj = true then s.1 ++ [s.2] else s.1), s.2 + 1)
      else s) =
      (fun (s : List Nat × Nat) (ii jj : Nat) =>
      if g.cost ii jj ≥ 0 then
        (fun (s : List Nat × Nat) (ii jj : Nat) =>
          (s.1 ++ (if in_cut S T ii jj = true then [s.2] else []), s.2 + 1)) s ii jj
      else s) := by
    funext s ii jj
    by_cases h : in_cut S T ii jj = true <;> simp [h]
  simp only [h1]
  rw [for_nodes2_arcs g (fun (s : List Nat × Nat) (ii jj : Nat) =>
          (s.1 ++ (if in_cut S T ii jj = true then [s.2] else []), s.2 + 1))]
  have h2 := foldl_counter (arcs g)
    (fun k (p : Nat × Nat) => if in_cut S T p.1 p.2 = true then [k] else []) [] 0
  simp only [List.nil_append] at h2
  rw [h2]

theorem in_cut_iff (S T : List Nat) (a b : Nat) :
    in_cut S T a b = true ↔ (a ∈ S ∧ b ∈ S) ∨ (a ∈ S ∧ b ∈ T) ∨ (a ∈ T ∧ b ∈ T) := by
  unfold in_cut
  by_cases h1 : a ∈ S <;> by_cases h2 : b ∈ S <;> by_cases h3 : a ∈ T <;> by_cases h4 : b ∈ T <;>
    simp [h1, h2, h3, h4]

theorem count_flatMap_enumFrom (l : List (Nat × Nat)) (c : Nat × Nat → Bool) (k0 k : Nat) :
    ((l.enumFrom k0).flatMap (fun q => if c q.2 = true then [q.1] else [])).count k =
      if k0 ≤ k then ((l[k - k0]?).map (fun p => if c p = true then 1 else 0)).getD 0 else 0 := by
  rw [← sum_enumFrom_select l k0 k (fun p => if c p = true then 1 else 0)]
  rw [List.count_flatMap]
  congr 1
  apply List.map_congr_left
  intro q _
  simp only [Function.comp]
  by_cases h1 : c q.2 = true <;> by_cases h2 : q.1 = k <;> simp [h1, h2, List.count_cons]

/-- The number of terms `x[k]` in the expression of a cut: one if the `k`-th allowed arc
passes the test of `add_cut`, none otherwise. -/
theorem add_cut_count (g : Graph) (S T : List Nat) (rhs_val : ℚ) (k : Nat) :
    (add_cut g S T rhs_val).expr.count k =
      (((arcs g)[k]?).map (fun p => if in_cut S T p.1 p.2 = true then 1 else 0)).getD 0 := by
  rw [add_cut_expr]
  have h := count_flatMap_enumFrom (arcs g) (fun p => in_cut S T p.1 p.2) 0 k
  simpa using h

/-! ## Coefficients of the columns -/

theorem coef_nil (r : RowRef) : coef [] r = 0 := rfl

theorem coef_append (c1 c2 : Column) (r : RowRef) :
    coef (c1 ++ c2) r = coef c1 r + coef c2 r := by
  simp [coef, List.filter_append, List.map_append, List.sum_append]

theorem coef_cons (e : RowRef × Int) (c : Column) (r : RowRef) :
    coef (e :: c) r = (if e.1 = r then e.2 else 0) + coef c r := by
  by_cases h : e.1 = r <;> simp [coef, List.filter_cons, h]

theorem coef_eq_zero (c : Column) (r : RowRef) (h : ∀ e ∈ c, e.1 ≠ r) : coef c r = 0 := by
  induction c with
  | nil => rfl
  | cons e c ih =>
    rw [coef_cons, ih (fun e' he' => h e' (List.mem_cons_of_mem _ he'))]
    simp [h e (List.mem_cons_self _ _)]

theorem coef_flatMap {α : Type} (l : List α) (F : α → Column) (r : RowRef) :
    coef (l.flatMap F) r = (l.map (fun a => coef (F a) r)).sum := by
  induction l with
  | nil => rfl
  | cons a l ih => simp [List.flatMap_cons, coef_append, ih]

theorem foldl_inv {σ α : Type} (Inv : σ → Prop) (step : σ → α → σ) (l : List α) (init : σ)
    (h0 : Inv init) (hstep : ∀ s a, Inv s → Inv (step s a)) : Inv (l.foldl step init) := by
  induction l generalizing init with
  | nil => exact h0
  | cons a l ih => exact ih _ (hstep _ _ h0)

theorem foldl_select {α β : Type} [DecidableEq α] (l : List α) (hl : l.Nodup) (i : α)
    (F : α → List β) (init : List β) :
    l.foldl (fun col ii => if i = ii then col ++ F ii else col) init =
      init ++ (if i ∈ l then F i else []) := by
  induction l generalizing init with
  | nil => simp
  | cons a l ih =>
    rw [List.nodup_cons] at hl
    simp only [List.foldl_cons, ih hl.2, List.mem_cons]
    by_cases h : i = a
    · subst h
      simp [hl.1]
    · simp [h]

theorem y_column_eq (g : Graph) (i j : Nat) : y_column g i j = y_column_closed g i j := by
  unfold y_column y_column_closed
  have h1 : (List.range' 1 (2 * g.n)).foldl (fun (col : Column) ii =>
      let col := if i = ii then col ++ [(RowRef.load (ii - 1), 1)] else col
      if j = ii then col ++ [(RowRef.load (ii - 1), -1)] else col) [] =
      (List.range' 1 (2 * g.n)).flatMap (fun ii =>
        (if i = ii then [(RowRef.load (ii - 1), 1)] else []) ++
        (if j = ii then [(RowRef.load (ii - 1), -1)] else [])) := by
    have h := foldl_append_flatMap (List.range' 1 (2 * g.n)) (fun ii =>
        (if i = ii then [(RowRef.load (ii - 1), (1 : Int))] else []) ++
        (if j = ii then [(RowRef.load (ii - 1), (-1 : Int))] else [])) []
    simp only [List.nil_append] at h
    rw [← h]
    congr 1
    funext col ii
    by_cases h1 : i = ii <;> by_cases h2 : j = ii <;> simp [h1, h2]
  have h2 : ∀ col : Column, for_nodes2 g.n (fun (s : Column × Nat) ii jj =>
      if g.cost ii jj ≥ 0 then
        ((if i = ii ∧ j = jj then
            s.1 ++ [(RowRef.y_lower s.2, -1), (RowRef.y_upper s.2, -1)] else s.1), s.2 + 1)
      else s) (col, 0) =
      (col ++ ((arcs g).enumFrom 0).flatMap (fun q =>
        if i = q.2.1 ∧ j = q.2.2 then [(RowRef.y_lower q.1, -1), (RowRef.y_upper q.1, -1)] else []),
       0 + (arcs g).length) := by
    intro col
    have h := foldl_counter (arcs g) (fun k (p : Nat × Nat) =>
      if i = p.1 ∧ j = p.2 then [(RowRef.y_lower k, (-1 : Int)), (RowRef.y_upper k, (-1 : Int))] else [])
      col 0
    rw [← h]
    have hb : ∀ (s : Column × Nat) (ii jj : Nat),
        (if g.cost ii jj ≥ 0 then
          ((if i = ii ∧ j = jj then
              s.1 ++ [(RowRef.y_lower s.2, (-1 : Int)), (RowRef.y_upper s.2, (-1 : Int))]
            else s.1), s.2 + 1)
        else s) =
        (if g.cost ii jj ≥ 0 then
          (s.1 ++ (if i = ii ∧ j = jj then
            [(RowRef.y_lower s.2, (-1 : Int)), (RowRef.y_upper s.2, (-1 : Int))] else []), s.2 + 1)
        else s) := by
      intro s ii jj
      by_cases hc : g.cost ii jj ≥ 0 <;> by_cases h1 : i = ii ∧ j = jj <;> simp [hc, h1]
    simp only [hb]
    exact for_nodes2_arcs g _ (col, 0)
  simp only [h1, h2]

theorem Extends.refl (P : RowRef → Prop) (col0 : Column) : Extends P col0 col0 :=
  ⟨[], by simp, by simp⟩

theorem Extends.snoc {P : RowRef → Prop} {col0 col : Column} (h : Extends P col0 col)
    (r : RowRef) (v : Int) (hr : P r) : Extends P col0 (col ++ [(r, v)]) := by
  obtain ⟨ext, rfl, hext⟩ := h
  refine ⟨ext ++ [(r, v)], by simp, ?_⟩
  intro e he
  rcases List.mem_append.mp he with h1 | h1
  · exact hext e h1
  · simp at h1
    subst h1
    exact hr

theorem x_column_base_eq (g : Graph) (i j : Nat) :
    (for_nodes2 g.n (fun (s : Column × Nat) ii jj =>
      if g.cost ii jj ≥ 0 then
        (s.1 ++ [(RowRef.y_lower s.2, if i = ii ∧ j = jj then alpha g i j else 0),
                 (RowRef.y_upper s.2, if i = ii ∧ j = jj then beta g i j else 0)], s.2 + 1)
      else s)
      ((List.range' 1 (2 * g.n + 1)).foldl (fun col jj =>
        if j = jj then col ++ [(RowRef.indegree (jj - 1), 1)] else col)
        ((List.range (2 * g.n + 1)).foldl (fun col ii =>
          if i = ii then col ++ [(RowRef.outdegree ii, 1)] else col) []), 0)).1 =
    x_column_base g i j := by
  have h1 := foldl_select (List.range (2 * g.n + 1)) (List.nodup_range _) i
    (fun ii => [(RowRef.outdegree ii, (1 : Int))]) []
  have h2 := fun init => foldl_select (List.range' 1 (2 * g.n + 1)) (List.nodup_range' _ _) j
    (fun jj => [(RowRef.indegree (jj - 1), (1 : Int))]) init
  rw [h1, h2]
  have h3 := fun col => foldl_counter (arcs g) (fun k (p : Nat × Nat) =>
    [(RowRef.y_lower k, if i = p.1 ∧ j = p.2 then alpha g i j else 0),
     (RowRef.y_upper k, if i = p.1 ∧ j = p.2 then beta g i j else 0)]) col 0
  have h4 := fun col => for_nodes2_arcs g (fun (s : Column × Nat) ii jj =>
    (s.1 ++ [(RowRef.y_lower s.2, if i = ii ∧ j = jj then alpha g i j else 0),
             (RowRef.y_upper s.2, if i = ii ∧ j = jj then beta g i j else 0)], s.2 + 1)) (col, 0)
  rw [h4, h3]
  simp [x_column_base]

theorem x_column_extends (g : Graph) (params : Params) (i j : Nat) :
    Extends RowRef.is_optional (x_column_base g i j) (x_column g params i j) := by
  unfold x_column
  simp only [x_column_base_eq]
  have htce : Extends RowRef.is_optional (x_column_base g i j)
      (if params.two_cycles_elim = true then
        ((List.range (2 * g.n + 2)).foldl (fun s ii =>
          (List.range' (ii + 1) (2 * g.n + 1 - ii)).foldl (fun (s : Column × Nat) jj =>
            if g.cost ii jj ≥ 0 ∧ g.cost jj ii ≥ 0 then
              ((if (i = ii ∧ j = jj) ∨ (i = jj ∧ j = ii) then
                  s.1 ++ [(RowRef.two_cycles_elimination s.2, 1)] else s.1), s.2 + 1)
            else s) s) (x_column_base g i j, 0)).1
      else x_column_base g i j) := by
    split
    · apply foldl_inv (fun s : Column × Nat => Extends RowRef.is_optional (x_column_base g i j) s.1)
      · exact Extends.refl _ _
      · intro s ii hs
        apply foldl_inv (fun s : Column × Nat => Extends RowRef.is_optional (x_column_base g i j) s.1)
        · exact hs
        · intro s jj hs
          split
          · split
            · exact hs.snoc _ _ trivial
            · exact hs
          · exact hs
    · exact Extends.refl _ _
  generalize (if params.two_cycles_elim = true then
        ((List.range (2 * g.n + 2)).foldl (fun s ii =>
          (List.range' (ii + 1) (2 * g.n + 1 - ii)).foldl (fun (s : Column × Nat) jj =>
            if g.cost ii jj ≥ 0 ∧ g.cost jj ii ≥ 0 then
              ((if (i = ii ∧ j = jj) ∨ (i = jj ∧ j = ii) then
                  s.1 ++ [(RowRef.two_cycles_elimination s.2, 1)] else s.1), s.2 + 1)
            else s) s) (x_column_base g i j, 0)).1
      else x_column_base g i j) = c1 at htce ⊢
  have hsub : Extends RowRef.is_optional (x_column_base g i j)
      (if params.subpath_elim = true then
        ((List.range' 1 (2 * g.n)).foldl (fun s ii =>
          (List.range' 1 (2 * g.n)).foldl (fun s jj =>
            (List.range' 1 (2 * g.n)).foldl (fun (s : Column × Nat) kk =>
              if g.cost ii jj ≥ 0 ∧ g.cost jj kk ≥ 0 ∧ params.is_path_eliminable ii jj kk = true then
                ((if (i = ii ∧ j = jj) ∨ (i = jj ∧ j = kk) then
                    s.1 ++ [(RowRef.subpath_elimination s.2, 1)] else s.1), s.2 + 1)
              else s) s) s) (c1, 0)).1
      else c1) := by
    split
    · apply foldl_inv (fun s : Column × Nat => Extends RowRef.is_optional (x_column_base g i j) s.1)
      · exact htce
      · intro s ii hs
        apply foldl_inv (fun s : Column × Nat => Extends RowRef.is_optional (x_column_base g i j) s.1)
        · exact hs
        · intro s jj hs
          apply foldl_inv (fun s : Column × Nat => Extends RowRef.is_optional (x_column_base g i j) s.1)
          · exact hs
          · intro s kk hs
            split
            · split
              · exact hs.snoc _ _ trivial
              · exact hs
            · exact hs
    · exact htce
  generalize (if params.subpath_elim = true then
        ((List.range' 1 (2 * g.n)).foldl (fun s ii =>
          (List.range' 1 (2 * g.n)).foldl (fun s jj =>
            (List.range' 1 (2 * g.n)).foldl (fun (s : Column × Nat) kk =>
              if g.cost ii jj ≥ 0 ∧ g.cost jj kk ≥ 0 ∧ params.is_path_eliminable ii jj kk = true then
                ((if (i = ii ∧ j = jj) ∨ (i = jj ∧ j = kk) then
                    s.1 ++ [(RowRef.subpath_elimination s.2, 1)] else s.1), s.2 + 1)
              else s) s) s) (c1, 0)).1
      else c1) = c2 at hsub ⊢
  split
  · exact hsub.snoc _ _ trivial
  · exact hsub

theorem coef_x_column (g : Graph) (params : Params) (i j : Nat) (r : RowRef)
    (hr : ¬ r.is_optional) :
    coef (x_column g params i j) r = coef (x_column_base g i j) r := by
  obtain ⟨ext, h, hext⟩ := x_column_extends g params i j
  rw [h, coef_append, coef_eq_zero ext r, add_zero]
  intro e he heq
  exact hr (heq ▸ hext e he)

theorem getD_map_select (l : List (Nat × Nat)) (k i j : Nat) (v : Int) :
    ((l[k]?).map (fun p => if i = p.1 ∧ j = p.2 then v else 0)).getD 0 =
      if l[k]? = some (i, j) then v else 0 := by
  cases h : l[k]? with
  | none => simp
  | some p =>
    obtain ⟨a, b⟩ := p
    by_cases h1 : i = a ∧ j = b
    · obtain ⟨rfl, rfl⟩ := h1
      simp
    · have h2 : ¬ ((a, b) = (i, j)) := by
        intro e
        simp only [Prod.mk.injEq] at e
        exact h1 ⟨e.1.symm, e.2.symm⟩
      simp [h1, h2]

theorem coef_x_y_upper (g : Graph) (params : Params) (i j k : Nat) :
    coef (x_column g params i j) (RowRef.y_upper k) =
      if (arcs g)[k]? = some (i, j) then beta g i j else 0 := by
  rw [coef_x_column _ _ _ _ _ (by simp [RowRef.is_optional])]
  unfold x_column_base
  rw [coef_append, coef_append, coef_flatMap]
  have h1 : coef (if i ∈ List.range (2 * g.n + 1) then [(RowRef.outdegree i, (1 : Int))] else [])
      (RowRef.y_upper k) = 0 := by
    split <;> simp [coef]
  have h2 : coef (if j ∈ List.range' 1 (2 * g.n + 1) then [(RowRef.indegree (j - 1), (1 : Int))]
      else []) (RowRef.y_upper k) = 0 := by
    split <;> simp [coef]
  rw [h1, h2, ← getD_map_select]
  have h3 := sum_enumFrom_select (arcs g) 0 k
    (fun p => if i = p.1 ∧ j = p.2 then beta g i j else 0)
  simp only [Nat.zero_le, if_true, Nat.sub_zero] at h3
  rw [← h3]
  simp [coef_cons, coef_nil]

theorem coef_x_y_lower (g : Graph) (params : Params) (i j k : Nat) :
    coef (x_column g params i j) (RowRef.y_lower k) =
      if (arcs g)[k]? = some (i, j) then alpha g i j else 0 := by
  rw [coef_x_column _ _ _ _ _ (by simp [RowRef.is_optional])]
  unfold x_column_base
  rw [coef_append, coef_append, coef_flatMap]
  have h1 : coef (if i ∈ List.range (2 * g.n + 1) then [(RowRef.outdegree i, (1 : Int))] else [])
      (RowRef.y_lower k) = 0 := by
    split <;> simp [coef]
  have h2 : coef (if j ∈ List.range' 1 (2 * g.n + 1) then [(RowRef.indegree (j - 1), (1 : Int))]
      else []) (RowRef.y_lower k) = 0 := by
    split <;> simp [coef]
  rw [h1, h2, ← getD_map_select]
  have h3 := sum_enumFrom_select (arcs g) 0 k
    (fun p => if i = p.1 ∧ j = p.2 then alpha g i j else 0)
  simp only [Nat.zero_le, if_true, Nat.sub_zero] at h3
  rw [← h3]
  simp [coef_cons, coef_nil]

theorem coef_x_load (g : Graph) (params : Params) (i j idx : Nat) :
    coef (x_column g params i j) (RowRef.load idx) = 0 := by
  rw [coef_x_column _ _ _ _ _ (by simp [RowRef.is_optional])]
  apply coef_eq_zero
  intro e he
  unfold x_column_base at he
  simp only [List.mem_append, List.mem_flatMap] at he
  rcases he with (he | he) | ⟨q, _, he⟩
  · split at he <;> simp at he
    subst he; simp
  · split at he <;> simp at he
    subst he; simp
  · simp at he
    rcases he with rfl | rfl <;> simp

theorem coef_x_initial_load (g : Graph) (params : Params) (i j idx : Nat) :
    coef (x_column g params i j) (RowRef.initial_load idx) = 0 := by
  rw [coef_x_column _ _ _ _ _ (by simp [RowRef.is_optional])]
  apply coef_eq_zero
  intro e he
  unfold x_column_base at he
  simp only [List.mem_append, List.mem_flatMap] at he
  rcases he with (he | he) | ⟨q, _, he⟩
  · split at he <;> simp at he
    subst he; simp
  · split at he <;> simp at he
    subst he; simp
  · simp at he
    rcases he with rfl | rfl <;> simp

theorem coef_x_outdegree (g : Graph) (params : Params) (i j idx : Nat) :
    coef (x_column g params i j) (RowRef.outdegree idx) =
      if i ≤ 2 * g.n ∧ i = idx then 1 else 0 := by
  rw [coef_x_column _ _ _ _ _ (by simp [RowRef.is_optional])]
  unfold x_column_base
  rw [coef_append, coef_append, coef_flatMap]
  have h2 : coef (if j ∈ List.range' 1 (2 * g.n + 1) then [(RowRef.indegree (j - 1), (1 : Int))]
      else []) (RowRef.outdegree idx) = 0 := by
    split <;> simp [coef]
  have h3 : ((List.enumFrom 0 (arcs g)).map (fun q =>
      coef [(RowRef.y_lower q.1, if i = q.2.1 ∧ j = q.2.2 then alpha g i j else 0),
        (RowRef.y_upper q.1, if i = q.2.1 ∧ j = q.2.2 then beta g i j else 0)]
        (RowRef.outdegree idx))).sum = 0 := by
    apply List.sum_eq_zero
    intro v hv
    simp only [List.mem_map] at hv
    obtain ⟨q, _, rfl⟩ := hv
    simp [coef_cons, coef_nil]
  rw [h2, h3]
  by_cases h : i ≤ 2 * g.n
  · have h' : i ∈ List.range (2 * g.n + 1) := by simp [List.mem_range]; omega
    rw [if_pos h']
    by_cases h4 : i = idx
    · subst h4
      simp [h, coef_cons, coef_nil]
    · simp [h4, coef_cons, coef_nil]
  · have h' : ¬ i ∈ List.range (2 * g.n + 1) := by simp [List.mem_range]; omega
    rw [if_neg h']
    simp [h, coef_nil]

theorem coef_x_indegree (g : Graph) (params : Params) (i j idx : Nat) :
    coef (x_column g params i j) (RowRef.indegree idx) =
      if 1 ≤ j ∧ j ≤ 2 * g.n + 1 ∧ j - 1 = idx then 1 else 0 := by
  rw [coef_x_column _ _ _ _ _ (by simp [RowRef.is_optional])]
  unfold x_column_base
  rw [coef_append, coef_append, coef_flatMap]
  have h2 : coef (if i ∈ List.range (2 * g.n + 1) then [(RowRef.outdegree i, (1 : Int))]
      else []) (RowRef.indegree idx) = 0 := by
    split <;> simp [coef]
  have h3 : ((List.enumFrom 0 (arcs g)).map (fun q =>
      coef [(RowRef.y_lower q.1, if i = q.2.1 ∧ j = q.2.2 then alpha g i j else 0),
        (RowRef.y_upper q.1, if i = q.2.1 ∧ j = q.2.2 then beta g i j else 0)]
        (RowRef.indegree idx))).sum = 0 := by
    apply List.sum_eq_zero
    intro v hv
    simp only [List.mem_map] at hv
    obtain ⟨q, _, rfl⟩ := hv
    simp [coef_cons, coef_nil]
  rw [h2, h3]
  by_cases h : 1 ≤ j ∧ j ≤ 2 * g.n + 1
  · have h' : j ∈ List.range' 1 (2 * g.n + 1) := by
      rw [List.mem_range']; exact ⟨j - 1, by omega, by omega⟩
    rw [if_pos h']
    by_cases h4 : j - 1 = idx
    · subst h4
      simp [h, coef_cons, coef_nil]
    · simp [h4, coef_cons, coef_nil]
  · have h' : ¬ j ∈ List.range' 1 (2 * g.n + 1) := by
      rw [List.mem_range']; rintro ⟨m, hm, rfl⟩; omega
    have h5 : ¬ (1 ≤ j ∧ j ≤ 2 * g.n + 1 ∧ j - 1 = idx) := fun e => h ⟨e.1, e.2.1⟩
    rw [if_neg h', if_neg h5]
    simp [coef_nil]

theorem coef_y_load (g : Graph) (i j idx : Nat) :
    coef (y_column g i j) (RowRef.load idx) =
      (if 1 ≤ i ∧ i ≤ 2 * g.n ∧ i - 1 = idx then 1 else 0) +
      (if 1 ≤ j ∧ j ≤ 2 * g.n ∧ j - 1 = idx then -1 else 0) := by
  rw [y_column_eq]
  unfold y_column_closed
  rw [coef_append, coef_append, coef_flatMap, coef_flatMap]
  have h2 : ((List.enumFrom 0 (arcs g)).map (fun q =>
      coef (if i = q.2.1 ∧ j = q.2.2 then
        [(RowRef.y_lower q.1, (-1 : Int)), (RowRef.y_upper q.1, -1)] else [])
        (RowRef.load idx))).sum = 0 := by
    apply List.sum_eq_zero
    intro v hv
    simp only [List.mem_map] at hv
    obtain ⟨q, _, rfl⟩ := hv
    split <;> simp [coef_cons, coef_nil]
  have h3 : coef [(RowRef.initial_load 0, if i = 0 then (1 : Int) else 0)] (RowRef.load idx) = 0 := by
    simp [coef_cons, coef_nil]
  rw [h2, h3]
  have h4 : ∀ ii : Nat, coef ((if i = ii then [(RowRef.load (ii - 1), (1 : Int))] else []) ++
      (if j = ii then [(RowRef.load (ii - 1), (-1 : Int))] else [])) (RowRef.load idx) =
      (if ii = i then (if i - 1 = idx then (1 : Int) else 0) else 0) +
      (if ii = j then (if j - 1 = idx then (-1 : Int) else 0) else 0) := by
    intro ii
    rw [coef_append]
    by_cases h1 : i = ii <;> by_cases h2 : j = ii
    · subst h1; subst h2; simp [coef_cons, coef_nil]
    · subst h1
      have : ¬ i = j := fun e => h2 e.symm
      simp [coef_cons, coef_nil, h2, this]
    · subst h2
      have : ¬ j = i := fun e => h1 e.symm
      simp [coef_cons, coef_nil, h1, this]
    · have e1 : ¬ ii = i := fun e => h1 e.symm
      have e2 : ¬ ii = j := fun e => h2 e.symm
      simp [coef_nil, h1, h2, e1, e2]
  simp only [h4]
  rw [List.sum_map_add, sum_select _ (List.nodup_range' _ _), sum_select _ (List.nodup_range' _ _)]
  have hm : ∀ v : Nat, v ∈ List.range' 1 (2 * g.n) ↔ 1 ≤ v ∧ v ≤ 2 * g.n := by
    intro v
    rw [List.mem_range']
    constructor
    · rintro ⟨m, hm, rfl⟩; omega
    · intro h; exact ⟨v - 1, by omega, by omega⟩
  simp only [hm]
  by_cases h5 : 1 ≤ i ∧ i ≤ 2 * g.n <;> by_cases h6 : 1 ≤ j ∧ j ≤ 2 * g.n <;>
    by_cases h7 : i - 1 = idx <;> by_cases h8 : j - 1 = idx <;>
    simp [h5, h6, h7, h8, ← and_assoc]

theorem coef_y_linking (g : Graph) (i j k : Nat) :
    coef (y_column g i j) (RowRef.y_lower k) = (if (arcs g)[k]? = some (i, j) then -1 else 0) ∧
    coef (y_column g i j) (RowRef.y_upper k) = (if (arcs g)[k]? = some (i, j) then -1 else 0) := by
  rw [y_column_eq]
  unfold y_column_closed
  simp only [coef_append, coef_flatMap]
  have h1 : ∀ r : RowRef, (∀ idx, r ≠ RowRef.load idx) →
      ((List.range' 1 (2 * g.n)).map (fun ii =>
        coef (if i = ii then [(RowRef.load (ii - 1), (1 : Int))] else []) r +
          coef (if j = ii then [(RowRef.load (ii - 1), (-1 : Int))] else []) r)).sum = 0 := by
    intro r hr
    apply List.sum_eq_zero
    intro v hv
    simp only [List.mem_map] at hv
    obtain ⟨ii, _, rfl⟩ := hv
    have := hr (ii - 1)
    split <;> split <;> simp [coef_cons, coef_nil, Ne.symm this]
  rw [h1 _ (by simp), h1 _ (by simp), ← getD_map_select]
  have h3 := sum_enumFrom_select (arcs g) 0 k (fun p => if i = p.1 ∧ j = p.2 then (-1 : Int) else 0)
  simp only [Nat.zero_le, if_true, Nat.sub_zero] at h3
  rw [← h3]
  have h4 : ∀ q : Nat × Nat × Nat,
      coef (if i = q.2.1 ∧ j = q.2.2 then
        [(RowRef.y_lower q.1, (-1 : Int)), (RowRef.y_upper q.1, -1)] else []) (RowRef.y_lower k) =
      (if q.1 = k then (if i = q.2.1 ∧ j = q.2.2 then (-1 : Int) else 0) else 0) ∧
      coef (if i = q.2.1 ∧ j = q.2.2 then
        [(RowRef.y_lower q.1, (-1 : Int)), (RowRef.y_upper q.1, -1)] else []) (RowRef.y_upper k) =
      (if q.1 = k then (if i = q.2.1 ∧ j = q.2.2 then (-1 : Int) else 0) else 0) := by
    intro q
    by_cases h5 : i = q.2.1 ∧ j = q.2.2 <;> by_cases h6 : q.1 = k <;>
      simp [h5, h6, coef_cons, coef_nil]
  simp only [h4]
  simp [coef_cons, coef_nil]

theorem coef_y_initial_load (g : Graph) (i j idx : Nat) :
    coef (y_column g i j) (RowRef.initial_load idx) = if idx = 0 ∧ i = 0 then 1 else 0 := by
  rw [y_column_eq]
  unfold y_column_closed
  simp only [coef_append, coef_flatMap]
  have h1 : ((List.range' 1 (2 * g.n)).map (fun ii =>
        coef (if i = ii then [(RowRef.load (ii - 1), (1 : Int))] else [])
          (RowRef.initial_load idx) +
        coef (if j = ii then [(RowRef.load (ii - 1), (-1 : Int))] else [])
          (RowRef.initial_load idx))).sum = 0 := by
    apply List.sum_eq_zero
    intro v hv
    simp only [List.mem_map] at hv
    obtain ⟨ii, _, rfl⟩ := hv
    split <;> split <;> simp [coef_cons, coef_nil]
  have h2 : ((List.enumFrom 0 (arcs g)).map (fun q =>
      coef (if i = q.2.1 ∧ j = q.2.2 then
        [(RowRef.y_lower q.1, (-1 : Int)), (RowRef.y_upper q.1, -1)] else [])
        (RowRef.initial_load idx))).sum = 0 := by
    apply List.sum_eq_zero
    intro v hv
    simp only [List.mem_map] at hv
    obtain ⟨q, _, rfl⟩ := hv
    split <;> simp [coef_cons, coef_nil]
  rw [h1, h2]
  by_cases h3 : idx = 0 <;> by_cases h4 : i = 0 <;> simp [h3, h4, coef_cons, coef_nil, Ne.symm]

theorem coef_y_other (g : Graph) (i j : Nat) (r : RowRef)
    (h1 : ∀ idx, r ≠ RowRef.load idx) (h2 : ∀ idx, r ≠ RowRef.y_lower idx)
    (h3 : ∀ idx, r ≠ RowRef.y_upper idx) (h4 : ∀ idx, r ≠ RowRef.initial_load idx) :
    coef (y_column g i j) r = 0 := by
  rw [y_column_eq]
  apply coef_eq_zero
  intro e he
  unfold y_column_closed at he
  simp only [List.mem_append, List.mem_flatMap] at he
  rcases he with (⟨ii, _, he⟩ | ⟨q, _, he⟩) | he
  · rcases he with he | he
    · split at he <;> simp at he
      subst he; exact (h1 _).symm
    · split at he <;> simp at he
      subst he; exact (h1 _).symm
  · split at he <;> simp at he
    rcases he with rfl | rfl
    · exact (h2 _).symm
    · exact (h3 _).symm
  · simp at he
    subst he; exact (h4 _).symm

/-! ## The row arrays -/

theorem setName_append_last (rows : List Row) (r : Row) (nm : RowName) :
    setName (rows ++ [r]) rows.length nm = rows ++ [{ r with name := some nm }] := by
  induction rows with
  | nil => rfl
  | cons a rows ih => simp [setName, ih]

theorem foldl_add_setName {α : Type} (l : List α) (mk : α → Row) (idx : α → Nat)
    (nm : α → RowName) (rows0 : List Row)
    (h : ∀ (k : Nat) (a : α), l[k]? = some a → idx a = rows0.length + k) :
    l.foldl (fun rows a => setName (rows ++ [mk a]) (idx a) (nm a)) rows0 =
      rows0 ++ l.map (fun a => { mk a with name := some (nm a) }) := by
  induction l generalizing rows0 with
  | nil => simp
  | cons a l ih =>
    have h0 : idx a = rows0.length := by simpa using h 0 a (by simp)
    simp only [List.foldl_cons, h0, setName_append_last]
    rw [ih]
    · simp
    · intro k b hb
      have := h (k + 1) b (by simpa using hb)
      simp
      omega

theorem outdegree_rows_eq (g : Graph) :
    outdegree_rows g =
      (List.range (2 * g.n + 1)).map (fun i => ⟨some 1, some 1, some (RowName.outdegree i)⟩) := by
  unfold outdegree_rows
  have h := foldl_add_setName (List.range (2 * g.n + 1)) (fun _ => ⟨some 1, some 1, none⟩)
    (fun i => i) RowName.outdegree [] (by
      intro k a hk
      have := List.getElem?_eq_some_iff.mp hk
      obtain ⟨hlt, rfl⟩ := this
      simp)
  simpa using h

theorem indegree_rows_eq (g : Graph) :
    indegree_rows g =
      (List.range' 1 (2 * g.n + 1)).map (fun i => ⟨some 1, some 1, some (RowName.indegree i)⟩) := by
  unfold indegree_rows
  have h := foldl_add_setName (List.range' 1 (2 * g.n + 1)) (fun _ => ⟨some 1, some 1, none⟩)
    (fun i => i - 1) RowName.indegree [] (by
      intro k a hk
      have := List.getElem?_eq_some_iff.mp hk
      obtain ⟨hlt, rfl⟩ := this
      simp)
  simpa using h

theorem load_rows_eq (g : Graph) :
    load_rows g =
      (List.range' 1 (2 * g.n)).map
        (fun i => ⟨some (g.demand i), some (g.demand i), some (RowName.load i)⟩) := by
  unfold load_rows
  have h := foldl_add_setName (List.range' 1 (2 * g.n))
    (fun i => ⟨some (g.demand i), some (g.demand i), none⟩)
    (fun i => i - 1) RowName.load [] (by
      intro k a hk
      have := List.getElem?_eq_some_iff.mp hk
      obtain ⟨hlt, rfl⟩ := this
      simp)
  simpa using h

theorem foldl_y_rows (l : List (Nat × Nat)) (yl yu : List Row) (k : Nat)
    (hl : yl.length = k) (hu : yu.length = k) :
    l.foldl (fun (s : List Row × List Row × Nat) p =>
      (setName (s.1 ++ [⟨none, some 0, none⟩]) s.2.2 (RowName.y_lower p.1 p.2),
       setName (s.2.1 ++ [⟨some 0, none, none⟩]) s.2.2 (RowName.y_upper p.1 p.2),
       s.2.2 + 1)) (yl, yu, k) =
    (yl ++ l.map (fun p => ⟨none, some 0, some (RowName.y_lower p.1 p.2)⟩),
     yu ++ l.map (fun p => ⟨some 0, none, some (RowName.y_upper p.1 p.2)⟩),
     k + l.length) := by
  induction l generalizing yl yu k with
  | nil => simp
  | cons p l ih =>
    subst hl
    simp only [List.foldl_cons]
    rw [← hu, setName_append_last, hu, setName_append_last]
    rw [ih _ _ _ (by simp) (by simp [hu])]
    simp
    omega

theorem y_rows_eq (g : Graph) :
    y_rows g =
      ((arcs g).map (fun p => ⟨none, some 0, some (RowName.y_lower p.1 p.2)⟩),
       (arcs g).map (fun p => ⟨some 0, none, some (RowName.y_upper p.1 p.2)⟩),
       (arcs g).length) := by
  unfold y_rows
  refine (for_nodes2_arcs g (fun (s : List Row × List Row × Nat) i j =>
      (setName (s.1 ++ [⟨none, some 0, none⟩]) s.2.2 (RowName.y_lower i j),
       setName (s.2.1 ++ [⟨some 0, none, none⟩]) s.2.2 (RowName.y_upper i j),
       s.2.2 + 1)) ([], [], 0)).trans ?_
  have h := foldl_y_rows (arcs g) [] [] 0 rfl rfl
  simpa using h

theorem initial_load_rows_eq :
    initial_load_rows = [⟨some 0, some 0, some RowName.initial_load⟩] := rfl

/-! ## Cuts and variables over allowed arcs -/

theorem wrap_int_of_range (v : Int) (h : int_range v) : wrap_int v = v := by
  unfold int_range at h
  unfold wrap_int
  omega

theorem wrap_int_le (v : Int) (h : -2147483648 ≤ v) : wrap_int v ≤ v := by
  unfold wrap_int
  omega

theorem alpha_eq_spec (g : Graph) (i j : Nat) (h1 : int_range (-g.demand j))
    (h2 : int_range (g.demand i - g.demand j)) : alpha g i j = alpha_spec g i j := by
  unfold alpha alpha_spec is_pickup is_delivery
  simp only [wrap_int_of_range _ h1, wrap_int_of_range _ h2]
  split_ifs <;> omega

theorem beta_eq_spec (g : Graph) (i j : Nat) : beta g i j = beta_spec g i j := by
  unfold beta beta_spec
  rw [min_assoc]

theorem mem_variables_x (g : Graph) (params : Params) (v : NumVar) :
    v ∈ variables_x g params ↔ ∃ p ∈ arcs g, v = x_var g params p := by
  rw [variables_x_eq, List.mem_map]
  constructor
  · rintro ⟨p, hp, rfl⟩; exact ⟨p, hp, rfl⟩
  · rintro ⟨p, hp, rfl⟩; exact ⟨p, hp, rfl⟩

theorem mem_variables_y (g : Graph) (v : NumVar) :
    v ∈ variables_y g ↔ ∃ p ∈ arcs g, v = y_var g p := by
  rw [variables_y_eq, List.mem_map]
  constructor
  · rintro ⟨p, hp, rfl⟩; exact ⟨p, hp, rfl⟩
  · rintro ⟨p, hp, rfl⟩; exact ⟨p, hp, rfl⟩

theorem names_variables_x (g : Graph) (params : Params) :
    (variables_x g params).map NumVar.name = arcs g := by
  rw [variables_x_eq, List.map_map]
  have : (NumVar.name ∘ x_var g params) = id := by
    funext p; simp [x_var]
  rw [this, List.map_id]

theorem names_variables_y (g : Graph) : (variables_y g).map NumVar.name = arcs g := by
  rw [variables_y_eq, List.map_map]
  have : (NumVar.name ∘ y_var g) = id := by
    funext p; simp [y_var]
  rw [this, List.map_id]

/-- C10. The inequality built by `add_cut` is `Σ x <= rhs_val`: the variable `x[k]` of the
model builder has exactly one term in it when its arc `(a, b)` has `a ∈ S ∧ b ∈ S`, or
`a ∈ S ∧ b ∈ T`, or `a ∈ T ∧ b ∈ T`, and none otherwise; there is no term for an index that
is not a variable. The x variables and the y variables are those of the allowed arcs of
nodes `0..2n+1`, each once: no variable and no term of a cut is of a forbidden arc. -/
theorem add_cut_terms_are_allowed_arcs (g : Graph) (params : Params) (S T : List Nat)
    (rhs_val : ℚ) :
    (add_cut g S T rhs_val).rhs = rhs_val ∧
    (∀ k : Nat, (add_cut g S T rhs_val).expr.count k =
      match (variables_x g params)[k]? with
      | some v =>
        if (v.name.1 ∈ S ∧ v.name.2 ∈ S) ∨ (v.name.1 ∈ S ∧ v.name.2 ∈ T) ∨
            (v.name.1 ∈ T ∧ v.name.2 ∈ T) then 1 else 0
      | none => 0) ∧
    (∀ a b : Nat, (a, b) ∈ (variables_x g params).map NumVar.name ↔
      a ≤ 2 * g.n + 1 ∧ b ≤ 2 * g.n + 1 ∧ g.cost a b ≥ 0) ∧
    (∀ a b : Nat, (a, b) ∈ (variables_y g).map NumVar.name ↔
      a ≤ 2 * g.n + 1 ∧ b ≤ 2 * g.n + 1 ∧ g.cost a b ≥ 0) ∧
    ((variables_x g params).map NumVar.name).Nodup ∧
    ((variables_y g).map NumVar.name).Nodup := by
  refine ⟨rfl, ?_, ?_, ?_, ?_, ?_⟩
  · intro k
    rw [add_cut_count, variables_x_eq, List.getElem?_map]
    cases h : (arcs g)[k]? with
    | none => simp
    | some p =>
      simp only [Option.map_some', Option.getD_some, x_var]
      by_cases hc : in_cut S T p.1 p.2 = true
      · rw [if_pos hc, if_pos ((in_cut_iff _ _ _ _).mp hc)]
      · rw [if_neg hc, if_neg (fun e => hc ((in_cut_iff _ _ _ _).mpr e))]
  · intro a b
    rw [names_variables_x, mem_arcs]
  · intro a b
    rw [names_variables_y, mem_arcs]
  · rw [names_variables_x]; exact nodup_arcs g
  · rw [names_variables_y]; exact nodup_arcs g

/-! ## Rows of the base model -/

theorem row_value_eq (g : Graph) (params : Params) (xv yv : Nat → Nat → Int) (r : RowRef) :
    (setup_model g params).row_value xv yv r =
      ((arcs g).map (fun p => coef (x_column g params p.1 p.2) r * xv p.1 p.2)).sum +
      ((arcs g).map (fun p => coef (y_column g p.1 p.2) r * yv p.1 p.2)).sum := by
  unfold Model.row_value setup_model
  simp only [variables_x_eq, variables_y_eq, List.map_map]
  rfl

theorem sum_arcs_select (g : Graph) (k i j : Nat) (h : (arcs g)[k]? = some (i, j))
    (c : Nat × Nat → Int) (v : Nat → Nat → Int) :
    ((arcs g).map (fun p => (if (arcs g)[k]? = some (p.1, p.2) then c p else 0) * v p.1 p.2)).sum =
      c (i, j) * v i j := by
  have hmem : (i, j) ∈ arcs g := List.getElem?_mem h
  have h1 := sum_select (arcs g) (nodup_arcs g) (i, j) (fun p => c p * v p.1 p.2)
  rw [if_pos hmem] at h1
  rw [← h1]
  congr 1
  apply List.map_congr_left
  intro p _
  rw [h]
  by_cases hp : p = (i, j)
  · subst hp; simp
  · have : ¬ ((i, j) = (p.1, p.2)) := fun e => hp (by rw [e])
    simp [hp, this]

theorem row_value_y_upper (g : Graph) (params : Params) (xv yv : Nat → Nat → Int)
    (k i j : Nat) (h : (arcs g)[k]? = some (i, j)) :
    (setup_model g params).row_value xv yv (RowRef.y_upper k) = beta g i j * xv i j - yv i j := by
  rw [row_value_eq]
  simp only [coef_x_y_upper, (coef_y_linking _ _ _ _).2]
  rw [sum_arcs_select g k i j h (fun p => beta g p.1 p.2) xv,
    sum_arcs_select g k i j h (fun _ => -1) yv]
  ring

theorem row_value_y_lower (g : Graph) (params : Params) (xv yv : Nat → Nat → Int)
    (k i j : Nat) (h : (arcs g)[k]? = some (i, j)) :
    (setup_model g params).row_value xv yv (RowRef.y_lower k) = alpha g i j * xv i j - yv i j := by
  rw [row_value_eq]
  simp only [coef_x_y_lower, (coef_y_linking _ _ _ _).1]
  rw [sum_arcs_select g k i j h (fun p => alpha g p.1 p.2) xv,
    sum_arcs_select g k i j h (fun _ => -1) yv]
  ring

theorem exists_arc_index (g : Graph) (i j : Nat) (hi : i ≤ 2 * g.n + 1) (hj : j ≤ 2 * g.n + 1)
    (hc : g.cost i j ≥ 0) : ∃ k : Nat, (arcs g)[k]? = some (i, j) := by
  have hmem : (i, j) ∈ arcs g := (mem_arcs g i j).mpr ⟨hi, hj, hc⟩
  obtain ⟨k, hk⟩ := List.mem_iff_getElem?.mp hmem
  exact ⟨k, hk⟩

theorem arc_index_unique (g : Graph) (k k' : Nat) (p : Nat × Nat)
    (h : (arcs g)[k]? = some p) (h' : (arcs g)[k']? = some p) : k = k' := by
  obtain ⟨hk, e⟩ := List.getElem?_eq_some_iff.mp h
  obtain ⟨hk', e'⟩ := List.getElem?_eq_some_iff.mp h'
  exact (List.Nodup.getElem_inj_iff (nodup_arcs g)).mp (e.trans e'.symm)

theorem sum_map_filter_flatMap {α β : Type} (l : List α) (h : α → List β) (c : β → Bool)
    (F : β → Int) :
    (((l.flatMap h).filter c).map F).sum = (l.map (fun a => (((h a).filter c).map F).sum)).sum := by
  induction l with
  | nil => rfl
  | cons a l ih => simp [List.flatMap_cons, List.filter_append, ih]

theorem sum_map_ite_eq_sum_filter {α : Type} (l : List α) (c : α → Bool) (F : α → Int) :
    (l.map (fun a => if c a = true then F a else 0)).sum = ((l.filter c).map F).sum := by
  induction l with
  | nil => rfl
  | cons a l ih =>
    by_cases h : c a = true <;> simp [List.filter_cons, h, ih]

theorem sum_map_sub_int {α : Type} (l : List α) (f h : α → Int) :
    (l.map (fun a => f a - h a)).sum = (l.map f).sum - (l.map h).sum := by
  induction l with
  | nil => rfl
  | cons a l ih => simp only [List.map_cons, List.sum_cons, ih]; ring

theorem sum_arcs (g : Graph) (F : Nat × Nat → Int) :
    ((arcs g).map F).sum =
      ((List.range (2 * g.n + 2)).map (fun a =>
        (((List.range (2 * g.n + 2)).filter (fun b => decide (g.cost a b ≥ 0))).map
          (fun b => F (a, b))).sum)).sum := by
  rw [arcs_eq]
  unfold node_pairs
  rw [sum_map_filter_flatMap]
  congr 1
  apply List.map_congr_left
  intro a _
  rw [List.filter_map, List.map_map]
  rfl

/-- The sum over the allowed arcs leaving node `i`. -/
theorem sum_arcs_out (g : Graph) (i : Nat) (hi : i ≤ 2 * g.n + 1) (f : Nat → Nat → Int) :
    ((arcs g).map (fun p => if p.1 = i then f p.1 p.2 else 0)).sum =
      (((List.range (2 * g.n + 2)).filter (fun j => decide (g.cost i j ≥ 0))).map
        (fun j => f i j)).sum := by
  rw [sum_arcs]
  have h1 : ∀ a : Nat,
      (((List.range (2 * g.n + 2)).filter (fun b => decide (g.cost a b ≥ 0))).map
        (fun b => if (a, b).1 = i then f (a, b).1 (a, b).2 else 0)).sum =
      if a = i then (((List.range (2 * g.n + 2)).filter (fun j => decide (g.cost i j ≥ 0))).map
        (fun j => f i j)).sum else 0 := by
    intro a
    by_cases h : a = i
    · subst h; simp
    · simp [h]
  simp only [h1]
  rw [sum_select _ (List.nodup_range _)]
  rw [if_pos (by simp [List.mem_range]; omega)]

/-- The sum over the allowed arcs entering node `i`. -/
theorem sum_arcs_in (g : Graph) (i : Nat) (hi : i ≤ 2 * g.n + 1) (f : Nat → Nat → Int) :
    ((arcs g).map (fun p => if p.2 = i then f p.1 p.2 else 0)).sum =
      (((List.range (2 * g.n + 2)).filter (fun j => decide (g.cost j i ≥ 0))).map
        (fun j => f j i)).sum := by
  rw [sum_arcs, ← sum_map_ite_eq_sum_filter]
  congr 1
  apply List.map_congr_left
  intro a _
  have h := sum_select ((List.range (2 * g.n + 2)).filter (fun b => decide (g.cost a b ≥ 0)))
    ((List.nodup_range _).filter _) i (fun b => f a b)
  simp only at h ⊢
  rw [h]
  have hi' : i ∈ List.range (2 * g.n + 2) := by simp [List.mem_range]; omega
  simp [List.mem_filter, hi']

theorem row_value_load (g : Graph) (params : Params) (xv yv : Nat → Nat → Int) (i : Nat)
    (h1 : 1 ≤ i) (h2 : i ≤ 2 * g.n) :
    (setup_model g params).row_value xv yv (RowRef.load (i - 1)) =
      ((arcs g).map (fun p => if p.1 = i then yv p.1 p.2 else 0)).sum -
      ((arcs g).map (fun p => if p.2 = i then yv p.1 p.2 else 0)).sum := by
  rw [row_value_eq]
  simp only [coef_x_load, zero_mul, List.map_const', List.sum_replicate, smul_zero, zero_add,
    coef_y_load]
  rw [← sum_map_sub_int]
  congr 1
  apply List.map_congr_left
  intro p _
  have e1 : (1 ≤ p.1 ∧ p.1 ≤ 2 * g.n ∧ p.1 - 1 = i - 1) ↔ p.1 = i := by omega
  have e2 : (1 ≤ p.2 ∧ p.2 ≤ 2 * g.n ∧ p.2 - 1 = i - 1) ↔ p.2 = i := by omega
  simp only [e1, e2]
  by_cases h3 : p.1 = i <;> by_cases h4 : p.2 = i <;> simp [h3, h4]

/-- C5, as the code has it. For a node `i` of `1..2n` the row `load[i-1]` is named
`load_i`, both its bounds are `q(i)`, it has coefficient `[a = i] - [b = i]` on the y
variable of arc `(a, b)` (so `+1` on an arc leaving `i`, `-1` on an arc entering `i`, `0`
on a loop at `i` and on every other arc), and coefficient `0` on every x variable: the
row is `Σ_j y(i,j) - Σ_j y(j,i) = q(i)`, the sums over the allowed arcs. -/
theorem load_row_is_outflow_minus_inflow (g : Graph) (params : Params) (i : Nat)
    (h1 : 1 ≤ i) (h2 : i ≤ 2 * g.n) :
    (setup_model g params).load[i - 1]? =
      some ⟨some (g.demand i), some (g.demand i), some (RowName.load i)⟩ ∧
    (∀ v ∈ (setup_model g params).variables_y, coef v.col (RowRef.load (i - 1)) =
      (if v.name.1 = i then 1 else 0) - (if v.name.2 = i then 1 else 0)) ∧
    (∀ v ∈ (setup_model g params).variables_x, coef v.col (RowRef.load (i - 1)) = 0) ∧
    (∀ xv yv : Nat → Nat → Int,
      (setup_model g params).row_value xv yv (RowRef.load (i - 1)) =
        (((List.range (2 * g.n + 2)).filter (fun j => decide (g.cost i j ≥ 0))).map
          (fun j => yv i j)).sum -
        (((List.range (2 * g.n + 2)).filter (fun j => decide (g.cost j i ≥ 0))).map
          (fun j => yv j i)).sum) := by
  refine ⟨?_, ?_, ?_, ?_⟩
  · simp only [setup_model, load_rows_eq, List.getElem?_map]
    have h : (List.range' 1 (2 * g.n))[i - 1]? = some i := by
      rw [List.getElem?_eq_some_iff]
      refine ⟨by simp; omega, ?_⟩
      simp
      omega
    rw [h]
    rfl
  · intro v hv
    obtain ⟨⟨a, b⟩, _, rfl⟩ := (mem_variables_y g v).mp hv
    simp only [y_var, coef_y_load]
    have e1 : (1 ≤ a ∧ a ≤ 2 * g.n ∧ a - 1 = i - 1) ↔ a = i := by omega
    have e2 : (1 ≤ b ∧ b ≤ 2 * g.n ∧ b - 1 = i - 1) ↔ b = i := by omega
    simp only [e1, e2]
    by_cases h3 : a = i <;> by_cases h4 : b = i <;> simp [h3, h4]
  · intro v hv
    obtain ⟨⟨a, b⟩, _, rfl⟩ := (mem_variables_x g params v).mp hv
    simp only [x_var, coef_x_load]
  · intro xv yv
    rw [row_value_load g params xv yv i h1 h2, sum_arcs_out g i (by omega) yv,
      sum_arcs_in g i (by omega) yv]

/-- C5, as stated, fails: on `graph1` the allowed arc `(0, 1)` enters node 1, and its y
variable has coefficient `-1`, not `+1`, in the row `load_1`. -/
theorem load_row_entering_arc_counterexample :
    graph1.cost 0 1 ≥ 0 ∧
    (setup_model graph1 params1).load[0]? = some ⟨some 5, some 5, some (RowName.load 1)⟩ ∧
    (∃ v ∈ (setup_model graph1 params1).variables_y,
      v.name = (0, 1) ∧ coef v.col (RowRef.load 0) = -1) ∧
    ¬ (∀ v ∈ (setup_model graph1 params1).variables_y,
      v.name.2 = 1 → coef v.col (RowRef.load 0) = 1) := by
  have hmem : y_var graph1 (0, 1) ∈ (setup_model graph1 params1).variables_y :=
    (mem_variables_y graph1 _).mpr ⟨(0, 1), (mem_arcs graph1 0 1).mpr (by decide), rfl⟩
  have hcoef : coef (y_var graph1 (0, 1)).col (RowRef.load 0) = -1 := by
    simp only [y_var, coef_y_load]
    decide
  refine ⟨by decide, ?_, ⟨_, hmem, rfl, hcoef⟩, ?_⟩
  · simp only [setup_model, load_rows_eq]
    rfl
  · intro h
    have := h _ hmem rfl
    rw [hcoef] at this
    exact absurd this (by decide)

/-- The theorem for C5 at node 1 of `graph1`. -/
theorem load_row_is_outflow_minus_inflow_witness :
    (1 ≤ 1 ∧ 1 ≤ 2 * graph1.n) ∧
    ((setup_model graph1 params1).load[1 - 1]? =
      some ⟨some (graph1.demand 1), some (graph1.demand 1), some (RowName.load 1)⟩ ∧
    (∀ v ∈ (setup_model graph1 params1).variables_y, coef v.col (RowRef.load (1 - 1)) =
      (if v.name.1 = 1 then 1 else 0) - (if v.name.2 = 1 then 1 else 0)) ∧
    (∀ v ∈ (setup_model graph1 params1).variables_x, coef v.col (RowRef.load (1 - 1)) = 0) ∧
    (∀ xv yv : Nat → Nat → Int,
      (setup_model graph1 params1).row_value xv yv (RowRef.load (1 - 1)) =
        (((List.range (2 * graph1.n + 2)).filter (fun j => decide (graph1.cost 1 j ≥ 0))).map
          (fun j => yv 1 j)).sum -
        (((List.range (2 * graph1.n + 2)).filter (fun j => decide (graph1.cost j 1 ≥ 0))).map
          (fun j => yv j 1)).sum)) :=
  ⟨by decide, load_row_is_outflow_minus_inflow graph1 params1 1 (by decide) (by decide)⟩

theorem mem_tour_arcs_iff (p : List Nat) (a b : Nat) :
    (a, b) ∈ tour_arcs p ↔ ∃ k : Nat, p[k]? = some a ∧ p[k + 1]? = some b := by
  unfold tour_arcs
  rw [List.mem_iff_getElem?]
  constructor
  · rintro ⟨k, hk⟩
    rw [List.getElem?_zip_eq_some, List.getElem?_tail] at hk
    exact ⟨k, hk⟩
  · rintro ⟨k, hk⟩
    refine ⟨k, ?_⟩
    rw [List.getElem?_zip_eq_some, List.getElem?_tail]
    exact hk

theorem nodup_index_unique (p : List Nat) (hp : p.Nodup) (k k' a : Nat)
    (h : p[k]? = some a) (h' : p[k']? = some a) : k = k' := by
  obtain ⟨hk, e⟩ := List.getElem?_eq_some_iff.mp h
  obtain ⟨hk', e'⟩ := List.getElem?_eq_some_iff.mp h'
  exact (List.Nodup.getElem_inj_iff hp).mp (e.trans e'.symm)

theorem tour_succ_unique (p : List Nat) (hp : p.Nodup) (k a b c : Nat)
    (h1 : p[k]? = some a) (h2 : p[k + 1]? = some b) (h3 : (a, c) ∈ tour_arcs p) : c = b := by
  obtain ⟨k', h4, h5⟩ := (mem_tour_arcs_iff p a c).mp h3
  have := nodup_index_unique p hp k k' a h1 h4
  subst this
  rw [h2] at h5
  exact (Option.some.inj h5).symm

theorem tour_pred_unique (p : List Nat) (hp : p.Nodup) (k a b c : Nat)
    (h1 : p[k]? = some a) (h2 : p[k + 1]? = some b) (h3 : (c, b) ∈ tour_arcs p) : c = a := by
  obtain ⟨k', h4, h5⟩ := (mem_tour_arcs_iff p c b).mp h3
  have := nodup_index_unique p hp (k + 1) (k' + 1) b h2 h5
  have e : k = k' := by omega
  subst e
  rw [h1] at h4
  exact (Option.some.inj h4).symm

theorem tour_first (g : Graph) (p : List Nat) (hp : is_tour g p) : p[0]? = some 0 := by
  have := hp.2.2.2.1
  rwa [List.head?_eq_getElem?] at this

theorem tour_last (g : Graph) (p : List Nat) (hp : is_tour g p) :
    p[2 * g.n + 1]? = some (2 * g.n + 1) := by
  have := hp.2.2.2.2.1
  rw [List.getLast?_eq_getElem?, hp.1] at this
  simpa using this

theorem tour_get (g : Graph) (p : List Nat) (hp : is_tour g p) (k : Nat)
    (hk : k ≤ 2 * g.n + 1) : ∃ a : Nat, p[k]? = some a := by
  have : k < p.length := by rw [hp.1]; omega
  exact ⟨p[k], List.getElem?_eq_getElem this⟩

theorem tour_inner_node (g : Graph) (p : List Nat) (hp : is_tour g p) (k a : Nat)
    (h1 : 1 ≤ k) (h2 : k ≤ 2 * g.n) (h : p[k]? = some a) : 1 ≤ a ∧ a ≤ 2 * g.n := by
  have hle : a ≤ 2 * g.n + 1 := hp.2.2.1 a (List.getElem?_mem h)
  have h0 : a ≠ 0 := by
    intro e
    subst e
    have := nodup_index_unique p hp.2.1 k 0 0 h (tour_first g p hp)
    omega
  have h3 : a ≠ 2 * g.n + 1 := by
    intro e
    subst e
    have := nodup_index_unique p hp.2.1 k (2 * g.n + 1) _ h (tour_last g p hp)
    omega
  omega

theorem tour_arc_mem_arcs (g : Graph) (p : List Nat) (hp : is_tour g p) (a b : Nat)
    (h : (a, b) ∈ tour_arcs p) : (a, b) ∈ arcs g := by
  rw [mem_arcs]
  obtain ⟨k, h1, h2⟩ := (mem_tour_arcs_iff p a b).mp h
  exact ⟨hp.2.2.1 a (List.getElem?_mem h1), hp.2.2.1 b (List.getElem?_mem h2), hp.2.2.2.2.2 (a, b) h⟩

theorem load_after_zero (g : Graph) (p : List Nat) : load_after g p 0 = 0 := by
  unfold load_after
  cases p <;> simp

theorem load_after_succ (g : Graph) (p : List Nat) (k a : Nat) (h : p[k + 1]? = some a) :
    load_after g p (k + 1) = load_after g p k + g.demand a := by
  unfold load_after
  rw [List.take_succ, h]
  have hne : List.take (k + 1) p ≠ [] := by
    intro e
    have hlen : k + 1 < p.length := (List.getElem?_eq_some_iff.mp h).1
    have hl : (List.take (k + 1) p).length = min (k + 1) p.length := List.length_take _ _
    rw [e] at hl
    simp only [List.length_nil] at hl
    omega
  rw [List.tail_append_of_ne_nil hne]
  simp

/-! ## The load variables on a tour -/

theorem rows_hold_iff (m : Model) (xv yv : Nat → Nat → Int) (rows : List Row)
    (ref : Nat → RowRef) :
    m.rows_hold xv yv rows ref ↔
      ∀ (idx : Nat) (row : Row), rows[idx]? = some row →
        row.holds (m.row_value xv yv (ref idx)) := by
  unfold Model.rows_hold
  constructor
  · intro h idx row hrow
    exact h (idx, row) (List.mk_mem_enum_iff_getElem?.mpr hrow)
  · intro h q hq
    exact h q.1 q.2 (List.mem_enum_iff_getElem?.mp hq)

theorem y_upper_row (g : Graph) (params : Params) (xv yv : Nat → Nat → Int)
    (h : (setup_model g params).rows_hold xv yv (setup_model g params).y_upper RowRef.y_upper)
    (a b : Nat) (hab : (a, b) ∈ arcs g) : yv a b ≤ beta g a b * xv a b := by
  obtain ⟨k, hk⟩ := List.mem_iff_getElem?.mp hab
  have hrow : (setup_model g params).y_upper[k]? =
      some ⟨some 0, none, some (RowName.y_upper a b)⟩ := by
    simp [setup_model, y_rows_eq, List.getElem?_map, hk]
  have := ((rows_hold_iff _ _ _ _ _).mp h k _ hrow).1
  rw [row_value_y_upper g params xv yv k a b hk] at this
  simp only [lower_ok] at this
  omega

theorem y_lower_row (g : Graph) (params : Params) (xv yv : Nat → Nat → Int)
    (h : (setup_model g params).rows_hold xv yv (setup_model g params).y_lower RowRef.y_lower)
    (a b : Nat) (hab : (a, b) ∈ arcs g) : alpha g a b * xv a b ≤ yv a b := by
  obtain ⟨k, hk⟩ := List.mem_iff_getElem?.mp hab
  have hrow : (setup_model g params).y_lower[k]? =
      some ⟨none, some 0, some (RowName.y_lower a b)⟩ := by
    simp [setup_model, y_rows_eq, List.getElem?_map, hk]
  have := ((rows_hold_iff _ _ _ _ _).mp h k _ hrow).2
  rw [row_value_y_lower g params xv yv k a b hk] at this
  simp only [upper_ok] at this
  omega

theorem y_bounds (g : Graph) (params : Params) (yv : Nat → Nat → Int)
    (h : (setup_model g params).y_bounds_hold yv) (a b : Nat) (hab : (a, b) ∈ arcs g) :
    0 ≤ yv a b ∧ yv a b ≤ g.capacity := by
  have := h (y_var g (a, b)) ((mem_variables_y g _).mpr ⟨(a, b), hab, rfl⟩)
  simpa [y_var] using this

theorem y_off_tour (g : Graph) (params : Params) (p : List Nat) (yv : Nat → Nat → Int)
    (hupper : (setup_model g params).rows_hold (tour_x p) yv
      (setup_model g params).y_upper RowRef.y_upper)
    (hb : (setup_model g params).y_bounds_hold yv) (a b : Nat) (hab : (a, b) ∈ arcs g)
    (hoff : (a, b) ∉ tour_arcs p) : yv a b = 0 := by
  have h1 := y_upper_row g params (tour_x p) yv hupper a b hab
  have h2 := (y_bounds g params yv hb a b hab).1
  simp only [tour_x, hoff, if_false, mul_zero] at h1
  omega

theorem sum_single (l : List (Nat × Nat)) (hl : l.Nodup) (a : Nat × Nat) (ha : a ∈ l)
    (f : Nat × Nat → Int) (h : ∀ q ∈ l, q ≠ a → f q = 0) : (l.map f).sum = f a := by
  rw [List.sum_map_eq_nsmul_single a f (fun q hq hmem => h q hmem hq),
    List.count_eq_one_of_mem hl ha]
  simp

theorem out_sum_on_tour (g : Graph) (params : Params) (p : List Nat) (yv : Nat → Nat → Int)
    (hp : is_tour g p)
    (hupper : (setup_model g params).rows_hold (tour_x p) yv
      (setup_model g params).y_upper RowRef.y_upper)
    (hb : (setup_model g params).y_bounds_hold yv) (k a b : Nat)
    (h1 : p[k]? = some a) (h2 : p[k + 1]? = some b) :
    ((arcs g).map (fun q => if q.1 = a then yv q.1 q.2 else 0)).sum = yv a b := by
  have hmem : (a, b) ∈ tour_arcs p := (mem_tour_arcs_iff p a b).mpr ⟨k, h1, h2⟩
  rw [sum_single (arcs g) (nodup_arcs g) (a, b) (tour_arc_mem_arcs g p hp a b hmem)]
  · simp
  · intro q hq hne
    by_cases hq1 : q.1 = a
    · simp only [hq1, if_true]
      have hoff : (a, q.2) ∉ tour_arcs p := by
        intro hin
        have := tour_succ_unique p hp.2.1 k a b q.2 h1 h2 hin
        exact hne (Prod.ext hq1 this)
      have hq' : (a, q.2) ∈ arcs g := by rw [← hq1]; exact hq
      exact y_off_tour g params p yv hupper hb a q.2 hq' hoff
    · simp [hq1]

theorem in_sum_on_tour (g : Graph) (params : Params) (p : List Nat) (yv : Nat → Nat → Int)
    (hp : is_tour g p)
    (hupper : (setup_model g params).rows_hold (tour_x p) yv
      (setup_model g params).y_upper RowRef.y_upper)
    (hb : (setup_model g params).y_bounds_hold yv) (k a b : Nat)
    (h1 : p[k]? = some a) (h2 : p[k + 1]? = some b) :
    ((arcs g).map (fun q => if q.2 = b then yv q.1 q.2 else 0)).sum = yv a b := by
  have hmem : (a, b) ∈ tour_arcs p := (mem_tour_arcs_iff p a b).mpr ⟨k, h1, h2⟩
  rw [sum_single (arcs g) (nodup_arcs g) (a, b) (tour_arc_mem_arcs g p hp a b hmem)]
  · simp
  · intro q hq hne
    by_cases hq2 : q.2 = b
    · simp only [hq2, if_true]
      have hoff : (q.1, b) ∉ tour_arcs p := by
        intro hin
        have := tour_pred_unique p hp.2.1 k a b q.1 h1 h2 hin
        exact hne (Prod.ext this hq2)
      have hq' : (q.1, b) ∈ arcs g := by rw [← hq2]; exact hq
      exact y_off_tour g params p yv hupper hb q.1 b hq' hoff
    · simp [hq2]

theorem load_row_get (g : Graph) (params : Params) (i : Nat) (h1 : 1 ≤ i) (h2 : i ≤ 2 * g.n) :
    (setup_model g params).load[i - 1]? =
      some ⟨some (g.demand i), some (g.demand i), some (RowName.load i)⟩ := by
  simp only [setup_model, load_rows_eq, List.getElem?_map]
  have h : (List.range' 1 (2 * g.n))[i - 1]? = some i := by
    rw [List.getElem?_eq_some_iff]
    refine ⟨by simp; omega, ?_⟩
    simp
    omega
  rw [h]
  rfl

theorem row_value_initial_load (g : Graph) (params : Params) (xv yv : Nat → Nat → Int) :
    (setup_model g params).row_value xv yv (RowRef.initial_load 0) =
      ((arcs g).map (fun q => if q.1 = 0 then yv q.1 q.2 else 0)).sum := by
  rw [row_value_eq]
  simp only [coef_x_initial_load, zero_mul, List.map_const', List.sum_replicate, smul_zero,
    zero_add, coef_y_initial_load]
  congr 1
  apply List.map_congr_left
  intro q _
  by_cases h : q.1 = 0 <;> simp [h]

/-- On a tour, the load rows, the initial-load row, the `y_upper` rows and the bounds of
the y variables leave one value for y on every arc of the tour: the load simulated along
the tour. -/
theorem y_on_tour (g : Graph) (params : Params) (p : List Nat) (yv : Nat → Nat → Int)
    (hp : is_tour g p)
    (hload : (setup_model g params).rows_hold (tour_x p) yv
      (setup_model g params).load RowRef.load)
    (hinit : (setup_model g params).rows_hold (tour_x p) yv
      (setup_model g params).initial_load RowRef.initial_load)
    (hupper : (setup_model g params).rows_hold (tour_x p) yv
      (setup_model g params).y_upper RowRef.y_upper)
    (hb : (setup_model g params).y_bounds_hold yv) :
    ∀ k a b : Nat, p[k]? = some a → p[k + 1]? = some b → yv a b = load_after g p k := by
  intro k
  induction k with
  | zero =>
    intro a b h1 h2
    have ha : a = 0 := by
      have := tour_first g p hp
      rw [h1] at this
      exact Option.some.inj this
    subst ha
    have hrow : (setup_model g params).initial_load[0]? =
        some ⟨some 0, some 0, some RowName.initial_load⟩ := rfl
    have h3 := (rows_hold_iff _ _ _ _ _).mp hinit 0 _ hrow
    rw [row_value_initial_load, out_sum_on_tour g params p yv hp hupper hb 0 0 b h1 h2] at h3
    simp only [Row.holds, lower_ok, upper_ok] at h3
    rw [load_after_zero]
    omega
  | succ k ih =>
    intro a b h1 h2
    have hk2 : k + 1 + 1 < p.length := (List.getElem?_eq_some_iff.mp h2).1
    rw [hp.1] at hk2
    obtain ⟨c, hc⟩ := tour_get g p hp k (by omega)
    have ihc := ih c a hc h1
    have hnode := tour_inner_node g p hp (k + 1) a (by omega) (by omega) h1
    have hrow := load_row_get g params a hnode.1 hnode.2
    have h3 := (rows_hold_iff _ _ _ _ _).mp hload (a - 1) _ hrow
    rw [row_value_load g params _ yv a hnode.1 hnode.2,
      out_sum_on_tour g params p yv hp hupper hb (k + 1) a b h1 h2,
      in_sum_on_tour g params p yv hp hupper hb k c a hc h1] at h3
    simp only [Row.holds, lower_ok, upper_ok] at h3
    rw [load_after_succ g p k a h1]
    omega

/-- C2. Let `p` be a Hamiltonian path `0 = v_0, v_1, ..., v_{2n+1} = 2n+1` over allowed
arcs and x its 0/1 arc vector. Every y that satisfies the `load` rows, the `initial_load`
row, the `y_upper` rows and the bounds `0 <= y <= Q` of the model has
`y(v_k, v_{k+1}) = q(v_1) + ... + q(v_k)` on every arc of the path (0 on the arc leaving
the source) and `y = 0` on the variable of every arc that is not on the path. -/
theorem load_rows_round_trip (g : Graph) (params : Params) (p : List Nat)
    (yv : Nat → Nat → Int) (hp : is_tour g p)
    (hload : (setup_model g params).rows_hold (tour_x p) yv
      (setup_model g params).load RowRef.load)
    (hinit : (setup_model g params).rows_hold (tour_x p) yv
      (setup_model g params).initial_load RowRef.initial_load)
    (hupper : (setup_model g params).rows_hold (tour_x p) yv
      (setup_model g params).y_upper RowRef.y_upper)
    (hb : (setup_model g params).y_bounds_hold yv) :
    (∀ k a b : Nat, p[k]? = some a → p[k + 1]? = some b → yv a b = load_after g p k) ∧
    (∀ v ∈ (setup_model g params).variables_y, v.name ∉ tour_arcs p →
      yv v.name.1 v.name.2 = 0) := by
  refine ⟨y_on_tour g params p yv hp hload hinit hupper hb, ?_⟩
  intro v hv hoff
  obtain ⟨⟨a, b⟩, hab, rfl⟩ := (mem_variables_y g v).mp hv
  exact y_off_tour g params p yv hupper hb a b hab hoff

/-- The theorem for C2 on `graph1` with the tour `0, 1, 2, 3` and the loads `y_tour1`. -/
theorem load_rows_round_trip_witness :
    (is_tour graph1 tour1 ∧
      (setup_model graph1 params1).rows_hold (tour_x tour1) y_tour1
        (setup_model graph1 params1).load RowRef.load ∧
      (setup_model graph1 params1).rows_hold (tour_x tour1) y_tour1
        (setup_model graph1 params1).initial_load RowRef.initial_load ∧
      (setup_model graph1 params1).rows_hold (tour_x tour1) y_tour1
        (setup_model graph1 params1).y_upper RowRef.y_upper ∧
      (setup_model graph1 params1).y_bounds_hold y_tour1) ∧
    ((∀ k a b : Nat, tour1[k]? = some a → tour1[k + 1]? = some b →
        y_tour1 a b = load_after graph1 tour1 k) ∧
      (∀ v ∈ (setup_model graph1 params1).variables_y, v.name ∉ tour_arcs tour1 →
        y_tour1 v.name.1 v.name.2 = 0)) :=
  ⟨by decide!, load_rows_round_trip graph1 params1 tour1 y_tour1 (by decide!) (by decide!)
    (by decide!) (by decide!) (by decide!)⟩

/-- C3. Let `(x, y)` be an integer solution of the base rows of the model (`outdegree`,
`indegree`, `load`, `initial_load`, `y_lower`, `y_upper`, the bounds of x and
`0 <= y <= Q`) in which x is the arc vector of a Hamiltonian path `p` from `0` to `2n+1`.
For every node `v_k` of the path the cumulative load `q(v_1) + ... + q(v_k)` after it lies
in `[0, min(Q, d(v_k))]`; for the sink, the one node the path does not leave, the sum
includes the sink's own demand, taken to be the `0` of the data model. -/
theorem load_within_capacity_and_draught (g : Graph) (params : Params) (p : List Nat)
    (yv : Nat → Nat → Int) (hp : is_tour g p)
    (_hout : (setup_model g params).rows_hold (tour_x p) yv
      (setup_model g params).outdegree RowRef.outdegree)
    (_hin : (setup_model g params).rows_hold (tour_x p) yv
      (setup_model g params).indegree RowRef.indegree)
    (hload : (setup_model g params).rows_hold (tour_x p) yv
      (setup_model g params).load RowRef.load)
    (hinit : (setup_model g params).rows_hold (tour_x p) yv
      (setup_model g params).initial_load RowRef.initial_load)
    (_hlower : (setup_model g params).rows_hold (tour_x p) yv
      (setup_model g params).y_lower RowRef.y_lower)
    (hupper : (setup_model g params).rows_hold (tour_x p) yv
      (setup_model g params).y_upper RowRef.y_upper)
    (_hxb : (setup_model g params).x_bounds_hold (tour_x p))
    (hb : (setup_model g params).y_bounds_hold yv) :
    ∀ k a : Nat, p[k]? = some a → (k = 2 * g.n + 1 → g.demand a = 0) →
      0 ≤ load_after g p k ∧ load_after g p k ≤ min g.capacity (g.draught a) := by
  intro k a ha hsink
  have hlt : k < p.length := (List.getElem?_eq_some_iff.mp ha).1
  rw [hp.1] at hlt
  by_cases hk : k ≤ 2 * g.n
  · obtain ⟨b, hb'⟩ := tour_get g p hp (k + 1) (by omega)
    have hy := y_on_tour g params p yv hp hload hinit hupper hb k a b ha hb'
    have hmem : (a, b) ∈ tour_arcs p := (mem_tour_arcs_iff p a b).mpr ⟨k, ha, hb'⟩
    have harc := tour_arc_mem_arcs g p hp a b hmem
    have h1 := y_bounds g params yv hb a b harc
    have h2 := y_upper_row g params (tour_x p) yv hupper a b harc
    simp only [tour_x, hmem, if_true, mul_one] at h2
    have h3 : beta g a b ≤ g.draught a := by
      unfold beta
      exact le_trans (min_le_left _ _) (min_le_right _ _)
    rw [← hy]
    exact ⟨h1.1, le_min h1.2 (le_trans h2 h3)⟩
  · have hk' : k = 2 * g.n + 1 := by omega
    subst hk'
    have hq := hsink rfl
    obtain ⟨c, hc⟩ := tour_get g p hp (2 * g.n) (by omega)
    have hy := y_on_tour g params p yv hp hload hinit hupper hb (2 * g.n) c a hc ha
    have hmem : (c, a) ∈ tour_arcs p := (mem_tour_arcs_iff p c a).mpr ⟨2 * g.n, hc, ha⟩
    have harc := tour_arc_mem_arcs g p hp c a hmem
    have h1 := y_bounds g params yv hb c a harc
    have h2 := y_upper_row g params (tour_x p) yv hupper c a harc
    simp only [tour_x, hmem, if_true, mul_one] at h2
    have h3 : beta g c a ≤ g.draught a := by
      unfold beta
      rw [hq]
      simp
    rw [load_after_succ g p (2 * g.n) a ha, hq, add_zero, ← hy]
    exact ⟨h1.1, le_min h1.2 (le_trans h2 h3)⟩

/-- The theorem for C3 on `graph1` with the tour `0, 1, 2, 3` and the loads `y_tour1`. -/
theorem load_within_capacity_and_draught_witness :
    (is_tour graph1 tour1 ∧
      (setup_model graph1 params1).rows_hold (tour_x tour1) y_tour1
        (setup_model graph1 params1).outdegree RowRef.outdegree ∧
      (setup_model graph1 params1).rows_hold (tour_x tour1) y_tour1
        (setup_model graph1 params1).indegree RowRef.indegree ∧
      (setup_model graph1 params1).rows_hold (tour_x tour1) y_tour1
        (setup_model graph1 params1).load RowRef.load ∧
      (setup_model graph1 params1).rows_hold (tour_x tour1) y_tour1
        (setup_model graph1 params1).initial_load RowRef.initial_load ∧
      (setup_model graph1 params1).rows_hold (tour_x tour1) y_tour1
        (setup_model graph1 params1).y_lower RowRef.y_lower ∧
      (setup_model graph1 params1).rows_hold (tour_x tour1) y_tour1
        (setup_model graph1 params1).y_upper RowRef.y_upper ∧
      (setup_model graph1 params1).x_bounds_hold (tour_x tour1) ∧
      (setup_model graph1 params1).y_bounds_hold y_tour1) ∧
    (∀ k a : Nat, tour1[k]? = some a → (k = 2 * graph1.n + 1 → graph1.demand a = 0) →
      0 ≤ load_after graph1 tour1 k ∧
      load_after graph1 tour1 k ≤ min graph1.capacity (graph1.draught a)) :=
  ⟨by decide!, load_within_capacity_and_draught graph1 params1 tour1 y_tour1 (by decide!)
    (by decide!) (by decide!) (by decide!) (by decide!) (by decide!) (by decide!) (by decide!)
    (by decide!)⟩

/-! ## Growth of `S` and `T` -/

theorem best_fold_mem (l : List Nat) (step : Option Nat × ℚ → Nat → Option Nat × ℚ)
    (hstep : ∀ s i, (step s i).1 = s.1 ∨ (step s i).1 = some i) (init : Option Nat × ℚ)
    (b : Nat) (h : (l.foldl step init).1 = some b) : init.1 = some b ∨ b ∈ l := by
  induction l generalizing init with
  | nil => exact Or.inl h
  | cons a l ih =>
    rcases ih (step init a) h with h1 | h1
    · rcases hstep init a with h2 | h2
      · exact Or.inl (h2 ▸ h1)
      · rw [h2] at h1
        exact Or.inr (by simp [Option.some.inj h1])
    · exact Or.inr (List.mem_cons_of_mem _ h1)

theorem best_result_node (r : Option Nat × ℚ) (b : best_node) (h : best_result r = some b) :
    r.1 = some b.node := by
  unfold best_result at h
  split at h
  · rename_i n hn
    simp at h
    rw [hn, ← h]
  · simp at h

theorem best_pickup_node_for_S_range (g : Graph) (x : XValues) (eps : ℚ) (S : List Nat)
    (b : best_node) (h : best_pickup_node_for_S g x eps S = some b) :
    1 ≤ b.node ∧ b.node ≤ g.n := by
  have h1 := best_result_node _ _ h
  rcases best_fold_mem _ _ (by
    intro s i
    by_cases c1 : i ∈ S
    · simp [c1]
    · by_cases c2 : flow_to x S i > fadd s.2 eps <;> simp [c1, c2]) _ _ h1 with h2 | h2
  · simp at h2
  · rw [List.mem_range'] at h2
    obtain ⟨m, hm, e⟩ := h2
    omega

theorem best_delivery_node_for_S_range (g : Graph) (x : XValues) (S : List Nat)
    (b : best_node) (h : best_delivery_node_for_S g x S = some b) :
    g.n + 1 ≤ b.node ∧ b.node ≤ 2 * g.n := by
  have h1 := best_result_node _ _ h
  rcases best_fold_mem _ _ (by
    intro s i
    by_cases c1 : i ∈ S
    · simp [c1]
    · by_cases c2 : flow_to x S i > s.2 <;> simp [c1, c2]) _ _ h1 with h2 | h2
  · simp at h2
  · rw [List.mem_range'] at h2
    obtain ⟨m, hm, e⟩ := h2
    omega

theorem best_pickup_node_for_T_range (g : Graph) (x : XValues) (eps : ℚ) (S T : List Nat)
    (b : best_node) (h : best_pickup_node_for_T g x eps S T = some b) :
    1 ≤ b.node ∧ b.node ≤ g.n := by
  have h1 := best_result_node _ _ h
  rcases best_fold_mem _ _ (by
    intro s i
    by_cases c1 : i ∈ S
    · simp [c1]
    · by_cases c3 : i ∈ T
      · simp [c1, c3]
      · by_cases c2 : flow_to x T i > fadd s.2 eps <;> simp [c1, c2, c3]) _ _ h1 with h2 | h2
  · simp at h2
  · rw [List.mem_range'] at h2
    obtain ⟨m, hm, e⟩ := h2
    omega

theorem best_delivery_node_for_T_range (g : Graph) (x : XValues) (eps : ℚ) (S T : List Nat)
    (b : best_node) (h : best_delivery_node_for_T g x eps S T = some b) :
    g.n + 1 ≤ b.node ∧ b.node ≤ 2 * g.n := by
  have h1 := best_result_node _ _ h
  rcases best_fold_mem _ _ (by
    intro s i
    by_cases c1 : i ∈ S
    · simp [c1]
    · by_cases c3 : i ∈ T
      · simp [c1, c3]
      · by_cases c2 : flow_to x T i > fadd s.2 eps <;> simp [c1, c2, c3]) _ _ h1 with h2 | h2
  · simp at h2
  · rw [List.mem_range'] at h2
    obtain ⟨m, hm, e⟩ := h2
    omega

/-- C7, as the code has it. In a pass of the loop of `separate_valid_cuts` from `(S, T)`:
when both a best pickup `p` and a best delivery `d` for `S` exist they are different
nodes, the delivery is the node appended to `S` (and removed from `T`) exactly when the
pickup's flow is strictly less than the delivery's flow and the delivery's flow is `>= 1`,
and the pickup is appended otherwise; when only one kind exists that node is appended;
when none exists the loop ends. -/
theorem S_growth_rule (g : Graph) (x : XValues) (eps : ℚ) (S T : List Nat) :
    (∀ p d : best_node, best_pickup_node_for_S g x eps S = some p →
      best_delivery_node_for_S g x S = some d →
      p.node ≠ d.node ∧
      (grow_S g x eps S T = some (S ++ [d.node], T.filter (fun t => t ≠ d.node)) ↔
        (p.flow < d.flow ∧ d.flow ≥ 1)) ∧
      (grow_S g x eps S T = some (S ++ [p.node], T.filter (fun t => t ≠ p.node)) ↔
        ¬ (p.flow < d.flow ∧ d.flow ≥ 1))) ∧
    (∀ d : best_node, best_pickup_node_for_S g x eps S = none →
      best_delivery_node_for_S g x S = some d →
      grow_S g x eps S T = some (S ++ [d.node], T.filter (fun t => t ≠ d.node))) ∧
    (∀ p : best_node, best_pickup_node_for_S g x eps S = some p →
      best_delivery_node_for_S g x S = none →
      grow_S g x eps S T = some (S ++ [p.node], T.filter (fun t => t ≠ p.node))) ∧
    (best_pickup_node_for_S g x eps S = none → best_delivery_node_for_S g x S = none →
      grow_S g x eps S T = none) := by
  refine ⟨?_, ?_, ?_, ?_⟩
  · intro p d hp hd
    have r1 := best_pickup_node_for_S_range g x eps S p hp
    have r2 := best_delivery_node_for_S_range g x S d hd
    have hne : p.node ≠ d.node := by omega
    refine ⟨hne, ?_, ?_⟩
    · unfold grow_S choose_for_S
      rw [hp, hd]
      by_cases hc : p.flow < d.flow ∧ d.flow ≥ 1
      · simp [hc]
      · simp only [hc, if_false, iff_false]
        intro e
        simp only [Option.some.injEq, Prod.mk.injEq] at e
        have := List.append_cancel_left e.1
        simp at this
        exact hne this
    · unfold grow_S choose_for_S
      rw [hp, hd]
      by_cases hc : p.flow < d.flow ∧ d.flow ≥ 1
      · simp only [if_pos hc]
        constructor
        · intro e
          simp only [Option.some.injEq, Prod.mk.injEq] at e
          have := List.append_cancel_left e.1
          simp at this
          exact absurd this.symm hne
        · intro h
          exact absurd hc h
      · simp only [if_neg hc]
        simp [hc]
  · intro d hp hd
    unfold grow_S choose_for_S
    rw [hp, hd]
  · intro p hp hd
    unfold grow_S choose_for_S
    rw [hp, hd]
  · intro hp hd
    unfold grow_S choose_for_S
    rw [hp, hd]

/-- C7, as stated, fails: from `S = {1}`, `T = {4}` on `graph3` with `snapshot_S` the best
pickup is node 2 with flow 1 and the best delivery is node 5 with flow 1/2; the delivery's
flow is strictly less than the pickup's and the pickup's flow is `>= 1`, yet the node
appended to `S` is the pickup. -/
theorem S_growth_rule_counterexample :
    (1, 4) ∈ seed_pairs graph3.n ∧
    best_pickup_node_for_S graph3 snapshot_S (1 / 1000000) [1] = some ⟨2, 1⟩ ∧
    best_delivery_node_for_S graph3 snapshot_S [1] = some ⟨5, 1 / 2⟩ ∧
    ((1 / 2 : ℚ) < 1 ∧ (1 : ℚ) ≥ 1) ∧
    grow_S graph3 snapshot_S (1 / 1000000) [1] [4] = some ([1, 2], [4]) := by
  decide!

/-- The theorem for C7 on `graph3` with `snapshot_S`, from `S = {1}`, `T = {4}`. -/
theorem S_growth_rule_witness :
    best_pickup_node_for_S graph3 snapshot_S (1 / 1000000) [1] = some ⟨2, 1⟩ ∧
    best_delivery_node_for_S graph3 snapshot_S [1] = some ⟨5, 1 / 2⟩ ∧
    (grow_S graph3 snapshot_S (1 / 1000000) [1] [4] =
        some ([1] ++ [2], [4].filter (fun t => t ≠ 2)) ↔
      ¬ ((1 : ℚ) < 1 / 2 ∧ (1 / 2 : ℚ) ≥ 1)) :=
  ⟨by decide!, by decide!,
    ((S_growth_rule graph3 snapshot_S (1 / 1000000) [1] [4]).1 ⟨2, 1⟩ ⟨5, 1 / 2⟩
      (by decide!) (by decide!)).2.2⟩

/-- C8, as the code has it. In a pass of the loop of `separate_valid_cuts`, with `(S, T)`
as the growth of `S` left them: when both a best pickup `p` and a best delivery `d` for `T`
exist they are different nodes, the pickup is the node appended to `T` exactly when the
delivery's flow is strictly less than the pickup's flow and the pickup's flow is `>= 1`,
and the delivery is appended otherwise; when only one kind exists that node is appended;
when none exists `T` is unchanged. -/
theorem T_growth_rule (g : Graph) (x : XValues) (eps : ℚ) (S T : List Nat) :
    (∀ p d : best_node, best_pickup_node_for_T g x eps S T = some p →
      best_delivery_node_for_T g x eps S T = some d →
      p.node ≠ d.node ∧
      (grow_T g x eps S T = T ++ [p.node] ↔ (d.flow < p.flow ∧ p.flow ≥ 1)) ∧
      (grow_T g x eps S T = T ++ [d.node] ↔ ¬ (d.flow < p.flow ∧ p.flow ≥ 1))) ∧
    (∀ d : best_node, best_pickup_node_for_T g x eps S T = none →
      best_delivery_node_for_T g x eps S T = some d → grow_T g x eps S T = T ++ [d.node]) ∧
    (∀ p : best_node, best_pickup_node_for_T g x eps S T = some p →
      best_delivery_node_for_T g x eps S T = none → grow_T g x eps S T = T ++ [p.node]) ∧
    (best_pickup_node_for_T g x eps S T = none → best_delivery_node_for_T g x eps S T = none →
      grow_T g x eps S T = T) := by
  refine ⟨?_, ?_, ?_, ?_⟩
  · intro p d hp hd
    have r1 := best_pickup_node_for_T_range g x eps S T p hp
    have r2 := best_delivery_node_for_T_range g x eps S T d hd
    have hne : p.node ≠ d.node := by omega
    refine ⟨hne, ?_, ?_⟩
    · unfold grow_T choose_for_T
      rw [hp, hd]
      by_cases hc : d.flow < p.flow ∧ p.flow ≥ 1
      · simp [hc]
      · simp only [hc, if_false, iff_false]
        intro e
        have := List.append_cancel_left e
        simp at this
        exact hne this.symm
    · unfold grow_T choose_for_T
      rw [hp, hd]
      by_cases hc : d.flow < p.flow ∧ p.flow ≥ 1
      · simp only [if_pos hc]
        constructor
        · intro e
          have := List.append_cancel_left e
          simp at this
          exact absurd this hne
        · intro h
          exact absurd hc h
      · simp only [if_neg hc]
        simp [hc]
  · intro d hp hd
    unfold grow_T choose_for_T
    rw [hp, hd]
  · intro p hp hd
    unfold grow_T choose_for_T
    rw [hp, hd]
  · intro hp hd
    unfold grow_T choose_for_T
    rw [hp, hd]

/-- C8, as stated, fails: on `graph3` with `snapshot_T` the growth of `S` from the seed
`S = {1}`, `T = {4}` leaves `S = {1, 2}`, `T = {4}`; the best pickup for `T` is node 3 and
the best delivery node 5, both with flow 1/2; the pickup's flow is not strictly less than
the delivery's, yet the node appended to `T` is the delivery. -/
theorem T_growth_rule_counterexample :
    (1, 4) ∈ seed_pairs graph3.n ∧
    grow_S graph3 snapshot_T (1 / 1000000) [1] [4] = some ([1, 2], [4]) ∧
    best_pickup_node_for_T graph3 snapshot_T (1 / 1000000) [1, 2] [4] = some ⟨3, 1 / 2⟩ ∧
    best_delivery_node_for_T graph3 snapshot_T (1 / 1000000) [1, 2] [4] = some ⟨5, 1 / 2⟩ ∧
    ¬ ((1 / 2 : ℚ) < 1 / 2 ∧ (1 / 2 : ℚ) ≥ 1) ∧
    grow_T graph3 snapshot_T (1 / 1000000) [1, 2] [4] = [4, 5] := by
  decide!

/-- The theorem for C8 on `graph3` with `snapshot_T`, from `S = {1, 2}`, `T = {4}`. -/
theorem T_growth_rule_witness :
    best_pickup_node_for_T graph3 snapshot_T (1 / 1000000) [1, 2] [4] = some ⟨3, 1 / 2⟩ ∧
    best_delivery_node_for_T graph3 snapshot_T (1 / 1000000) [1, 2] [4] = some ⟨5, 1 / 2⟩ ∧
    (grow_T graph3 snapshot_T (1 / 1000000) [1, 2] [4] = [4] ++ [5] ↔
      ¬ ((1 / 2 : ℚ) < 1 / 2 ∧ (1 / 2 : ℚ) ≥ 1)) :=
  ⟨by decide!, by decide!,
    ((T_growth_rule graph3 snapshot_T (1 / 1000000) [1, 2] [4]).1 ⟨3, 1 / 2⟩ ⟨5, 1 / 2⟩
      (by decide!) (by decide!)).2.2⟩

/-! ## Seeds -/

theorem foldlM_map_option {α β σ : Type} (l : List α) (h : α → β) (F : σ → β → Option σ)
    (init : σ) : (l.map h).foldlM F init = l.foldlM (fun s a => F s (h a)) init := by
  induction l generalizing init with
  | nil => rfl
  | cons a l ih =>
    simp only [List.map_cons, List.foldlM_cons]
    cases F init (h a) with
    | none => rfl
    | some s => simp [ih]

theorem foldlM_flatMap_option {α β σ : Type} (l : List α) (h : α → List β)
    (F : σ → β → Option σ) (init : σ) :
    (l.flatMap h).foldlM F init = l.foldlM (fun s a => (h a).foldlM F s) init := by
  induction l generalizing init with
  | nil => rfl
  | cons a l ih =>
    simp only [List.flatMap_cons, List.foldlM_append, List.foldlM_cons]
    cases (h a).foldlM F init with
    | none => rfl
    | some s => simp [ih]

theorem separate_valid_cuts_eq (g : Graph) (x : XValues) (eps : ℚ) :
    separate_valid_cuts g x eps =
      (seed_pairs g.n).foldlM
        (fun cuts s => growth_loop g x eps (2 * g.n) [s.1] [s.2] cuts) [] := by
  unfold separate_valid_cuts seed_pairs
  rw [foldlM_flatMap_option]
  simp only [foldlM_map_option]

theorem mem_seed_pairs (n i j : Nat) :
    (i, j) ∈ seed_pairs n ↔ 1 ≤ i ∧ i ≤ n ∧ n + 1 ≤ j ∧ j ≤ 2 * n := by
  simp only [seed_pairs, List.mem_flatMap, List.mem_map, List.mem_range', Prod.mk.injEq]
  constructor
  · rintro ⟨a, ⟨m, hm, rfl⟩, b, ⟨m', hm', rfl⟩, rfl, rfl⟩
    omega
  · intro h
    exact ⟨i, ⟨i - 1, by omega, by omega⟩, j, ⟨j - (n + 1), by omega, by omega⟩, rfl, rfl⟩

theorem length_seed_pairs (n : Nat) : (seed_pairs n).length = n * n := by
  have h : (List.length ∘ fun i : Nat => List.map (fun j => (i, j)) (List.range' (n + 1) n)) =
      fun _ => n := by
    funext i
    simp
  simp [seed_pairs, List.length_flatMap, h]

theorem nodup_seed_pairs (n : Nat) : (seed_pairs n).Nodup := by
  unfold seed_pairs
  rw [List.nodup_flatMap]
  constructor
  · intro i _
    exact (List.nodup_range' _ _).map (fun a b h => by simpa using h)
  · apply (List.nodup_range' _ _).pairwise_of_forall_ne
    intro a _ b _ hab
    simp only [Function.onFun, List.Disjoint]
    intro p hp1 hp2
    simp only [List.mem_map] at hp1 hp2
    obtain ⟨_, _, rfl⟩ := hp1
    obtain ⟨_, _, h⟩ := hp2
    simp at h
    exact hab h.1.symm

/-- C9, as the code has it. `separate_valid_cuts` runs the growth loop once from each
pair `S = {i}`, `T = {j}` of `seed_pairs n`, threading the list of cuts, and these are
exactly the `n * n` pairs of a pickup `i` of `1..n` and a delivery `j` of `n+1..2n`, each
once: the `n` pairs `(i, n+i)` and also every pair with `j != n+i`. -/
theorem seeds_are_all_pickup_delivery_pairs (g : Graph) (x : XValues) (eps : ℚ) :
    separate_valid_cuts g x eps =
      (seed_pairs g.n).foldlM
        (fun cuts s => growth_loop g x eps (2 * g.n) [s.1] [s.2] cuts) [] ∧
    (∀ i j : Nat, (i, j) ∈ seed_pairs g.n ↔ 1 ≤ i ∧ i ≤ g.n ∧ g.n + 1 ≤ j ∧ j ≤ 2 * g.n) ∧
    (seed_pairs g.n).Nodup ∧
    (seed_pairs g.n).length = g.n * g.n :=
  ⟨separate_valid_cuts_eq g x eps, mem_seed_pairs g.n, nodup_seed_pairs g.n,
    length_seed_pairs g.n⟩

/-- C9, as stated, fails: with three requests the growth is started from 9 pairs, not 3,
among them `S = {1}`, `T = {5}`, where `5 != 3 + 1`. -/
theorem seeds_counterexample :
    seed_pairs graph3.n = [(1, 4), (1, 5), (1, 6), (2, 4), (2, 5), (2, 6), (3, 4), (3, 5), (3, 6)] ∧
    (1, 5) ∈ seed_pairs graph3.n ∧ 5 ≠ graph3.n + 1 ∧
    (seed_pairs graph3.n).length ≠ graph3.n := by
  decide

/-! ## The growth loop returns -/

theorem best_fold_spec (P : Nat → Prop) (l : List Nat)
    (step : Option Nat × ℚ → Nat → Option Nat × ℚ)
    (hstep : ∀ s i, (step s i).1 = s.1 ∨ ((step s i).1 = some i ∧ P i))
    (init : Option Nat × ℚ) (b : Nat) (h : (l.foldl step init).1 = some b) :
    init.1 = some b ∨ (b ∈ l ∧ P b) := by
  induction l generalizing init with
  | nil => exact Or.inl h
  | cons a l ih =>
    rcases ih (step init a) h with h1 | h1
    · rcases hstep init a with h2 | h2
      · exact Or.inl (h2 ▸ h1)
      · rw [h2.1] at h1
        have e : a = b := Option.some.inj h1
        subst e
        exact Or.inr ⟨List.mem_cons_self _ _, h2.2⟩
    · exact Or.inr ⟨List.mem_cons_of_mem _ h1.1, h1.2⟩

theorem best_pickup_node_for_S_not_mem (g : Graph) (x : XValues) (eps : ℚ) (S : List Nat)
    (b : best_node) (h : best_pickup_node_for_S g x eps S = some b) : b.node ∉ S := by
  have h1 := best_result_node _ _ h
  rcases best_fold_spec (fun i => i ∉ S) _ _ (by
    intro s i
    by_cases c1 : i ∈ S
    · simp [c1]
    · by_cases c2 : flow_to x S i > fadd s.2 eps <;> simp [c1, c2]) _ _ h1 with h2 | h2
  · simp at h2
  · exact h2.2

theorem best_delivery_node_for_S_not_mem (g : Graph) (x : XValues) (S : List Nat)
    (b : best_node) (h : best_delivery_node_for_S g x S = some b) : b.node ∉ S := by
  have h1 := best_result_node _ _ h
  rcases best_fold_spec (fun i => i ∉ S) _ _ (by
    intro s i
    by_cases c1 : i ∈ S
    · simp [c1]
    · by_cases c2 : flow_to x S i > s.2 <;> simp [c1, c2]) _ _ h1 with h2 | h2
  · simp at h2
  · exact h2.2

/-- A pass of the loop that does not `break` pushes onto `S` a node of `1..2n` that is not
in `S`, and removes it from `T`. -/
theorem grow_S_some (g : Graph) (x : XValues) (eps : ℚ) (S T S1 T1 : List Nat)
    (h : grow_S g x eps S T = some (S1, T1)) :
    ∃ v : Nat, S1 = S ++ [v] ∧ T1 = T.filter (fun t => t ≠ v) ∧ v ∉ S ∧ 1 ≤ v ∧ v ≤ 2 * g.n := by
  unfold grow_S choose_for_S at h
  cases hp : best_pickup_node_for_S g x eps S with
  | none =>
    cases hd : best_delivery_node_for_S g x S with
    | none => simp [hp, hd] at h
    | some d =>
      simp only [hp, hd, Option.some.injEq, Prod.mk.injEq] at h
      have r := best_delivery_node_for_S_range g x S d hd
      exact ⟨d.node, h.1.symm, h.2.symm, best_delivery_node_for_S_not_mem g x S d hd,
        by omega, r.2⟩
  | some p =>
    have rp := best_pickup_node_for_S_range g x eps S p hp
    have np := best_pickup_node_for_S_not_mem g x eps S p hp
    cases hd : best_delivery_node_for_S g x S with
    | none =>
      simp only [hp, hd, Option.some.injEq, Prod.mk.injEq] at h
      exact ⟨p.node, h.1.symm, h.2.symm, np, rp.1, by omega⟩
    | some d =>
      have r := best_delivery_node_for_S_range g x S d hd
      simp only [hp, hd] at h
      by_cases hc : p.flow < d.flow ∧ d.flow ≥ 1
      · simp only [if_pos hc, Option.some.injEq, Prod.mk.injEq] at h
        exact ⟨d.node, h.1.symm, h.2.symm, best_delivery_node_for_S_not_mem g x S d hd,
          by omega, r.2⟩
      · simp only [if_neg hc, Option.some.injEq, Prod.mk.injEq] at h
        exact ⟨p.node, h.1.symm, h.2.symm, np, rp.1, by omega⟩

theorem calculate_rhs_some (g : Graph) (S T : List Nat) (hS : S ≠ []) :
    ∃ r : ℚ, calculate_rhs g S T = some r := by
  unfold calculate_rhs denominator
  cases S with
  | nil => exact absurd rfl hS
  | cons a l => simp [max_element]

theorem length_le_of_nodup_range (n : Nat) (S : List Nat) (hnd : S.Nodup)
    (hr : ∀ s ∈ S, 1 ≤ s ∧ s ≤ 2 * n) : S.length ≤ 2 * n := by
  have hsub : S ⊆ List.range' 1 (2 * n) := by
    intro s hs
    rw [List.mem_range']
    have := hr s hs
    exact ⟨s - 1, by omega, by omega⟩
  have := (List.subperm_of_subset hnd hsub).length_le
  simpa using this

/-- With fuel for every node of `1..2n` that is not yet in `S`, and one pass more, the
growth loop returns. -/
theorem growth_loop_some (g : Graph) (x : XValues) (eps : ℚ) (fuel : Nat) :
    ∀ (S T : List Nat) (cuts : List Cut), S.Nodup → (∀ s ∈ S, 1 ≤ s ∧ s ≤ 2 * g.n) →
      S ≠ [] → 2 * g.n + 1 ≤ fuel + S.length →
      ∃ r : List Cut, growth_loop g x eps fuel S T cuts = some r := by
  induction fuel with
  | zero =>
    intro S T cuts hnd hr _ hf
    have := length_le_of_nodup_range g.n S hnd hr
    omega
  | succ fuel ih =>
    intro S T cuts hnd hr hne hf
    unfold growth_loop
    cases hg : grow_S g x eps S T with
    | none => exact ⟨cuts, rfl⟩
    | some st =>
      obtain ⟨S1, T1⟩ := st
      obtain ⟨v, rfl, _, hv, hv1, hv2⟩ := grow_S_some g x eps S T S1 T1 hg
      have hne1 : S ++ [v] ≠ [] := by simp
      obtain ⟨rhs, hrhs⟩ := calculate_rhs_some g (S ++ [v]) (grow_T g x eps (S ++ [v]) T1) hne1
      simp only [hrhs]
      apply ih
      · rw [List.nodup_append]
        refine ⟨hnd, List.nodup_singleton v, ?_⟩
        intro a ha hb
        simp at hb
        subst hb
        exact hv ha
      · intro s hs
        rcases List.mem_append.mp hs with h1 | h1
        · exact hr s h1
        · simp at h1
          subst h1
          exact ⟨hv1, hv2⟩
      · exact hne1
      · simp
        omega

theorem foldlM_some {α σ : Type} (l : List α) (F : σ → α → Option σ)
    (h : ∀ s, ∀ a ∈ l, ∃ r, F s a = some r) (init : σ) :
    ∃ r, l.foldlM F init = some r := by
  induction l generalizing init with
  | nil => exact ⟨init, rfl⟩
  | cons a l ih =>
    obtain ⟨r, hr⟩ := h init a (List.mem_cons_self _ _)
    simp only [List.foldlM_cons, hr]
    exact ih (fun s b hb => h s b (List.mem_cons_of_mem _ hb)) r

/-- The fuel `2n` given to the growth loop is enough on every instance and snapshot:
`separate_valid_cuts` returns a list of cuts. -/
theorem separate_valid_cuts_some (g : Graph) (x : XValues) (eps : ℚ) :
    ∃ cuts : List Cut, separate_valid_cuts g x eps = some cuts := by
  rw [separate_valid_cuts_eq]
  apply foldlM_some
  intro cuts s hs
  obtain ⟨i, j⟩ := s
  have hm := (mem_seed_pairs g.n i j).mp hs
  apply growth_loop_some
  · simp
  · intro s hs
    simp at hs
    subst hs
    omega
  · simp
  · simp

/-! ## The capacity cut on a feasible tour -/

/-- C1 fails on the code. On `graph3b`, which satisfies the data-model invariants, with the
snapshot that is the arc vector of the feasible tour `0, 1, 2, 4, 3, 6, 5, 7`, the first
pass of the growth loop from the seed `S = {2}`, `T = {5}` of a pickup and its own
delivery reaches `S = {2, 1}`, `T = {5, 6}`, where the left hand side is 2 and
`calculate_rhs` returns `2 + 2 - ⌈(3 + 6) / min(8, 4)⌉ = 1`. `separate_valid_cuts` returns
the inequality `x(1,2) + x(1,5) + x(1,6) + x(2,1) + x(2,5) + x(2,6) + x(5,6) + x(6,5) <= 1`
(four times, once from this seed), and the arc vector of that feasible tour violates it:
the tour uses the arcs `(1,2)` and `(6,5)`. -/
theorem separate_valid_cuts_cuts_off_feasible_tour :
    data_model_invariants graph3b ∧
    feasible_tour graph3b tour3b ∧
    ((2, 5) ∈ seed_pairs graph3b.n ∧ 5 = graph3b.n + 2) ∧
    grow_S graph3b (tour_snapshot tour3b) (1 / 1000000) [2] [5] = some ([2, 1], [5]) ∧
    grow_T graph3b (tour_snapshot tour3b) (1 / 1000000) [2, 1] [5] = [5, 6] ∧
    calculate_lhs (tour_snapshot tour3b) [2, 1] [5, 6] = 2 ∧
    calculate_rhs graph3b [2, 1] [5, 6] = some 1 ∧
    growth_loop graph3b (tour_snapshot tour3b) (1 / 1000000) (2 * graph3b.n) [2] [5] [] =
      some [⟨[7, 10, 11, 13, 16, 17, 35, 41], 1⟩] ∧
    separate_valid_cuts graph3b (tour_snapshot tour3b) (1 / 1000000) =
      some [⟨[7, 10, 11, 13, 16, 17, 35, 41], 1⟩, ⟨[7, 10, 11, 13, 16, 17, 35, 41], 1⟩,
        ⟨[7, 10, 11, 13, 16, 17, 35, 41], 1⟩, ⟨[7, 10, 11, 13, 16, 17, 35, 41], 1⟩] ∧
    ([7, 10, 11, 13, 16, 17, 35, 41].map
        (fun k => ((variables_x graph3b params1)[k]?).map NumVar.name) =
      [some (1, 2), some (1, 5), some (1, 6), some (2, 1), some (2, 5), some (2, 6),
       some (5, 6), some (6, 5)]) ∧
    ([7, 10, 11, 13, 16, 17, 35, 41].map (tour_column_value graph3b params1 tour3b)).sum = 2 ∧
    ¬ (Cut.mk [7, 10, 11, 13, 16, 17, 35, 41] 1).holds
        (tour_column_value graph3b params1 tour3b) := by
  decide!

/-- C4 fails on the code. On `graph3`, which satisfies the data-model invariants, with the
snapshot that is the arc vector of the feasible tour `0, 1, 4, 3, 2, 5, 6, 7`, the first
pass of the growth loop from the seed `S = {1}`, `T = {5}` reaches `S = {1, 4}`,
`T = {5, 6}`, where `demand_s = 0`, `demand_u = 6`, the divisor is `min(10, 1) = 1` and
`calculate_rhs` returns `2 + 2 - 6 = -2 < 0`; the left hand side there is 2, so the loop
emits a cut with this right hand side. -/
theorem calculate_rhs_negative_on_reached_pair :
    data_model_invariants graph3 ∧
    feasible_tour graph3 tour3 ∧
    (1, 5) ∈ seed_pairs graph3.n ∧
    grow_S graph3 (tour_snapshot tour3) (1 / 1000000) [1] [5] = some ([1, 4], [5]) ∧
    grow_T graph3 (tour_snapshot tour3) (1 / 1000000) [1, 4] [5] = [5, 6] ∧
    demand_s graph3 [1, 4] = 0 ∧
    demand_u graph3 [1, 4] [5, 6] = 6 ∧
    denominator graph3 [1, 4] = some 1 ∧
    calculate_rhs graph3 [1, 4] [5, 6] = some (-2) ∧
    (-2 : ℚ) < 0 ∧
    calculate_lhs (tour_snapshot tour3) [1, 4] [5, 6] = 2 ∧
    growth_loop graph3 (tour_snapshot tour3) (1 / 1000000) (2 * graph3.n) [1] [5] [] =
      some [⟨[9, 10, 11, 25, 28, 29, 35, 41], -2⟩] := by
  decide!

/-! ## The candidate searches -/

theorem foldl_add_eq_sum (A : List Nat) (f : Nat → ℚ) (init : ℚ) :
    A.foldl (fun acc s => acc + f s) init = init + (A.map f).sum := by
  induction A generalizing init with
  | nil => simp
  | cons a A ih => simp [ih, add_assoc]

theorem best_pickup_node_for_S_eq_scan (g : Graph) (x : XValues) (eps : ℚ) (S : List Nat) :
    best_pickup_node_for_S g x eps S =
      best_result ((List.range' 1 g.n).foldl
        (scan_step (fun i => decide (i ∈ S)) (flow_to x S) (fun f => fadd f eps)) (none, 0)) := by
  unfold best_pickup_node_for_S
  congr 2
  funext best i
  simp only [scan_step, decide_eq_true_eq]

theorem best_delivery_node_for_S_eq_scan (g : Graph) (x : XValues) (S : List Nat) :
    best_delivery_node_for_S g x S =
      best_result ((List.range' (g.n + 1) g.n).foldl
        (scan_step (fun i => decide (i ∈ S)) (flow_to x S) (fun f => f)) (none, 0)) := by
  unfold best_delivery_node_for_S
  congr 2
  funext best i
  simp only [scan_step, decide_eq_true_eq]

theorem best_pickup_node_for_T_eq_scan (g : Graph) (x : XValues) (eps : ℚ) (S T : List Nat) :
    best_pickup_node_for_T g x eps S T =
      best_result ((List.range' 1 g.n).foldl
        (scan_step (fun i => decide (i ∈ S ∨ i ∈ T)) (flow_to x T) (fun f => fadd f eps))
        (none, 0)) := by
  unfold best_pickup_node_for_T
  congr 2
  funext best i
  simp only [scan_step, decide_eq_true_eq]
  by_cases h1 : i ∈ S <;> by_cases h2 : i ∈ T <;> simp [h1, h2]

theorem best_delivery_node_for_T_eq_scan (g : Graph) (x : XValues) (eps : ℚ) (S T : List Nat) :
    best_delivery_node_for_T g x eps S T =
      best_result ((List.range' (g.n + 1) g.n).foldl
        (scan_step (fun i => decide (i ∈ S ∨ i ∈ T)) (flow_to x T) (fun f => fadd f eps))
        (none, 0)) := by
  unfold best_delivery_node_for_T
  congr 2
  funext best i
  simp only [scan_step, decide_eq_true_eq]
  by_cases h1 : i ∈ S <;> by_cases h2 : i ∈ T <;> simp [h1, h2]

theorem best_result_eq_none (r : Option Nat × ℚ) : best_result r = none ↔ r.1 = none := by
  unfold best_result
  cases r.1 <;> simp

theorem scan_some (skip : Nat → Bool) (flow : Nat → ℚ) (thr : ℚ → ℚ) (l : List Nat)
    (init : Option Nat × ℚ) (h : init.1 ≠ none) :
    (l.foldl (scan_step skip flow thr) init).1 ≠ none := by
  induction l generalizing init with
  | nil => exact h
  | cons a l ih =>
    apply ih
    unfold scan_step
    split
    · exact h
    · split
      · simp
      · exact h

/-- A scan ends without a candidate exactly when it started without one and no node that
is not skipped has a flow above the threshold of the initial `best_f`. -/
theorem scan_none_iff (skip : Nat → Bool) (flow : Nat → ℚ) (thr : ℚ → ℚ) (l : List Nat)
    (init : Option Nat × ℚ) :
    (l.foldl (scan_step skip flow thr) init).1 = none ↔
      init.1 = none ∧ ∀ c ∈ l, skip c = false → flow c ≤ thr init.2 := by
  induction l generalizing init with
  | nil => simp
  | cons a l ih =>
    simp only [List.foldl_cons, List.mem_cons, forall_eq_or_imp]
    by_cases hs : skip a = true
    · have e : scan_step skip flow thr init a = init := by simp [scan_step, hs]
      rw [e, ih]
      simp [hs]
    · have hs' : skip a = false := by simpa using hs
      by_cases hf : flow a > thr init.2
      · have e : scan_step skip flow thr init a = (some a, flow a) := by
          simp [scan_step, hs', hf]
        rw [e]
        constructor
        · intro h
          exact absurd h (scan_some skip flow thr l _ (by simp))
        · rintro ⟨_, h2, _⟩
          exact absurd (h2 hs') (not_le.mpr hf)
      · have e : scan_step skip flow thr init a = init := by simp [scan_step, hs', hf]
        rw [e, ih]
        constructor
        · rintro ⟨h1, h2⟩
          exact ⟨h1, fun _ => not_lt.mp hf, h2⟩
        · rintro ⟨h1, _, h2⟩
          exact ⟨h1, h2⟩

/-- A scan without margin over an increasing list: the final `best_f` is at least the
initial one and at least every flow met; either nothing changed, or the result is the
first node of greatest flow, which exceeds the initial `best_f`. -/
theorem scan_max (skip : Nat → Bool) (flow : Nat → ℚ) (l : List Nat)
    (hl : l.Pairwise (fun a b => a < b)) (init : Option Nat × ℚ) :
    (∀ c ∈ l, skip c = false → flow c ≤ (l.foldl (scan_step skip flow (fun f => f)) init).2) ∧
    init.2 ≤ (l.foldl (scan_step skip flow (fun f => f)) init).2 ∧
    (l.foldl (scan_step skip flow (fun f => f)) init = init ∨
      ∃ b ∈ l, skip b = false ∧
        l.foldl (scan_step skip flow (fun f => f)) init = (some b, flow b) ∧
        init.2 < flow b ∧ ∀ c ∈ l, skip c = false → c < b → flow c < flow b) := by
  induction l generalizing init with
  | nil => simp
  | cons a l ih =>
    rw [List.pairwise_cons] at hl
    simp only [List.foldl_cons, List.mem_cons, forall_eq_or_imp]
    by_cases hs : skip a = true
    · have e : scan_step skip flow (fun f => f) init a = init := by simp [scan_step, hs]
      rw [e]
      obtain ⟨h1, h2, h3⟩ := ih hl.2 init
      refine ⟨⟨fun h => absurd hs (by simp [h]), h1⟩, h2, ?_⟩
      rcases h3 with h3 | ⟨b, hb, hsb, hres, hlt, hmin⟩
      · exact Or.inl h3
      · refine Or.inr ⟨b, Or.inr hb, hsb, hres, hlt, ?_, hmin⟩
        intro h
        exact absurd hs (by simp [h])
    · have hs' : skip a = false := by simpa using hs
      by_cases hf : flow a > init.2
      · have e : scan_step skip flow (fun f => f) init a = (some a, flow a) := by
          simp [scan_step, hs', hf]
        rw [e]
        obtain ⟨h1, h2, h3⟩ := ih hl.2 (some a, flow a)
        refine ⟨⟨fun _ => h2, h1⟩, le_trans (le_of_lt hf) h2, Or.inr ?_⟩
        rcases h3 with h3 | ⟨b, hb, hsb, hres, hlt, hmin⟩
        · refine ⟨a, Or.inl rfl, hs', h3, hf, ?_, ?_⟩
          · intro _ h
            exact absurd h (lt_irrefl a)
          · intro c hc _ hca
            exact absurd hca (not_lt.mpr (le_of_lt (hl.1 c hc)))
        · refine ⟨b, Or.inr hb, hsb, hres, lt_trans hf hlt, ?_, hmin⟩
          intro _ _
          exact hlt
      · have e : scan_step skip flow (fun f => f) init a = init := by
          simp [scan_step, hs', hf]
        rw [e]
        obtain ⟨h1, h2, h3⟩ := ih hl.2 init
        refine ⟨⟨fun _ => le_trans (not_lt.mp hf) h2, h1⟩, h2, ?_⟩
        rcases h3 with h3 | ⟨b, hb, hsb, hres, hlt, hmin⟩
        · exact Or.inl h3
        · refine Or.inr ⟨b, Or.inr hb, hsb, hres, hlt, ?_, hmin⟩
          intro _ _
          exact lt_of_le_of_lt (not_lt.mp hf) hlt

theorem pairwise_lt_range' (s m : Nat) : (List.range' s m).Pairwise (fun a b => a < b) := by
  have := List.pairwise_lt_range' s m
  simpa using this

theorem mem_range'_one (s m v : Nat) : v ∈ List.range' s m ↔ s ≤ v ∧ v < s + m := by
  rw [List.mem_range']
  constructor
  · rintro ⟨i, hi, rfl⟩; omega
  · intro h; exact ⟨v - s, by omega, by omega⟩

/-- A scan over an increasing list: either nothing was recorded and no node that is not
skipped has a flow above the threshold of the initial `best_f`, or the result is a node of
the list that is not skipped, with its flow, and no later node that is not skipped has a
flow above the threshold of that flow. -/
theorem scan_last (skip : Nat → Bool) (flow : Nat → ℚ) (thr : ℚ → ℚ) (l : List Nat)
    (hl : l.Pairwise (fun a b => a < b)) (init : Option Nat × ℚ) :
    (l.foldl (scan_step skip flow thr) init = init ∧
      ∀ c ∈ l, skip c = false → flow c ≤ thr init.2) ∨
    ∃ b ∈ l, skip b = false ∧ l.foldl (scan_step skip flow thr) init = (some b, flow b) ∧
      ∀ c ∈ l, skip c = false → b < c → flow c ≤ thr (flow b) := by
  induction l generalizing init with
  | nil => simp
  | cons a l ih =>
    rw [List.pairwise_cons] at hl
    simp only [List.foldl_cons, List.mem_cons, forall_eq_or_imp]
    by_cases hs : skip a = true
    · have e : scan_step skip flow thr init a = init := by simp [scan_step, hs]
      rw [e]
      rcases ih hl.2 init with ⟨h1, h2⟩ | ⟨b, hb, hsb, hres, hlater⟩
      · exact Or.inl ⟨h1, fun h => absurd hs (by simp [h]), h2⟩
      · exact Or.inr ⟨b, Or.inr hb, hsb, hres, fun h => absurd hs (by simp [h]), hlater⟩
    · have hs' : skip a = false := by simpa using hs
      by_cases hf : flow a > thr init.2
      · have e : scan_step skip flow thr init a = (some a, flow a) := by
          simp [scan_step, hs', hf]
        rw [e]
        rcases ih hl.2 (some a, flow a) with ⟨h1, h2⟩ | ⟨b, hb, hsb, hres, hlater⟩
        · refine Or.inr ⟨a, Or.inl rfl, hs', h1, ?_, ?_⟩
          · intro _ h
            exact absurd h (lt_irrefl a)
          · intro c hc hsc _
            exact h2 c hc hsc
        · refine Or.inr ⟨b, Or.inr hb, hsb, hres, ?_, hlater⟩
          intro _ h
          exact absurd h (not_lt.mpr (le_of_lt (hl.1 b hb)))
      · have e : scan_step skip flow thr init a = init := by simp [scan_step, hs', hf]
        rw [e]
        rcases ih hl.2 init with ⟨h1, h2⟩ | ⟨b, hb, hsb, hres, hlater⟩
        · exact Or.inl ⟨h1, fun _ => not_lt.mp hf, h2⟩
        · refine Or.inr ⟨b, Or.inr hb, hsb, hres, ?_, hlater⟩
          intro _ h
          exact absurd h (not_lt.mpr (le_of_lt (hl.1 b hb)))

/-- The result of a search with margin, from the scan it is: absent exactly when no
candidate has a flow above `thr 0`; otherwise a candidate with its flow, after which no
candidate has a flow above the threshold of that flow. -/
theorem scan_result (skip : Nat → Bool) (flow : Nat → ℚ) (thr : ℚ → ℚ) (s m : Nat) :
    (best_result ((List.range' s m).foldl (scan_step skip flow thr) (none, 0)) = none ↔
      ∀ v : Nat, s ≤ v → v < s + m → skip v = false → flow v ≤ thr 0) ∧
    (∀ b : best_node,
      best_result ((List.range' s m).foldl (scan_step skip flow thr) (none, 0)) = some b →
      (s ≤ b.node ∧ b.node < s + m ∧ skip b.node = false) ∧
      b.flow = flow b.node ∧
      ∀ v : Nat, b.node < v → v < s + m → skip v = false → flow v ≤ thr b.flow) := by
  constructor
  · rw [best_result_eq_none, scan_none_iff]
    simp only [true_and, mem_range'_one]
    constructor
    · intro h v h1 h2 h3
      exact h v ⟨h1, h2⟩ h3
    · intro h v hv h3
      exact h v hv.1 hv.2 h3
  · intro b hb
    rcases scan_last skip flow thr (List.range' s m) (pairwise_lt_range' _ _) (none, 0) with
      ⟨h1, _⟩ | ⟨c, hc, hsc, hres, hlater⟩
    · rw [h1] at hb
      simp [best_result] at hb
    · rw [hres] at hb
      simp only [best_result, Option.some.injEq] at hb
      subst hb
      simp only [mem_range'_one] at hc hlater
      dsimp only
      refine ⟨⟨hc.1, hc.2, hsc⟩, rfl, ?_⟩
      intro v hv1 hv2 hv3
      exact hlater v ⟨by omega, hv2⟩ hv3 hv1

theorem flow_to_double (x : XValues) (A : List Nat) (i : Nat) :
    round64 (flow_to x A i) = flow_to x A i := by
  unfold flow_to
  rcases List.eq_nil_or_concat A with h | ⟨L, b, h⟩
  · subst h
    simp [round64]
  · subst h
    rw [List.concat_eq_append, List.foldl_append, List.foldl_cons, List.foldl_nil]
    exact round64_idem _

/-- A scan over an increasing list with a threshold that is monotone and not below its
argument at the flows and at the initial `best_f`: the final `best_f` is at least the
initial one, no flow met exceeds its threshold, and either nothing was recorded or the
result is a node whose flow exceeds the threshold of the initial `best_f` and the flow of
every node met before it. -/
theorem scan_margin (skip : Nat → Bool) (flow : Nat → ℚ) (thr : ℚ → ℚ)
    (hmono : ∀ f f2 : ℚ, f ≤ f2 → thr f ≤ thr f2) (hinf : ∀ c : Nat, flow c ≤ thr (flow c))
    (l : List Nat) (hl : l.Pairwise (fun a b => a < b)) (init : Option Nat × ℚ)
    (hinit : init.2 ≤ thr init.2) :
    init.2 ≤ (l.foldl (scan_step skip flow thr) init).2 ∧
    (∀ c ∈ l, skip c = false → flow c ≤ thr (l.foldl (scan_step skip flow thr) init).2) ∧
    (l.foldl (scan_step skip flow thr) init = init ∨
      ∃ b ∈ l, skip b = false ∧ l.foldl (scan_step skip flow thr) init = (some b, flow b) ∧
        thr init.2 < flow b ∧ ∀ c ∈ l, skip c = false → c < b → flow c < flow b) := by
  induction l generalizing init with
  | nil => simp
  | cons a l ih =>
    rw [List.pairwise_cons] at hl
    simp only [List.foldl_cons, List.mem_cons, forall_eq_or_imp]
    by_cases hs : skip a = true
    · have e : scan_step skip flow thr init a = init := by simp [scan_step, hs]
      rw [e]
      obtain ⟨h1, h2, h3⟩ := ih hl.2 init hinit
      refine ⟨h1, ⟨fun h => absurd hs (by simp [h]), h2⟩, ?_⟩
      rcases h3 with h3 | ⟨b, hb, hsb, hres, hlt, hmin⟩
      · exact Or.inl h3
      · exact Or.inr ⟨b, Or.inr hb, hsb, hres, hlt, fun h => absurd hs (by simp [h]), hmin⟩
    · have hs' : skip a = false := by simpa using hs
      by_cases hf : flow a > thr init.2
      · have e : scan_step skip flow thr init a = (some a, flow a) := by
          simp [scan_step, hs', hf]
        rw [e]
        obtain ⟨h1, h2, h3⟩ := ih hl.2 (some a, flow a) (hinf a)
        have h1' : flow a ≤ (l.foldl (scan_step skip flow thr) (some a, flow a)).2 := h1
        refine ⟨le_trans hinit (le_trans (le_of_lt hf) h1'),
          ⟨fun _ => le_trans (hinf a) (hmono _ _ h1'), h2⟩, Or.inr ?_⟩
        rcases h3 with h3 | ⟨b, hb, hsb, hres, hlt, hmin⟩
        · refine ⟨a, Or.inl rfl, hs', h3, hf, ?_, ?_⟩
          · intro _ h
            exact absurd h (lt_irrefl a)
          · intro c hc _ hca
            exact absurd hca (not_lt.mpr (le_of_lt (hl.1 c hc)))
        · have hlt' : thr (flow a) < flow b := hlt
          refine ⟨b, Or.inr hb, hsb, hres, ?_, ?_, hmin⟩
          · exact lt_of_lt_of_le hf (le_trans (hinf a) (le_of_lt hlt'))
          · intro _ _
            exact lt_of_le_of_lt (hinf a) hlt'
      · have e : scan_step skip flow thr init a = init := by simp [scan_step, hs', hf]
        rw [e]
        obtain ⟨h1, h2, h3⟩ := ih hl.2 init hinit
        refine ⟨h1, ⟨fun _ => le_trans (not_lt.mp hf) (hmono _ _ h1), h2⟩, ?_⟩
        rcases h3 with h3 | ⟨b, hb, hsb, hres, hlt, hmin⟩
        · exact Or.inl h3
        · refine Or.inr ⟨b, Or.inr hb, hsb, hres, hlt, ?_, hmin⟩
          intro _ _
          exact lt_of_le_of_lt (not_lt.mp hf) hlt

/-- The result of a search with the margin `eps >= 0` over flows that are `double` values:
the flow returned exceeds `0 + eps` and the flow of every candidate of lower number, and
no candidate has a flow that exceeds it by more than the margin. -/
theorem scan_margin_result (skip : Nat → Bool) (flow : Nat → ℚ) (eps : ℚ) (s m : Nat)
    (heps : 0 ≤ eps) (hflow : ∀ c : Nat, round64 (flow c) = flow c) (b : best_node)
    (hb : best_result ((List.range' s m).foldl
      (scan_step skip flow (fun f => fadd f eps)) (none, 0)) = some b) :
    fadd 0 eps < b.flow ∧
    (∀ v : Nat, s ≤ v → v < s + m → skip v = false → flow v ≤ fadd b.flow eps) ∧
    (∀ v : Nat, s ≤ v → v < b.node → skip v = false → flow v < b.flow) := by
  have hmono : ∀ f f2 : ℚ, f ≤ f2 → fadd f eps ≤ fadd f2 eps := by
    intro f f2 h
    exact round64_mono _ _ (by linarith)
  have hinit : (0 : ℚ) ≤ fadd 0 eps := round64_nonneg _ (by linarith)
  obtain ⟨_, h2, h3⟩ := scan_margin skip flow (fun f => fadd f eps) hmono
    (fun c => le_fadd_of_nonneg _ _ (hflow c) heps) (List.range' s m)
    (pairwise_lt_range' _ _) (none, 0) hinit
  rcases h3 with h3 | ⟨c, hc, hsc, hres, hlt, hmin⟩
  · rw [h3] at hb
    simp [best_result] at hb
  · rw [hres] at hb h2
    simp only [best_result, Option.some.injEq] at hb
    subst hb
    simp only [mem_range'_one] at hc h2 hmin
    dsimp only at hlt h2 ⊢
    refine ⟨hlt, ?_, ?_⟩
    · intro v hv1 hv2 hv3
      exact h2 v ⟨hv1, hv2⟩ hv3
    · intro v hv1 hv2 hv3
      exact hmin v ⟨hv1, by omega⟩ hv3 hv2

/-- C20, amended. The flow of a node `v` is the value `flow_to` the code computes: the
sum of `x(s,v) + x(v,s)` over `S` (over `T` in the two searches for `T`) in the order of
the vector, each addition rounded to a `double`.
`best_delivery_node_for_S` compares without margin: it returns absent exactly when every
delivery node outside `S` has flow `<= 0`, and otherwise it returns a delivery node outside
`S` with its flow, that flow is the greatest flow of the delivery nodes outside `S`, and
every other such node of the same flow has a higher number.
Its three siblings compare `flow > best_f + eps`, the sum rounded to a `double`: each is
the scan of its candidates in increasing order (for `S`: the pickups outside `S`; for `T`:
the pickups, or the deliveries, outside `S` and `T`) that starts from no node and
`best_f = 0` and replaces the recorded node and `best_f` at every candidate whose flow is
greater than `best_f + eps`. Each returns absent exactly when every candidate has flow
`<= 0 + eps`, and otherwise a candidate with its flow, after which no candidate has a flow
greater than that flow `+ eps`; when `eps >= 0` the flow returned is greater than
`0 + eps` and than the flow of every candidate of lower number, and no candidate at all has
a flow greater than the flow returned `+ eps`. -/
theorem best_node_searches (g : Graph) (x : XValues) (eps : ℚ) (S T : List Nat) :
    ((best_delivery_node_for_S g x S = none ↔
        ∀ v : Nat, g.n + 1 ≤ v → v ≤ 2 * g.n → v ∉ S → flow_to x S v ≤ 0) ∧
      (∀ b : best_node, best_delivery_node_for_S g x S = some b →
        (g.n + 1 ≤ b.node ∧ b.node ≤ 2 * g.n ∧ b.node ∉ S) ∧
        b.flow = flow_to x S b.node ∧
        (∀ v : Nat, g.n + 1 ≤ v → v ≤ 2 * g.n → v ∉ S → flow_to x S v ≤ b.flow) ∧
        (∀ v : Nat, g.n + 1 ≤ v → v ≤ 2 * g.n → v ∉ S → flow_to x S v = b.flow →
          b.node ≤ v))) ∧
    (best_pickup_node_for_S g x eps S =
        best_result ((List.range' 1 g.n).foldl
          (scan_step (fun i => decide (i ∈ S)) (flow_to x S) (fun f => fadd f eps))
          (none, 0)) ∧
      (best_pickup_node_for_S g x eps S = none ↔
        ∀ v : Nat, 1 ≤ v → v ≤ g.n → v ∉ S → flow_to x S v ≤ fadd 0 eps) ∧
      (∀ b : best_node, best_pickup_node_for_S g x eps S = some b →
        (1 ≤ b.node ∧ b.node ≤ g.n ∧ b.node ∉ S) ∧
        b.flow = flow_to x S b.node ∧
        (∀ v : Nat, b.node < v → v ≤ g.n → v ∉ S → flow_to x S v ≤ fadd b.flow eps) ∧
        (0 ≤ eps →
          fadd 0 eps < b.flow ∧
          (∀ v : Nat, 1 ≤ v → v ≤ g.n → v ∉ S → flow_to x S v ≤ fadd b.flow eps) ∧
          (∀ v : Nat, 1 ≤ v → v < b.node → v ∉ S → flow_to x S v < b.flow)))) ∧
    (best_pickup_node_for_T g x eps S T =
        best_result ((List.range' 1 g.n).foldl
          (scan_step (fun i => decide (i ∈ S ∨ i ∈ T)) (flow_to x T) (fun f => fadd f eps))
          (none, 0)) ∧
      (best_pickup_node_for_T g x eps S T = none ↔
        ∀ v : Nat, 1 ≤ v → v ≤ g.n → v ∉ S → v ∉ T → flow_to x T v ≤ fadd 0 eps) ∧
      (∀ b : best_node, best_pickup_node_for_T g x eps S T = some b →
        (1 ≤ b.node ∧ b.node ≤ g.n ∧ b.node ∉ S ∧ b.node ∉ T) ∧
        b.flow = flow_to x T b.node ∧
        (∀ v : Nat, b.node < v → v ≤ g.n → v ∉ S → v ∉ T →
          flow_to x T v ≤ fadd b.flow eps) ∧
        (0 ≤ eps →
          fadd 0 eps < b.flow ∧
          (∀ v : Nat, 1 ≤ v → v ≤ g.n → v ∉ S → v ∉ T →
            flow_to x T v ≤ fadd b.flow eps) ∧
          (∀ v : Nat, 1 ≤ v → v < b.node → v ∉ S → v ∉ T → flow_to x T v < b.flow)))) ∧
    (best_delivery_node_for_T g x eps S T =
        best_result ((List.range' (g.n + 1) g.n).foldl
          (scan_step (fun i => decide (i ∈ S ∨ i ∈ T)) (flow_to x T) (fun f => fadd f eps))
          (none, 0)) ∧
      (best_delivery_node_for_T g x eps S T = none ↔
        ∀ v : Nat, g.n + 1 ≤ v → v ≤ 2 * g.n → v ∉ S → v ∉ T →
          flow_to x T v ≤ fadd 0 eps) ∧
      (∀ b : best_node, best_delivery_node_for_T g x eps S T = some b →
        (g.n + 1 ≤ b.node ∧ b.node ≤ 2 * g.n ∧ b.node ∉ S ∧ b.node ∉ T) ∧
        b.flow = flow_to x T b.node ∧
        (∀ v : Nat, b.node < v → v ≤ 2 * g.n → v ∉ S → v ∉ T →
          flow_to x T v ≤ fadd b.flow eps) ∧
        (0 ≤ eps →
          fadd 0 eps < b.flow ∧
          (∀ v : Nat, g.n + 1 ≤ v → v ≤ 2 * g.n → v ∉ S → v ∉ T →
            flow_to x T v ≤ fadd b.flow eps) ∧
          (∀ v : Nat, g.n + 1 ≤ v → v < b.node → v ∉ S → v ∉ T →
            flow_to x T v < b.flow)))) := by
  refine ⟨⟨?_, ?_⟩, ⟨best_pickup_node_for_S_eq_scan g x eps S, ?_, ?_⟩,
    ⟨best_pickup_node_for_T_eq_scan g x eps S T, ?_, ?_⟩,
    ⟨best_delivery_node_for_T_eq_scan g x eps S T, ?_, ?_⟩⟩
  · rw [best_delivery_node_for_S_eq_scan, best_result_eq_none, scan_none_iff]
    simp only [true_and, mem_range'_one, decide_eq_false_iff_not]
    constructor
    · intro h v h1 h2 h3
      exact h v ⟨h1, by omega⟩ h3
    · intro h v hv h3
      exact h v hv.1 (by omega) h3
  · intro b hb
    rw [best_delivery_node_for_S_eq_scan] at hb
    obtain ⟨h1, _, h3⟩ := scan_max (fun i => decide (i ∈ S)) (flow_to x S)
      (List.range' (g.n + 1) g.n) (pairwise_lt_range' _ _) (none, 0)
    rcases h3 with h3 | ⟨c, hc, hsc, hres, _, hmin⟩
    · rw [h3] at hb
      simp [best_result] at hb
    · rw [hres] at hb h1
      simp only [best_result, Option.some.injEq] at hb
      subst hb
      simp only [mem_range'_one, decide_eq_false_iff_not] at hc hsc h1 hmin
      dsimp only
      refine ⟨⟨hc.1, by omega, hsc⟩, rfl, ?_, ?_⟩
      · intro v hv1 hv2 hv3
        exact h1 v ⟨hv1, by omega⟩ hv3
      · intro v hv1 hv2 hv3 hv4
        by_contra hlt
        have := hmin v ⟨hv1, by omega⟩ hv3 (by omega)
        rw [hv4] at this
        exact lt_irrefl _ this
  · rw [best_pickup_node_for_S_eq_scan]
    refine ((scan_result _ _ _ _ _).1).trans ?_
    simp only [decide_eq_false_iff_not]
    constructor
    · intro h v h1 h2 h3
      exact h v h1 (by omega) h3
    · intro h v h1 h2 h3
      exact h v h1 (by omega) h3
  · intro b hb
    rw [best_pickup_node_for_S_eq_scan] at hb
    obtain ⟨⟨h1, h2, h3⟩, h4, h5⟩ := (scan_result _ _ _ _ _).2 b hb
    simp only [decide_eq_false_iff_not] at h3 h5
    refine ⟨⟨h1, by omega, h3⟩, h4, ?_, ?_⟩
    · intro v hv1 hv2 hv3
      exact h5 v hv1 (by omega) hv3
    · intro heps
      obtain ⟨m1, m2, m3⟩ := scan_margin_result _ _ eps 1 g.n heps (flow_to_double x S) b hb
      simp only [decide_eq_false_iff_not] at m2 m3
      refine ⟨m1, ?_, ?_⟩
      · intro v hv1 hv2 hv3
        exact m2 v hv1 (by omega) hv3
      · intro v hv1 hv2 hv3
        exact m3 v hv1 hv2 hv3
  · rw [best_pickup_node_for_T_eq_scan]
    refine ((scan_result _ _ _ _ _).1).trans ?_
    simp only [decide_eq_false_iff_not, not_or]
    constructor
    · intro h v h1 h2 h3 h4
      exact h v h1 (by omega) ⟨h3, h4⟩
    · intro h v h1 h2 h3
      exact h v h1 (by omega) h3.1 h3.2
  · intro b hb
    rw [best_pickup_node_for_T_eq_scan] at hb
    obtain ⟨⟨h1, h2, h3⟩, h4, h5⟩ := (scan_result _ _ _ _ _).2 b hb
    simp only [decide_eq_false_iff_not, not_or] at h3 h5
    refine ⟨⟨h1, by omega, h3.1, h3.2⟩, h4, ?_, ?_⟩
    · intro v hv1 hv2 hv3 hv4
      exact h5 v hv1 (by omega) ⟨hv3, hv4⟩
    · intro heps
      obtain ⟨m1, m2, m3⟩ := scan_margin_result _ _ eps 1 g.n heps (flow_to_double x T) b hb
      simp only [decide_eq_false_iff_not, not_or] at m2 m3
      refine ⟨m1, ?_, ?_⟩
      · intro v hv1 hv2 hv3 hv4
        exact m2 v hv1 (by omega) ⟨hv3, hv4⟩
      · intro v hv1 hv2 hv3 hv4
        exact m3 v hv1 hv2 ⟨hv3, hv4⟩
  · rw [best_delivery_node_for_T_eq_scan]
    refine ((scan_result _ _ _ _ _).1).trans ?_
    simp only [decide_eq_false_iff_not, not_or]
    constructor
    · intro h v h1 h2 h3 h4
      exact h v h1 (by omega) ⟨h3, h4⟩
    · intro h v h1 h2 h3
      exact h v h1 (by omega) h3.1 h3.2
  · intro b hb
    rw [best_delivery_node_for_T_eq_scan] at hb
    obtain ⟨⟨h1, h2, h3⟩, h4, h5⟩ := (scan_result _ _ _ _ _).2 b hb
    simp only [decide_eq_false_iff_not, not_or] at h3 h5
    refine ⟨⟨h1, by omega, h3.1, h3.2⟩, h4, ?_, ?_⟩
    · intro v hv1 hv2 hv3 hv4
      exact h5 v hv1 (by omega) ⟨hv3, hv4⟩
    · intro heps
      obtain ⟨m1, m2, m3⟩ := scan_margin_result _ _ eps (g.n + 1) g.n heps
        (flow_to_double x T) b hb
      simp only [decide_eq_false_iff_not, not_or] at m2 m3
      refine ⟨m1, ?_, ?_⟩
      · intro v hv1 hv2 hv3 hv4
        exact m2 v hv1 (by omega) ⟨hv3, hv4⟩
      · intro v hv1 hv2 hv3 hv4
        exact m3 v hv1 hv2 ⟨hv3, hv4⟩

/-- C20, counterexample. With `S = {1}` on `graph2u` and the snapshot `x(1,3) = 0.1`,
`x(3,1) = 0.2`, `x(1,4) = 0.30000000000000004` of `double` values in `[0, 1]`,
`best_delivery_node_for_S` returns the delivery node 3 with the flow
`0.30000000000000004`, the rounded sum `0.1 + 0.2`. The exact flow
`Σ_{s ∈ S} (x(s,3) + x(3,s))` of node 3 is smaller than that of the delivery node 4, so the
node returned does not attain the maximum of the exact flows, and the flow returned is not
its exact flow. -/
theorem best_delivery_node_not_exact_maximum_counterexample :
    (∀ a ∈ List.range 6, ∀ b ∈ List.range 6,
      0 ≤ snapshot_flow a b ∧ snapshot_flow a b ≤ 1 ∧
      round64 (snapshot_flow a b) = snapshot_flow a b) ∧
    best_delivery_node_for_S graph2u snapshot_flow [1] =
      some ⟨3, 1351079888211149 / 4503599627370496⟩ ∧
    (graph2u.n + 1 ≤ 4 ∧ 4 ≤ 2 * graph2u.n ∧ 4 ∉ [1]) ∧
    flow_sum snapshot_flow [1] 3 = 10808639105689191 / 36028797018963968 ∧
    flow_sum snapshot_flow [1] 4 = 1351079888211149 / 4503599627370496 ∧
    flow_sum snapshot_flow [1] 3 < flow_sum snapshot_flow [1] 4 ∧
    flow_sum snapshot_flow [1] 3 ≠ 1351079888211149 / 4503599627370496 := by
  decide!

/-! ## The growth loop and its states -/

theorem scan_spec (skip : Nat → Bool) (flow : Nat → ℚ) (thr : ℚ → ℚ)
    (l : List Nat) (b : Nat)
    (h : (l.foldl (scan_step skip flow thr) (none, 0)).1 = some b) :
    b ∈ l ∧ skip b = false := by
  rcases best_fold_spec (fun i => skip i = false) l (scan_step skip flow thr) (by
    intro s i
    unfold scan_step
    by_cases c1 : skip i = true
    · simp [c1]
    · by_cases c2 : flow i > thr s.2 <;> simp [c1, c2]) (none, 0) b h with h2 | h2
  · simp at h2
  · exact h2

theorem best_pickup_node_for_T_not_mem (g : Graph) (x : XValues) (eps : ℚ) (S T : List Nat)
    (b : best_node) (h : best_pickup_node_for_T g x eps S T = some b) :
    b.node ∉ S ∧ b.node ∉ T := by
  rw [best_pickup_node_for_T_eq_scan] at h
  have := (scan_spec _ _ _ _ _ (best_result_node _ _ h)).2
  simpa using this

theorem best_delivery_node_for_T_not_mem (g : Graph) (x : XValues) (eps : ℚ) (S T : List Nat)
    (b : best_node) (h : best_delivery_node_for_T g x eps S T = some b) :
    b.node ∉ S ∧ b.node ∉ T := by
  rw [best_delivery_node_for_T_eq_scan] at h
  have := (scan_spec _ _ _ _ _ (best_result_node _ _ h)).2
  simpa using this

/-- The growth of `T` leaves `T` as it is or pushes onto it a node of `1..2n` that is
neither in `S` nor in `T`. -/
theorem grow_T_cases (g : Graph) (x : XValues) (eps : ℚ) (S T : List Nat) :
    grow_T g x eps S T = T ∨
      ∃ v : Nat, grow_T g x eps S T = T ++ [v] ∧ v ∉ S ∧ v ∉ T ∧ 1 ≤ v ∧ v ≤ 2 * g.n := by
  unfold grow_T choose_for_T
  cases hp : best_pickup_node_for_T g x eps S T with
  | none =>
    cases hd : best_delivery_node_for_T g x eps S T with
    | none => exact Or.inl rfl
    | some d =>
      have r := best_delivery_node_for_T_range g x eps S T d hd
      have m := best_delivery_node_for_T_not_mem g x eps S T d hd
      exact Or.inr ⟨d.node, rfl, m.1, m.2, by omega, r.2⟩
  | some p =>
    have rp := best_pickup_node_for_T_range g x eps S T p hp
    have mp := best_pickup_node_for_T_not_mem g x eps S T p hp
    cases hd : best_delivery_node_for_T g x eps S T with
    | none => exact Or.inr ⟨p.node, rfl, mp.1, mp.2, rp.1, by omega⟩
    | some d =>
      have r := best_delivery_node_for_T_range g x eps S T d hd
      have m := best_delivery_node_for_T_not_mem g x eps S T d hd
      by_cases hc : d.flow < p.flow ∧ p.flow ≥ 1
      · simp only [if_pos hc]
        exact Or.inr ⟨p.node, rfl, mp.1, mp.2, rp.1, by omega⟩
      · simp only [if_neg hc]
        exact Or.inr ⟨d.node, rfl, m.1, m.2, by omega, r.2⟩

theorem growth_invariant_seed (g : Graph) (i j : Nat) (h : (i, j) ∈ seed_pairs g.n) :
    growth_invariant g [i] [j] := by
  have hm := (mem_seed_pairs g.n i j).mp h
  refine ⟨by simp, by simp, ?_, ?_, ?_⟩
  · intro v hv
    simp at hv ⊢
    omega
  · intro v hv
    simp at hv
    omega
  · intro v hv
    simp at hv
    omega

theorem growth_invariant_grow_S (g : Graph) (x : XValues) (eps : ℚ) (S T S1 T1 : List Nat)
    (hinv : growth_invariant g S T) (h : grow_S g x eps S T = some (S1, T1)) :
    growth_invariant g S1 T1 := by
  obtain ⟨v, rfl, rfl, hv, hv1, hv2⟩ := grow_S_some g x eps S T S1 T1 h
  obtain ⟨h1, h2, h3, h4, h5⟩ := hinv
  refine ⟨?_, h2.filter _, ?_, ?_, ?_⟩
  · rw [List.nodup_append]
    refine ⟨h1, List.nodup_singleton v, ?_⟩
    intro a ha hb
    simp at hb
    subst hb
    exact hv ha
  · intro a ha hT
    rw [List.mem_filter] at hT
    rcases List.mem_append.mp ha with ha | ha
    · exact h3 a ha hT.1
    · simp at ha
      subst ha
      simp at hT
  · intro a ha
    rcases List.mem_append.mp ha with ha | ha
    · exact h4 a ha
    · simp at ha
      subst ha
      exact ⟨hv1, hv2⟩
  · intro a ha
    exact h5 a (List.mem_filter.mp ha).1

theorem growth_invariant_grow_T (g : Graph) (x : XValues) (eps : ℚ) (S T : List Nat)
    (hinv : growth_invariant g S T) : growth_invariant g S (grow_T g x eps S T) := by
  rcases grow_T_cases g x eps S T with h | ⟨v, h, hvS, hvT, hv1, hv2⟩
  · rw [h]; exact hinv
  · rw [h]
    obtain ⟨h1, h2, h3, h4, h5⟩ := hinv
    refine ⟨h1, ?_, ?_, h4, ?_⟩
    · rw [List.nodup_append]
      refine ⟨h2, List.nodup_singleton v, ?_⟩
      intro a ha hb
      simp at hb
      subst hb
      exact hvT ha
    · intro a ha hT
      rcases List.mem_append.mp hT with hT | hT
      · exact h3 a ha hT
      · simp at hT
        subst hT
        exact hvS ha
    · intro a ha
      rcases List.mem_append.mp ha with ha | ha
      · exact h5 a ha
      · simp at ha
        subst ha
        exact ⟨hv1, hv2⟩

theorem growth_trace_invariant (g : Graph) (x : XValues) (eps : ℚ) (fuel : Nat) :
    ∀ S T : List Nat, growth_invariant g S T →
      ∀ st ∈ growth_trace g x eps fuel S T, growth_invariant g st.1 st.2 := by
  induction fuel with
  | zero => intro S T _ st hst; simp [growth_trace] at hst
  | succ fuel ih =>
    intro S T hinv st hst
    unfold growth_trace at hst
    cases hg : grow_S g x eps S T with
    | none => simp [hg] at hst
    | some p =>
      obtain ⟨S1, T1⟩ := p
      simp only [hg, List.mem_cons] at hst
      have h1 := growth_invariant_grow_T g x eps S1 T1
        (growth_invariant_grow_S g x eps S T S1 T1 hinv hg)
      rcases hst with rfl | hst
      · exact h1
      · exact ih S1 _ h1 st hst

/-- The cuts the growth loop returns are the cuts it was given followed by the cuts
emitted at the states of its trace. -/
theorem growth_loop_eq_trace (g : Graph) (x : XValues) (eps : ℚ) (fuel : Nat) :
    ∀ (S T : List Nat) (cuts r : List Cut), growth_loop g x eps fuel S T cuts = some r →
      r = cuts ++ (growth_trace g x eps fuel S T).filterMap (emit_cut g x eps) := by
  induction fuel with
  | zero => intro S T cuts r h; simp [growth_loop] at h
  | succ fuel ih =>
    intro S T cuts r h
    unfold growth_loop at h
    unfold growth_trace
    cases hg : grow_S g x eps S T with
    | none =>
      simp only [hg, Option.some.injEq] at h
      simp [h]
    | some p =>
      obtain ⟨S1, T1⟩ := p
      simp only [hg] at h ⊢
      cases hr : calculate_rhs g S1 (grow_T g x eps S1 T1) with
      | none => simp [hr] at h
      | some rhs =>
        simp only [hr] at h
        have := ih _ _ _ _ h
        rw [this]
        by_cases hc : calculate_lhs x S1 (grow_T g x eps S1 T1) > fadd rhs eps
        · simp [List.filterMap_cons, emit_cut, hr, hc]
        · simp [List.filterMap_cons, emit_cut, hr, hc]

theorem growth_trace_length (g : Graph) (x : XValues) (eps : ℚ) (fuel : Nat) :
    ∀ S T : List Nat, S.Nodup → (∀ s ∈ S, 1 ≤ s ∧ s ≤ 2 * g.n) →
      (growth_trace g x eps fuel S T).length + S.length ≤ 2 * g.n := by
  induction fuel with
  | zero =>
    intro S T hnd hr
    simp only [growth_trace, List.length_nil, zero_add]
    exact length_le_of_nodup_range g.n S hnd hr
  | succ fuel ih =>
    intro S T hnd hr
    unfold growth_trace
    cases hg : grow_S g x eps S T with
    | none =>
      simp only [List.length_nil, zero_add]
      exact length_le_of_nodup_range g.n S hnd hr
    | some p =>
      obtain ⟨S1, T1⟩ := p
      obtain ⟨v, rfl, _, hv, hv1, hv2⟩ := grow_S_some g x eps S T S1 T1 hg
      have := ih (S ++ [v]) (grow_T g x eps (S ++ [v]) T1) (by
        rw [List.nodup_append]
        refine ⟨hnd, List.nodup_singleton v, ?_⟩
        intro a ha hb
        simp at hb
        subst hb
        exact hv ha) (by
        intro s hs
        rcases List.mem_append.mp hs with h1 | h1
        · exact hr s h1
        · simp at h1
          subst h1
          exact ⟨hv1, hv2⟩)
      simp only [List.length_cons, List.length_append, List.length_singleton] at this ⊢
      omega

theorem growth_loop_fuel_succ (g : Graph) (x : XValues) (eps : ℚ) (fuel : Nat) :
    ∀ (S T : List Nat) (cuts r : List Cut), growth_loop g x eps fuel S T cuts = some r →
      growth_loop g x eps (fuel + 1) S T cuts = some r := by
  induction fuel with
  | zero => intro S T cuts r h; simp [growth_loop] at h
  | succ fuel ih =>
    intro S T cuts r h
    unfold growth_loop at h ⊢
    cases hg : grow_S g x eps S T with
    | none => simpa [hg] using h
    | some p =>
      obtain ⟨S1, T1⟩ := p
      simp only [hg] at h ⊢
      cases hr : calculate_rhs g S1 (grow_T g x eps S1 T1) with
      | none => simp [hr] at h
      | some rhs =>
        simp only [hr] at h ⊢
        exact ih _ _ _ _ h

theorem growth_loop_fuel_le (g : Graph) (x : XValues) (eps : ℚ) (fuel fuel' : Nat)
    (hle : fuel ≤ fuel') (S T : List Nat) (cuts r : List Cut)
    (h : growth_loop g x eps fuel S T cuts = some r) :
    growth_loop g x eps fuel' S T cuts = some r := by
  induction fuel' with
  | zero =>
    have : fuel = 0 := by omega
    subst this
    exact h
  | succ k ih =>
    by_cases hk : fuel ≤ k
    · exact growth_loop_fuel_succ g x eps k S T cuts r (ih hk)
    · have : fuel = k + 1 := by omega
      subst this
      exact h

theorem grow_S_none_iff (g : Graph) (x : XValues) (eps : ℚ) (S T : List Nat) :
    grow_S g x eps S T = none ↔
      best_pickup_node_for_S g x eps S = none ∧ best_delivery_node_for_S g x S = none := by
  unfold grow_S choose_for_S
  cases best_pickup_node_for_S g x eps S with
  | none =>
    cases best_delivery_node_for_S g x S with
    | none => simp
    | some d => simp
  | some p =>
    cases best_delivery_node_for_S g x S with
    | none => simp
    | some d =>
      by_cases hc : p.flow < d.flow ∧ d.flow ≥ 1
      · simp [hc]
      · simp [hc]

/-- C11. The invariant of the growth loop of `separate_valid_cuts`: `S` and `T` are
duplicate-free, disjoint and contained in `{1..2n}`. It holds for every seed; the growth
of `S` preserves it (the node pushed onto `S` is removed from `T`); the growth of `T`
preserves it; so it holds at every pair `(S, T)` at which the loop evaluates
`calculate_lhs` and `calculate_rhs`, and the cuts the loop returns from a seed are those
emitted at these pairs. -/
theorem growth_invariant_holds (g : Graph) (x : XValues) (eps : ℚ) :
    (∀ i j : Nat, (i, j) ∈ seed_pairs g.n → growth_invariant g [i] [j]) ∧
    (∀ S T S1 T1 : List Nat, growth_invariant g S T → grow_S g x eps S T = some (S1, T1) →
      growth_invariant g S1 T1 ∧
      ∃ v : Nat, S1 = S ++ [v] ∧ T1 = T.filter (fun t => t ≠ v) ∧ v ∉ T1) ∧
    (∀ S T : List Nat, growth_invariant g S T → growth_invariant g S (grow_T g x eps S T)) ∧
    (∀ i j fuel : Nat, (i, j) ∈ seed_pairs g.n →
      ∀ st ∈ growth_trace g x eps fuel [i] [j], growth_invariant g st.1 st.2) ∧
    (∀ (i j : Nat) (cuts r : List Cut),
      growth_loop g x eps (2 * g.n) [i] [j] cuts = some r →
      r = cuts ++ (growth_trace g x eps (2 * g.n) [i] [j]).filterMap (emit_cut g x eps)) := by
  refine ⟨growth_invariant_seed g, ?_, growth_invariant_grow_T g x eps, ?_, ?_⟩
  · intro S T S1 T1 hinv h
    refine ⟨growth_invariant_grow_S g x eps S T S1 T1 hinv h, ?_⟩
    obtain ⟨v, h1, h2, _⟩ := grow_S_some g x eps S T S1 T1 h
    refine ⟨v, h1, h2, ?_⟩
    rw [h2]
    simp [List.mem_filter]
  · intro i j fuel h
    exact growth_trace_invariant g x eps fuel [i] [j] (growth_invariant_seed g i j h)
  · intro i j cuts r h
    exact growth_loop_eq_trace g x eps (2 * g.n) [i] [j] cuts r h

/-- The theorem for C11 on `graph3` with the snapshot of `tour3`: the seed `(1, 5)` and the
first pair evaluated from it, `S = {1, 4}`, `T = {5, 6}`. -/
theorem growth_invariant_holds_witness :
    (1, 5) ∈ seed_pairs graph3.n ∧
    ([1, 4], [5, 6]) ∈ growth_trace graph3 (tour_snapshot tour3) (1 / 1000000) 6 [1] [5] ∧
    growth_invariant graph3 [1, 4] [5, 6] :=
  ⟨by decide, by decide!,
    (growth_invariant_holds graph3 (tour_snapshot tour3) (1 / 1000000)).2.2.2.1 1 5 6
      (by decide) ([1, 4], [5, 6]) (by decide!)⟩

/-- C17. The growth loop of `separate_valid_cuts` stops: a pass ends the loop exactly when
there is neither a best pickup nor a best delivery for `S`; a pass that does not end it
pushes onto `S` a node of `{1..2n}` that is not in `S`; so from a seed at most `2n - 1`
passes do not end the loop, whatever the number of passes allowed; with `2n` passes
allowed, or more, the loop returns, and always the same cuts; and `separate_valid_cuts`
returns a list of cuts. -/
theorem growth_loop_terminates (g : Graph) (x : XValues) (eps : ℚ) :
    (∀ S T : List Nat, grow_S g x eps S T = none ↔
      best_pickup_node_for_S g x eps S = none ∧ best_delivery_node_for_S g x S = none) ∧
    (∀ S T S1 T1 : List Nat, grow_S g x eps S T = some (S1, T1) →
      ∃ v : Nat, S1 = S ++ [v] ∧ v ∉ S ∧ 1 ≤ v ∧ v ≤ 2 * g.n) ∧
    (∀ i j fuel : Nat, (i, j) ∈ seed_pairs g.n →
      (growth_trace g x eps fuel [i] [j]).length ≤ 2 * g.n - 1) ∧
    (∀ (i j : Nat) (cuts : List Cut), (i, j) ∈ seed_pairs g.n →
      ∃ r : List Cut, growth_loop g x eps (2 * g.n) [i] [j] cuts = some r ∧
        ∀ fuel : Nat, 2 * g.n ≤ fuel → growth_loop g x eps fuel [i] [j] cuts = some r) ∧
    (∃ cuts : List Cut, separate_valid_cuts g x eps = some cuts) := by
  refine ⟨grow_S_none_iff g x eps, ?_, ?_, ?_, separate_valid_cuts_some g x eps⟩
  · intro S T S1 T1 h
    obtain ⟨v, h1, _, h3, h4, h5⟩ := grow_S_some g x eps S T S1 T1 h
    exact ⟨v, h1, h3, h4, h5⟩
  · intro i j fuel h
    have hm := (mem_seed_pairs g.n i j).mp h
    have := growth_trace_length g x eps fuel [i] [j] (by simp) (by
      intro s hs
      simp at hs
      subst hs
      omega)
    simp only [List.length_singleton] at this
    omega
  · intro i j cuts h
    have hm := (mem_seed_pairs g.n i j).mp h
    obtain ⟨r, hr⟩ := growth_loop_some g x eps (2 * g.n) [i] [j] cuts (by simp) (by
      intro s hs
      simp at hs
      subst hs
      omega) (by simp) (by simp)
    exact ⟨r, hr, fun fuel hf => growth_loop_fuel_le g x eps _ fuel hf _ _ _ _ hr⟩

/-- The theorem for C17 on `graph3` with the snapshot of `tour3`, from the seed `(1, 5)`. -/
theorem growth_loop_terminates_witness :
    (1, 5) ∈ seed_pairs graph3.n ∧
    (growth_trace graph3 (tour_snapshot tour3) (1 / 1000000) 100 [1] [5]).length ≤
      2 * graph3.n - 1 :=
  ⟨by decide,
    (growth_loop_terminates graph3 (tour_snapshot tour3) (1 / 1000000)).2.2.1 1 5 100
      (by decide)⟩

/-! ## The divisor of `calculate_rhs` -/

theorem max_element_fold (d : Nat → Int) (l : List Nat) (a : Nat) :
    l.foldl (fun largest c => if decide (d largest < d c) = true then c else largest) a ∈ a :: l ∧
    ∀ s ∈ a :: l,
      d s ≤ d (l.foldl (fun largest c => if decide (d largest < d c) = true then c else largest) a) := by
  induction l generalizing a with
  | nil => simp
  | cons c l ih =>
    simp only [List.foldl_cons]
    obtain ⟨h1, h2⟩ := ih (if decide (d a < d c) = true then c else a)
    by_cases hc : d a < d c
    · simp only [hc, decide_True, if_true] at h1 h2 ⊢
      refine ⟨List.mem_cons_of_mem _ h1, ?_⟩
      intro s hs
      rcases List.mem_cons.mp hs with rfl | hs
      · exact le_trans (le_of_lt hc) (h2 c (List.mem_cons_self _ _))
      · exact h2 s hs
    · simp only [hc, decide_False, Bool.false_eq_true, if_false] at h1 h2 ⊢
      constructor
      · rcases List.mem_cons.mp h1 with h1 | h1
        · rw [h1]; exact List.mem_cons_self _ _
        · exact List.mem_cons_of_mem _ (List.mem_cons_of_mem _ h1)
      · intro s hs
        rcases List.mem_cons.mp hs with rfl | hs
        · exact h2 s (List.mem_cons_self _ _)
        · rcases List.mem_cons.mp hs with rfl | hs
          · exact le_trans (not_lt.mp hc) (h2 a (List.mem_cons_self _ _))
          · exact h2 s (List.mem_cons_of_mem _ hs)

/-- On a non-empty `S`, `std::max_element` by draught returns a node of `S` of greatest
draught. -/
theorem max_element_draught (g : Graph) (S : List Nat) (hS : S ≠ []) :
    ∃ m : Nat, max_element (fun n1 n2 => decide (g.draught n1 < g.draught n2)) S = some m ∧
      m ∈ S ∧ ∀ s ∈ S, g.draught s ≤ g.draught m := by
  cases S with
  | nil => exact absurd rfl hS
  | cons a l =>
    obtain ⟨h1, h2⟩ := max_element_fold g.draught l a
    exact ⟨_, rfl, h1, h2⟩

theorem growth_trace_mem (g : Graph) (x : XValues) (eps : ℚ) (fuel : Nat) :
    ∀ S T : List Nat, ∀ st ∈ growth_trace g x eps fuel S T, ∀ s ∈ S, s ∈ st.1 := by
  induction fuel with
  | zero => intro S T st hst; simp [growth_trace] at hst
  | succ fuel ih =>
    intro S T st hst s hs
    unfold growth_trace at hst
    cases hg : grow_S g x eps S T with
    | none => simp [hg] at hst
    | some p =>
      obtain ⟨S1, T1⟩ := p
      obtain ⟨v, rfl, _⟩ := grow_S_some g x eps S T S1 T1 hg
      simp only [hg, List.mem_cons] at hst
      have hs' : s ∈ S ++ [v] := List.mem_append_left _ hs
      rcases hst with rfl | hst
      · exact hs'
      · exact ih _ _ st hst s hs'

/-- C19. On an instance with `0 < q(i) <= Q` for every pickup and `d(i) >= max(0, q(i))`
for every node, at every pair `(S, T)` at which the growth loop from a seed `(i, j)`
evaluates `calculate_rhs`: `S` is not empty and contains the seed pickup `i`,
`std::max_element` finds in `S` a node of greatest draught, the divisor
`min(Q, max draught over S)` is strictly positive, and `calculate_rhs` returns a value. -/
theorem calculate_rhs_error_unreachable (g : Graph) (x : XValues) (eps : ℚ)
    (hq : ∀ i ∈ List.range' 1 g.n, 0 < g.demand i ∧ g.demand i ≤ g.capacity)
    (hd : ∀ i ∈ List.range (2 * g.n + 2), g.draught i ≥ max 0 (g.demand i)) :
    ∀ i j fuel : Nat, (i, j) ∈ seed_pairs g.n →
      ∀ st ∈ growth_trace g x eps fuel [i] [j],
        st.1 ≠ [] ∧ i ∈ st.1 ∧
        (∃ m : Nat,
          max_element (fun n1 n2 => decide (g.draught n1 < g.draught n2)) st.1 = some m ∧
          m ∈ st.1 ∧ (∀ s ∈ st.1, g.draught s ≤ g.draught m) ∧
          denominator g st.1 = some ((min g.capacity (g.draught m) : Int) : ℚ) ∧
          0 < min g.capacity (g.draught m)) ∧
        ∃ rhs : ℚ, calculate_rhs g st.1 st.2 = some rhs := by
  intro i j fuel hseed st hst
  have hm := (mem_seed_pairs g.n i j).mp hseed
  have hi : i ∈ st.1 := growth_trace_mem g x eps fuel [i] [j] st hst i (by simp)
  have hne : st.1 ≠ [] := List.ne_nil_of_mem hi
  obtain ⟨m, hmax, hmem, hmost⟩ := max_element_draught g st.1 hne
  have hqi := hq i ((mem_range'_one 1 g.n i).mpr (by omega))
  have hdi := hd i (by rw [List.mem_range]; omega)
  have hdm := hmost i hi
  have hpos : 0 < min g.capacity (g.draught m) := by
    have h1 : g.demand i ≤ g.draught i := le_trans (le_max_right _ _) hdi
    exact lt_min (by omega) (by omega)
  refine ⟨hne, hi, ⟨m, hmax, hmem, hmost, ?_, hpos⟩, calculate_rhs_some g st.1 st.2 hne⟩
  unfold denominator
  rw [hmax]

/-- The theorem for C19 on `graph3` with the snapshot of `tour3`: at the pair
`S = {1, 4}`, `T = {5, 6}` evaluated from the seed `(1, 5)` the divisor is `min(10, 1)`. -/
theorem calculate_rhs_error_unreachable_witness :
    ((∀ i ∈ List.range' 1 graph3.n, 0 < graph3.demand i ∧ graph3.demand i ≤ graph3.capacity) ∧
      (∀ i ∈ List.range (2 * graph3.n + 2), graph3.draught i ≥ max 0 (graph3.demand i)) ∧
      (1, 5) ∈ seed_pairs graph3.n ∧
      ([1, 4], [5, 6]) ∈ growth_trace graph3 (tour_snapshot tour3) (1 / 1000000) 6 [1] [5]) ∧
    (([1, 4] : List Nat) ≠ [] ∧ 1 ∈ [1, 4] ∧
      (∃ m : Nat,
        max_element (fun n1 n2 => decide (graph3.draught n1 < graph3.draught n2)) [1, 4] =
          some m ∧
        m ∈ [1, 4] ∧ (∀ s ∈ [1, 4], graph3.draught s ≤ graph3.draught m) ∧
        denominator graph3 [1, 4] =
          some ((min graph3.capacity (graph3.draught m) : Int) : ℚ) ∧
        0 < min graph3.capacity (graph3.draught m)) ∧
      ∃ rhs : ℚ, calculate_rhs graph3 [1, 4] [5, 6] = some rhs) :=
  ⟨⟨by decide, by decide, by decide, by decide!⟩,
    calculate_rhs_error_unreachable graph3 (tour_snapshot tour3) (1 / 1000000)
      (by decide) (by decide) 1 5 6 (by decide) ([1, 4], [5, 6]) (by decide!)⟩

/-! ## The left hand side of a cut in the snapshot -/

/-- The loops of `calculate_lhs` with exact additions in the place of the `double` ones
add up to `lhs_exact`. -/
theorem lhs_exact_eq_fold (x : XValues) (S T : List Nat) :
    T.foldl (fun lhs t1 => T.foldl (fun lhs t2 => lhs + x t1 t2) lhs)
      (S.foldl (fun lhs s1 =>
        T.foldl (fun lhs t => lhs + x s1 t) (S.foldl (fun lhs s2 => lhs + x s1 s2) lhs)) 0) =
      lhs_exact x S T := by
  unfold lhs_exact
  simp only [foldl_add_eq_sum, add_assoc, zero_add]

theorem sum_map_ite_eq_sum_filter_rat {α : Type} (l : List α) (c : α → Bool) (F : α → ℚ) :
    (l.map (fun a => if c a = true then F a else 0)).sum = ((l.filter c).map F).sum := by
  induction l with
  | nil => rfl
  | cons a l ih =>
    by_cases h : c a = true <;> simp [List.filter_cons, h, ih]

/-- A sum over a duplicate-free list of numbers below `N` is the sum over `0..N-1` of the
terms of its members. -/
theorem sum_over_members (A : List Nat) (N : Nat) (hnd : A.Nodup) (hlt : ∀ a ∈ A, a < N)
    (f : Nat → ℚ) :
    (A.map f).sum = ((List.range N).map (fun a => if a ∈ A then f a else 0)).sum := by
  have hperm : List.Perm ((List.range N).filter (fun a => decide (a ∈ A))) A := by
    rw [List.perm_ext_iff_of_nodup ((List.nodup_range N).filter _) hnd]
    intro a
    simp only [List.mem_filter, List.mem_range, decide_eq_true_eq]
    constructor
    · exact fun h => h.2
    · exact fun h => ⟨hlt a h, h⟩
  rw [← (hperm.map f).sum_eq, ← sum_map_ite_eq_sum_filter_rat]
  simp

theorem sum_node_pairs (n : Nat) (F : Nat × Nat → ℚ) :
    ((node_pairs n).map F).sum =
      ((List.range (2 * n + 2)).map (fun a =>
        ((List.range (2 * n + 2)).map (fun b => F (a, b))).sum)).sum := by
  have key : ∀ l1 l2 : List Nat,
      ((l1.flatMap (fun i => l2.map (fun j => (i, j)))).map F).sum =
        (l1.map (fun a => (l2.map (fun b => F (a, b))).sum)).sum := by
    intro l1 l2
    induction l1 with
    | nil => rfl
    | cons a l ih =>
      simp only [List.flatMap_cons, List.map_append, List.sum_append, List.map_cons,
        List.sum_cons, ih, List.map_map]
      rfl
  exact key _ _

/-- The sum over the allowed arcs of a function that vanishes on the forbidden arcs is the
sum over all pairs of nodes. -/
theorem sum_arcs_rat (g : Graph) (F : Nat × Nat → ℚ)
    (hF : ∀ a b : Nat, a ≤ 2 * g.n + 1 → b ≤ 2 * g.n + 1 → g.cost a b < 0 → F (a, b) = 0) :
    ((arcs g).map F).sum =
      ((List.range (2 * g.n + 2)).map (fun a =>
        ((List.range (2 * g.n + 2)).map (fun b => F (a, b))).sum)).sum := by
  rw [arcs_eq, ← sum_map_ite_eq_sum_filter_rat, ← sum_node_pairs]
  congr 1
  apply List.map_congr_left
  intro p hp
  obtain ⟨a, b⟩ := p
  have hr := (mem_node_pairs g.n a b).mp hp
  by_cases hc : g.cost a b ≥ 0
  · simp [hc]
  · simp only [hc, decide_False, Bool.false_eq_true, if_false]
    exact (hF a b hr.1 hr.2 (not_le.mp hc)).symm

theorem add_cut_expr_sum (g : Graph) (params : Params) (x : XValues) (S T : List Nat)
    (rhs_val : ℚ) :
    ((add_cut g S T rhs_val).expr.map (snapshot_column_value g params x)).sum =
      ((arcs g).map (fun p => if in_cut S T p.1 p.2 = true then x p.1 p.2 else 0)).sum := by
  rw [add_cut_expr]
  have key : ∀ (l : List (Nat × Nat)) (k0 : Nat) (val : Nat → ℚ),
      (∀ k p, l[k]? = some p → val (k0 + k) = x p.1 p.2) →
      (((l.enumFrom k0).flatMap
        (fun q => if in_cut S T q.2.1 q.2.2 = true then [q.1] else [])).map val).sum =
      (l.map (fun p => if in_cut S T p.1 p.2 = true then x p.1 p.2 else 0)).sum := by
    intro l
    induction l with
    | nil => intro k0 val _; rfl
    | cons p l ih =>
      intro k0 val hval
      simp only [List.enumFrom_cons, List.flatMap_cons, List.map_append, List.sum_append,
        List.map_cons, List.sum_cons]
      rw [ih (k0 + 1) val (by
        intro k q hq
        have := hval (k + 1) q (by simpa using hq)
        rw [← this]
        congr 1
        omega)]
      have h0 := hval 0 p (by simp)
      simp only [add_zero] at h0
      by_cases hc : in_cut S T p.1 p.2 = true
      · simp [hc, h0]
      · simp [hc]
  apply key
  intro k p hk
  unfold snapshot_column_value
  rw [variables_x_eq, List.getElem?_map, zero_add, hk]
  rfl

/-- On disjoint duplicate-free `S` and `T` within the nodes, and a snapshot that is zero
on the forbidden arcs, the terms of the cut built by `add_cut` add up, in the snapshot, to
the exact sum over the pairs `calculate_lhs` adds. -/
theorem add_cut_lhs_eq_lhs_exact (g : Graph) (params : Params) (x : XValues)
    (S T : List Nat) (rhs_val : ℚ) (hinv : growth_invariant g S T)
    (hx : ∀ a b : Nat, a ≤ 2 * g.n + 1 → b ≤ 2 * g.n + 1 → g.cost a b < 0 → x a b = 0) :
    ((add_cut g S T rhs_val).expr.map (snapshot_column_value g params x)).sum =
      lhs_exact x S T := by
  obtain ⟨hS, hT, hdisj, hSr, hTr⟩ := hinv
  have hSlt : ∀ a ∈ S, a < 2 * g.n + 2 := fun a ha => by have := hSr a ha; omega
  have hTlt : ∀ a ∈ T, a < 2 * g.n + 2 := fun a ha => by have := hTr a ha; omega
  rw [add_cut_expr_sum]
  unfold lhs_exact
  rw [sum_arcs_rat g (fun p => if in_cut S T p.1 p.2 = true then x p.1 p.2 else 0) (by
    intro a b ha hb hc
    simp [hx a b ha hb hc])]
  rw [sum_over_members S (2 * g.n + 2) hS hSlt, sum_over_members T (2 * g.n + 2) hT hTlt,
    ← List.sum_map_add]
  congr 1
  apply List.map_congr_left
  intro a _
  simp only [sum_over_members S (2 * g.n + 2) hS hSlt (fun s2 => x a s2),
    sum_over_members T (2 * g.n + 2) hT hTlt (fun t => x a t)]
  by_cases haS : a ∈ S
  · have haT : a ∉ T := hdisj a haS
    simp only [haS, haT, if_true, if_false, add_zero]
    rw [← List.sum_map_add]
    congr 1
    apply List.map_congr_left
    intro b _
    by_cases hbS : b ∈ S
    · have hbT : b ∉ T := hdisj b hbS
      simp [in_cut, haS, hbS, hbT]
    · by_cases hbT : b ∈ T <;> simp [in_cut, haS, hbS, hbT]
  · by_cases haT : a ∈ T
    · simp only [haS, haT, if_true, if_false, zero_add]
      congr 1
      apply List.map_congr_left
      intro b _
      by_cases hbT : b ∈ T <;> simp [in_cut, haS, haT, hbT]
    · simp [in_cut, haS, haT]

theorem foldlM_append_spec {α β : Type} (l : List α) (F : List β → α → Option (List β))
    (G : α → List β) (hF : ∀ s a r, a ∈ l → F s a = some r → r = s ++ G a)
    (init r : List β) (h : l.foldlM F init = some r) : r = init ++ l.flatMap G := by
  induction l generalizing init with
  | nil =>
    simp only [List.foldlM_nil] at h
    simpa using (Option.some.inj h).symm
  | cons a l ih =>
    simp only [List.foldlM_cons] at h
    cases hfa : F init a with
    | none => simp [hfa] at h
    | some s =>
      simp only [hfa] at h
      have h1 := hF init a s (List.mem_cons_self _ _) hfa
      have h2 := ih (fun s b r hb => hF s b r (List.mem_cons_of_mem _ hb)) s h
      rw [h2, h1, List.flatMap_cons, List.append_assoc]

/-- Every cut `separate_valid_cuts` returns was emitted at a pair `(S, T)` that the growth
loop evaluated from some seed. -/
theorem separate_valid_cuts_mem (g : Graph) (x : XValues) (eps : ℚ) (cuts : List Cut)
    (h : separate_valid_cuts g x eps = some cuts) (cut : Cut) (hcut : cut ∈ cuts) :
    ∃ i j : Nat, (i, j) ∈ seed_pairs g.n ∧
      ∃ st ∈ growth_trace g x eps (2 * g.n) [i] [j], emit_cut g x eps st = some cut := by
  rw [separate_valid_cuts_eq] at h
  have := foldlM_append_spec (seed_pairs g.n)
    (fun cuts s => growth_loop g x eps (2 * g.n) [s.1] [s.2] cuts)
    (fun s => (growth_trace g x eps (2 * g.n) [s.1] [s.2]).filterMap (emit_cut g x eps))
    (fun s a r _ hr => growth_loop_eq_trace g x eps (2 * g.n) [a.1] [a.2] s r hr) [] cuts h
  rw [this, List.nil_append, List.mem_flatMap] at hcut
  obtain ⟨⟨i, j⟩, hs, hmem⟩ := hcut
  rw [List.mem_filterMap] at hmem
  obtain ⟨st, hst, he⟩ := hmem
  exact ⟨i, j, hs, st, hst, he⟩

theorem emit_cut_some (g : Graph) (x : XValues) (eps : ℚ) (st : List Nat × List Nat)
    (cut : Cut) (h : emit_cut g x eps st = some cut) :
    calculate_rhs g st.1 st.2 = some cut.rhs ∧
    calculate_lhs x st.1 st.2 > fadd cut.rhs eps ∧
    cut = add_cut g st.1 st.2 cut.rhs := by
  unfold emit_cut at h
  cases hr : calculate_rhs g st.1 st.2 with
  | none => simp [hr] at h
  | some rhs =>
    simp only [hr] at h
    by_cases hc : calculate_lhs x st.1 st.2 > fadd rhs eps
    · simp only [if_pos hc, Option.some.injEq] at h
      subst h
      exact ⟨rfl, hc, rfl⟩
    · simp [hc] at h

/-! ## Returned cuts are violated by the snapshot -/

theorem store_x_value_col_index (v : Nat → ℚ) (eps : ℚ) (st : XLoop) (i j : Nat) :
    (store_x_value v eps st i j).col_index = st.col_index + 1 := by
  unfold store_x_value
  dsimp only
  split <;> rfl

theorem store_x_value_is_integer (v : Nat → ℚ) (eps : ℚ) (st : XLoop) (i j : Nat) :
    (store_x_value v eps st i j).is_integer = true ↔
      st.is_integer = true ∧ ¬ (eps < v st.col_index ∧ v st.col_index < fsub 1 eps) := by
  unfold store_x_value
  dsimp only
  by_cases h1 : v st.col_index > eps
  · by_cases h2 : v st.col_index < fsub 1 eps
    · simp [h1, h2]
    · simp [h1, h2]
  · have h1' : ¬ eps < v st.col_index := h1
    simp [h1, h1']

theorem store_x_value_xvals (v : Nat → ℚ) (eps : ℚ) (st : XLoop) (i j a b : Nat) :
    (store_x_value v eps st i j).xvals a b =
      if a = i ∧ b = j then (if v st.col_index > eps then v st.col_index else 0)
      else st.xvals a b := by
  unfold store_x_value
  dsimp only
  by_cases h1 : v st.col_index > eps <;> simp [h1]

theorem store_fold_col_index (v : Nat → ℚ) (eps : ℚ) (l : List (Nat × Nat)) (st : XLoop) :
    (l.foldl (fun st p => store_x_value v eps st p.1 p.2) st).col_index =
      st.col_index + l.length := by
  induction l generalizing st with
  | nil => rfl
  | cons p l ih =>
    rw [List.foldl_cons, ih, store_x_value_col_index, List.length_cons]
    omega

theorem store_fold_is_integer (v : Nat → ℚ) (eps : ℚ) (l : List (Nat × Nat)) (st : XLoop) :
    (l.foldl (fun st p => store_x_value v eps st p.1 p.2) st).is_integer = true ↔
      st.is_integer = true ∧
      ∀ k : Nat, k < l.length →
        ¬ (eps < v (st.col_index + k) ∧ v (st.col_index + k) < fsub 1 eps) := by
  induction l generalizing st with
  | nil => simp
  | cons p l ih =>
    rw [List.foldl_cons, ih, store_x_value_is_integer, store_x_value_col_index]
    constructor
    · rintro ⟨⟨h1, h2⟩, h3⟩
      refine ⟨h1, ?_⟩
      intro k hk
      cases k with
      | zero => exact h2
      | succ k =>
        have := h3 k (by simpa using hk)
        rwa [show st.col_index + 1 + k = st.col_index + (k + 1) by omega] at this
    · rintro ⟨h1, h2⟩
      refine ⟨⟨h1, h2 0 (by simp)⟩, ?_⟩
      intro k hk
      have := h2 (k + 1) (by simpa using hk)
      rwa [show st.col_index + (k + 1) = st.col_index + 1 + k by omega] at this

theorem store_fold_xvals (v : Nat → ℚ) (eps : ℚ) (l : List (Nat × Nat)) (hl : l.Nodup)
    (st : XLoop) (a b : Nat) :
    (∀ k : Nat, l[k]? = some (a, b) →
      (l.foldl (fun st p => store_x_value v eps st p.1 p.2) st).xvals a b =
        if v (st.col_index + k) > eps then v (st.col_index + k) else 0) ∧
    ((a, b) ∉ l →
      (l.foldl (fun st p => store_x_value v eps st p.1 p.2) st).xvals a b = st.xvals a b) := by
  induction l generalizing st with
  | nil => simp
  | cons p l ih =>
    rw [List.nodup_cons] at hl
    obtain ⟨ih1, ih2⟩ := ih hl.2 (store_x_value v eps st p.1 p.2)
    constructor
    · intro k hk
      rw [List.foldl_cons]
      cases k with
      | zero =>
        have hp : p = (a, b) := by simpa using hk
        subst hp
        rw [ih2 hl.1, store_x_value_xvals]
        simp
      | succ k =>
        rw [ih1 k (by simpa using hk), store_x_value_col_index,
          show st.col_index + 1 + k = st.col_index + (k + 1) by omega]
    · intro hnm
      rw [List.mem_cons, not_or] at hnm
      rw [List.foldl_cons, ih2 hnm.2, store_x_value_xvals]
      have : ¬ (a = p.1 ∧ b = p.2) := fun h => hnm.1 (Prod.ext h.1 h.2)
      simp [this]

theorem compute_x_values_eq (g : Graph) (v : Nat → ℚ) (eps : ℚ) :
    compute_x_values g v eps =
      ⟨((arcs g).foldl (fun st p => store_x_value v eps st p.1 p.2)
          ⟨fun _ _ => 0, true, 0⟩).is_integer,
       ((arcs g).foldl (fun st p => store_x_value v eps st p.1 p.2)
          ⟨fun _ _ => 0, true, 0⟩).xvals⟩ := by
  unfold compute_x_values
  dsimp only
  rw [for_nodes2_arcs g (fun st i j => store_x_value v eps st i j) ⟨fun _ _ => 0, true, 0⟩]

/-- The flag of the snapshot: true when no value read lies strictly between `eps` and the
`double` difference `1 - eps`. -/
theorem compute_x_values_is_integer_iff (g : Graph) (v : Nat → ℚ) (eps : ℚ) :
    (compute_x_values g v eps).is_integer = true ↔
      ∀ k : Nat, k < (arcs g).length → ¬ (eps < v k ∧ v k < fsub 1 eps) := by
  rw [compute_x_values_eq]
  dsimp only
  rw [store_fold_is_integer]
  simp

theorem compute_x_values_at_arc (g : Graph) (v : Nat → ℚ) (eps : ℚ) (k i j : Nat)
    (hk : (arcs g)[k]? = some (i, j)) :
    (compute_x_values g v eps).x i j = if v k > eps then v k else 0 := by
  rw [compute_x_values_eq]
  dsimp only
  have := (store_fold_xvals v eps (arcs g) (nodup_arcs g) ⟨fun _ _ => 0, true, 0⟩ i j).1 k hk
  simpa using this

theorem compute_x_values_off_arcs (g : Graph) (v : Nat → ℚ) (eps : ℚ) (a b : Nat)
    (h : (a, b) ∉ arcs g) : (compute_x_values g v eps).x a b = 0 := by
  rw [compute_x_values_eq]
  dsimp only
  exact (store_fold_xvals v eps (arcs g) (nodup_arcs g) ⟨fun _ _ => 0, true, 0⟩ a b).2 h

/-! ## The index of an arc is the number of allowed arcs before it -/

theorem pairwise_node_pairs (n : Nat) : (node_pairs n).Pairwise row_major_lt := by
  unfold node_pairs
  rw [List.pairwise_flatMap]
  constructor
  · intro a _
    rw [List.pairwise_map]
    exact (List.pairwise_lt_range _).imp (fun h => Or.inr ⟨rfl, h⟩)
  · refine (List.pairwise_lt_range _).imp ?_
    intro a b hab p hp q hq
    obtain ⟨_, _, rfl⟩ := List.mem_map.mp hp
    obtain ⟨_, _, rfl⟩ := List.mem_map.mp hq
    exact Or.inl hab

theorem pairwise_arcs (g : Graph) : (arcs g).Pairwise row_major_lt := by
  rw [arcs_eq]
  exact (pairwise_node_pairs _).filter _

theorem row_major_lt_asymm (p q : Nat × Nat) (h : row_major_lt p q) : ¬ row_major_lt q p := by
  unfold row_major_lt at *
  omega

theorem count_before_eq_index (l : List (Nat × Nat)) (hl : l.Pairwise row_major_lt)
    (k : Nat) (p : Nat × Nat) (hk : l[k]? = some p) :
    (l.filter (fun q => decide (row_major_lt q p))).length = k := by
  induction l generalizing k with
  | nil => simp at hk
  | cons a l ih =>
    rw [List.pairwise_cons] at hl
    cases k with
    | zero =>
      have hp : a = p := by simpa using hk
      subst hp
      have h1 : ¬ row_major_lt a a := fun h => row_major_lt_asymm a a h h
      have h2 : l.filter (fun q => decide (row_major_lt q a)) = [] := by
        rw [List.filter_eq_nil_iff]
        intro q hq
        simpa using row_major_lt_asymm a q (hl.1 q hq)
      simp [List.filter_cons, h1, h2]
    | succ k =>
      have hk' : l[k]? = some p := by simpa using hk
      have h1 : row_major_lt a p := hl.1 p (List.getElem?_mem hk')
      simp [List.filter_cons, h1, ih hl.2 k hk']

theorem arcs_before_eq_filter (g : Graph) (i j : Nat) :
    arcs_before g i j = ((arcs g).filter (fun q => decide (row_major_lt q (i, j)))).length := by
  unfold arcs_before
  rw [arcs_eq, List.filter_filter]
  congr 2
  funext p
  by_cases h1 : g.cost p.1 p.2 ≥ 0 <;> by_cases h2 : row_major_lt p (i, j) <;> simp [h1, h2]

/-- An arc at index `k` of the enumeration has `k` allowed arcs before it. -/
theorem arcs_before_eq_index (g : Graph) (k i j : Nat) (hk : (arcs g)[k]? = some (i, j)) :
    arcs_before g i j = k := by
  rw [arcs_before_eq_filter]
  exact count_before_eq_index (arcs g) (pairwise_arcs g) k (i, j) hk

theorem arcs_at_arcs_before (g : Graph) (i j : Nat) (hi : i ≤ 2 * g.n + 1)
    (hj : j ≤ 2 * g.n + 1) (hc : g.cost i j ≥ 0) :
    (arcs g)[arcs_before g i j]? = some (i, j) := by
  obtain ⟨k, hk⟩ := exists_arc_index g i j hi hj hc
  rw [arcs_before_eq_index g k i j hk]
  exact hk

/-! ## The integrality flag of the snapshot -/

/-- C12, amended. `compute_x_values` sets `is_integer` to true if and only if no LP value
`v` of an allowed-arc x variable lies strictly between `eps` and the `double` difference
`1 - eps`, that is, every value has `v <= eps` or `v >=` that difference; `getValue k`,
for `k` below the number of allowed arcs, is the LP value of the `k`-th x variable. When
the difference `1 - eps` is computed without rounding and all values lie in
`[-eps, 1 + eps]`, the flag is true exactly when every value is within `eps` of 0 or
of 1. -/
theorem compute_x_values_is_integer (g : Graph) (getValue : Nat → ℚ) (eps : ℚ) :
    ((compute_x_values g getValue eps).is_integer = true ↔
      ∀ k : Nat, k < (arcs g).length → getValue k ≤ eps ∨ fsub 1 eps ≤ getValue k) ∧
    (fsub 1 eps = 1 - eps →
      (∀ k : Nat, k < (arcs g).length → -eps ≤ getValue k ∧ getValue k ≤ 1 + eps) →
      ((compute_x_values g getValue eps).is_integer = true ↔
        ∀ k : Nat, k < (arcs g).length → within_eps_of_01 eps (getValue k))) := by
  have key : (compute_x_values g getValue eps).is_integer = true ↔
      ∀ k : Nat, k < (arcs g).length → getValue k ≤ eps ∨ fsub 1 eps ≤ getValue k := by
    rw [compute_x_values_is_integer_iff]
    constructor
    · intro h k hk
      have := h k hk
      rw [not_and_or, not_lt, not_lt] at this
      exact this
    · intro h k hk
      rw [not_and_or, not_lt, not_lt]
      exact h k hk
  refine ⟨key, ?_⟩
  intro he hr
  rw [key, he]
  constructor
  · intro h k hk
    rcases h k hk with h1 | h1
    · exact Or.inl (abs_le.mpr ⟨(hr k hk).1, h1⟩)
    · exact Or.inr (abs_le.mpr ⟨by linarith, by linarith [(hr k hk).2]⟩)
  · intro h k hk
    rcases h k hk with h1 | h1
    · exact Or.inl ((abs_le.mp h1).2)
    · right
      have := (abs_le.mp h1).1
      linarith

/-- C12, counterexample. On `graph1` with `eps = 1e-6`, when the x variables have the LP
values of `tour1` except that the arc `(1, 2)` has the `double` value `0.999999`, every
value lies in `[0, 1]` and `compute_x_values` sets `is_integer` to true: `0.999999` is the
`double` difference `1 - eps`, so it is not below it. It is below the exact `1 - eps`, and
not within `eps` of 0 or of 1. -/
theorem compute_x_values_is_integer_counterexample :
    (arcs graph1).length = 7 ∧
    round64 eps64 = eps64 ∧
    (∀ k ∈ List.range (arcs graph1).length,
      0 ≤ lp_near_tour1 k ∧ lp_near_tour1 k ≤ 1 ∧
      round64 (lp_near_tour1 k) = lp_near_tour1 k) ∧
    (compute_x_values graph1 lp_near_tour1 eps64).is_integer = true ∧
    fsub 1 eps64 = lp_near_tour1 3 ∧
    lp_near_tour1 3 < 1 - eps64 ∧
    ¬ within_eps_of_01 eps64 (lp_near_tour1 3) ∧
    ¬ (∀ k ∈ List.range (arcs graph1).length, within_eps_of_01 eps64 (lp_near_tour1 k)) := by
  decide!

/-! ## The three enumerations of the allowed arcs -/

/-- C15 (amended). The three row-major enumerations of the allowed arcs agree. For an
allowed arc `(i, j)` of nodes `0..2n+1`, with `k` the number of allowed arcs preceding
`(i, j)` in row-major order: the model builder's `k`-th x variable and `k`-th y variable
are those of the arc `(i, j)`, and its `y_lower` and `y_upper` rows have index `k`;
`compute_x_values` stores at snapshot position `(i, j)` the value of `x[k]` when it exceeds
`eps` and `0` otherwise; `add_cut` has the term `x[k]` once when the arc `(i, j)` passes
its test and not at all otherwise. Forbidden arcs have snapshot value 0. -/
theorem enumerations_of_allowed_arcs_agree (g : Graph) (params : Params)
    (getValue : Nat → ℚ) (eps : ℚ) (S T : List Nat) (rhs_val : ℚ) (i j : Nat)
    (hi : i ≤ 2 * g.n + 1) (hj : j ≤ 2 * g.n + 1) (hc : g.cost i j ≥ 0) :
    (setup_model g params).variables_x[arcs_before g i j]? = some (x_var g params (i, j)) ∧
    (x_var g params (i, j)).name = (i, j) ∧
    (setup_model g params).variables_y[arcs_before g i j]? = some (y_var g (i, j)) ∧
    (y_var g (i, j)).name = (i, j) ∧
    (setup_model g params).y_lower[arcs_before g i j]? =
      some ⟨none, some 0, some (RowName.y_lower i j)⟩ ∧
    (setup_model g params).y_upper[arcs_before g i j]? =
      some ⟨some 0, none, some (RowName.y_upper i j)⟩ ∧
    (compute_x_values g getValue eps).x i j =
      (if getValue (arcs_before g i j) > eps then getValue (arcs_before g i j) else 0) ∧
    (add_cut g S T rhs_val).expr.count (arcs_before g i j) =
      (if in_cut S T i j = true then 1 else 0) ∧
    (∀ a b : Nat, g.cost a b < 0 → (compute_x_values g getValue eps).x a b = 0) := by
  have hk := arcs_at_arcs_before g i j hi hj hc
  refine ⟨?_, rfl, ?_, rfl, ?_, ?_, ?_, ?_, ?_⟩
  · simp [setup_model, variables_x_eq, List.getElem?_map, hk]
  · simp [setup_model, variables_y_eq, List.getElem?_map, hk]
  · simp [setup_model, y_rows_eq, List.getElem?_map, hk]
  · simp [setup_model, y_rows_eq, List.getElem?_map, hk]
  · exact compute_x_values_at_arc g getValue eps _ i j hk
  · rw [add_cut_count, hk]
    rfl
  · intro a b hab
    apply compute_x_values_off_arcs
    intro hmem
    have := ((mem_arcs g a b).mp hmem).2.2
    omega

theorem enumerations_of_allowed_arcs_agree_witness :
    (2 ≤ 2 * graph3b.n + 1 ∧ 1 ≤ 2 * graph3b.n + 1 ∧ graph3b.cost 2 1 ≥ 0) ∧
    arcs_before graph3b 2 1 = 13 ∧
    (setup_model graph3b params1).variables_x[arcs_before graph3b 2 1]? =
      some (x_var graph3b params1 (2, 1)) ∧
    (compute_x_values graph3b (fun k => if k = 13 then 1 / 2 else 0) (1 / 1000000)).x 2 1 =
      (if (fun k => if k = 13 then (1 / 2 : ℚ) else 0) (arcs_before graph3b 2 1) > 1 / 1000000
        then (fun k => if k = 13 then (1 / 2 : ℚ) else 0) (arcs_before graph3b 2 1) else 0) ∧
    (add_cut graph3b [2, 1] [5, 6] 1).expr.count (arcs_before graph3b 2 1) =
      (if in_cut [2, 1] [5, 6] 2 1 = true then 1 else 0) :=
  have h := enumerations_of_allowed_arcs_agree graph3b params1
    (fun k => if k = 13 then 1 / 2 else 0) (1 / 1000000) [2, 1] [5, 6] 1 2 1
    (by decide) (by decide) (by decide)
  ⟨by decide, by decide, h.1, h.2.2.2.2.2.2.1, h.2.2.2.2.2.2.2.1⟩

/-- C15 as stated fails on the stored value: on `graph1` with `eps = 1e-6`, the arc `(0, 1)`
has no allowed arc before it, the LP value of `x[0]` is `5e-7`, and `compute_x_values`
stores `0` at snapshot position `(0, 1)`, not the value of `x[0]`. -/
theorem compute_x_values_stores_counterexample :
    graph1.cost 0 1 ≥ 0 ∧
    arcs_before graph1 0 1 = 0 ∧
    (fun _ => (1 / 2000000 : ℚ)) (arcs_before graph1 0 1) = 1 / 2000000 ∧
    (compute_x_values graph1 (fun _ => 1 / 2000000) (1 / 1000000)).x 0 1 = 0 ∧
    (compute_x_values graph1 (fun _ => 1 / 2000000) (1 / 1000000)).x 0 1 ≠
      (fun _ => (1 / 2000000 : ℚ)) (arcs_before graph1 0 1) := by
  decide!

/-! ## The callback -/

theorem add_cuts_eq (incr : Data → Data) (cuts : List Cut) (st : CallbackState) :
    add_cuts incr cuts st = ⟨incr^[cuts.length] st.data, st.added ++ cuts, st.ran⟩ := by
  unfold add_cuts
  induction cuts generalizing st with
  | nil => simp
  | cons c cuts ih =>
    rw [List.foldl_cons, ih]
    simp [Function.iterate_succ_apply]

/-- The callback is its six blocks in sequence. -/
theorem cuts_callback_main_eq (g : Graph) (params : CallbackParams)
    (separate : Family → solution → List Cut) (time_span : Family → ℚ)
    (getValue : Nat → ℚ) (eps : ℚ) (N : Nat) (st : CallbackState) :
    cuts_callback_main g params separate time_span getValue eps N st =
      run_family (params.fork.enabled = true ∧ N % params.fork.cut_every_n_nodes = 0)
        Family.fork
        (fun d => { d with time_spent_separating_fork_vi :=
          d.time_spent_separating_fork_vi + time_span Family.fork })
        (fun d => { d with total_number_of_fork_vi_added :=
          d.total_number_of_fork_vi_added + 1 })
        (separate Family.fork (compute_x_values g getValue eps))
      (run_family (params.simplified_fork.enabled = true ∧
          N % params.simplified_fork.cut_every_n_nodes = 0)
        Family.simplified_fork
        (fun d => { d with time_spent_separating_simplified_fork_vi :=
          d.time_spent_separating_simplified_fork_vi + time_span Family.simplified_fork })
        (fun d => { d with total_number_of_simplified_fork_vi_added :=
          d.total_number_of_simplified_fork_vi_added + 1 })
        (separate Family.simplified_fork (compute_x_values g getValue eps))
      (run_family (params.capacity.enabled = true ∧ N % params.capacity.cut_every_n_nodes = 0)
        Family.capacity
        (fun d => { d with time_spent_separating_capacity_vi :=
          d.time_spent_separating_capacity_vi + time_span Family.capacity })
        (fun d => { d with total_number_of_capacity_vi_added :=
          d.total_number_of_capacity_vi_added + 1 })
        (separate Family.capacity (compute_x_values g getValue eps))
      (run_family (params.generalised_order.enabled = true ∧
          N % params.generalised_order.cut_every_n_nodes = 0)
        Family.generalised_order
        (fun d => { d with time_spent_separating_generalised_order_vi :=
          d.time_spent_separating_generalised_order_vi + time_span Family.generalised_order })
        (fun d => { d with total_number_of_generalised_order_vi_added :=
          d.total_number_of_generalised_order_vi_added + 1 })
        (separate Family.generalised_order (compute_x_values g getValue eps))
      (run_family (params.subtour_elim.enabled = true ∧
          N % params.subtour_elim.cut_every_n_nodes = 0)
        Family.subtour_elimination
        (fun d => { d with time_spent_separating_subtour_elimination_vi :=
          (d.time_spent_separating_subtour_elimination_vi +
            time_span Family.subtour_elimination) })
        (fun d => { d with total_number_of_subtour_elimination_vi_added :=
          d.total_number_of_subtour_elimination_vi_added + 1 })
        (separate Family.subtour_elimination (compute_x_values g getValue eps))
      (run_family ((compute_x_values g getValue eps).is_integer = true)
        Family.feasibility
        (fun d => { d with time_spent_separating_fork_vi :=
          d.time_spent_separating_fork_vi + time_span Family.feasibility })
        (fun d => { d with total_number_of_feasibility_cuts_added :=
          d.total_number_of_feasibility_cuts_added + 1 })
        (separate Family.feasibility (compute_x_values g getValue eps)) st))))) := by
  rfl

theorem run_family_ran_count (c : Prop) [Decidable c] (f F : Family) (bump incr : Data → Data)
    (cuts : List Cut) (st : CallbackState) :
    (run_family c f bump incr cuts st).ran.count F =
      st.ran.count F + (if c ∧ f = F then 1 else 0) := by
  unfold run_family
  by_cases hc : c
  · rw [if_pos hc, add_cuts_eq]
    by_cases hf : f = F
    · simp [hc, hf]
    · simp [hc, hf, List.count_append, List.count_cons]
  · simp [hc]

/-- A block changes a quantity `q` of `data` by what its `bump` and its `incr` add. -/
theorem run_family_data {M : Type} [AddCommMonoid M] (q : Data → M) (c : Prop) [Decidable c]
    (f : Family) (bump incr : Data → Data) (cuts : List Cut) (st : CallbackState) (b i : M)
    (hb : ∀ d, q (bump d) = q d + b) (hi : ∀ d, q (incr d) = q d + i) :
    q (run_family c f bump incr cuts st).data =
      q st.data + (if c then b + cuts.length • i else 0) := by
  unfold run_family
  by_cases hc : c
  · rw [if_pos hc, if_pos hc, add_cuts_eq]
    dsimp only
    have key : ∀ (n : Nat) (d : Data), q (incr^[n] d) = q d + n • i := by
      intro n
      induction n with
      | zero => intro d; simp
      | succ n ih =>
        intro d
        rw [Function.iterate_succ_apply', hi, ih, succ_nsmul, add_assoc]
    rw [key, hb, add_assoc]
  · simp [hc]

/-- The counter of a family after the callback: every block whose separator is that of the
family adds the number of cuts it was given. -/
theorem cuts_callback_main_cuts_added (g : Graph) (params : CallbackParams)
    (separate : Family → solution → List Cut) (time_span : Family → ℚ)
    (getValue : Nat → ℚ) (eps : ℚ) (N : Nat) (st : CallbackState) (F : Family) :
    (cuts_callback_main g params separate time_span getValue eps N st).data.cuts_added F =
      st.data.cuts_added F +
      (if (compute_x_values g getValue eps).is_integer = true ∧ Family.feasibility = F
        then (separate Family.feasibility (compute_x_values g getValue eps)).length else 0) +
      (if (params.subtour_elim.enabled = true ∧
            N % params.subtour_elim.cut_every_n_nodes = 0) ∧ Family.subtour_elimination = F
        then (separate Family.subtour_elimination (compute_x_values g getValue eps)).length
        else 0) +
      (if (params.generalised_order.enabled = true ∧
            N % params.generalised_order.cut_every_n_nodes = 0) ∧ Family.generalised_order = F
        then (separate Family.generalised_order (compute_x_values g getValue eps)).length
        else 0) +
      (if (params.capacity.enabled = true ∧ N % params.capacity.cut_every_n_nodes = 0) ∧
            Family.capacity = F
        then (separate Family.capacity (compute_x_values g getValue eps)).length else 0) +
      (if (params.simplified_fork.enabled = true ∧
            N % params.simplified_fork.cut_every_n_nodes = 0) ∧ Family.simplified_fork = F
        then (separate Family.simplified_fork (compute_x_values g getValue eps)).length
        else 0) +
      (if (params.fork.enabled = true ∧ N % params.fork.cut_every_n_nodes = 0) ∧
            Family.fork = F
        then (separate Family.fork (compute_x_values g getValue eps)).length else 0) := by
  rw [cuts_callback_main_eq]
  rw [run_family_data (fun d => d.cuts_added F) _ Family.fork _ _ _ _ 0
      (if Family.fork = F then 1 else 0)
      (by intro d; cases F <;> simp [Data.cuts_added])
      (by intro d; cases F <;> simp [Data.cuts_added]),
    run_family_data (fun d => d.cuts_added F) _ Family.simplified_fork _ _ _ _ 0
      (if Family.simplified_fork = F then 1 else 0)
      (by intro d; cases F <;> simp [Data.cuts_added])
      (by intro d; cases F <;> simp [Data.cuts_added]),
    run_family_data (fun d => d.cuts_added F) _ Family.capacity _ _ _ _ 0
      (if Family.capacity = F then 1 else 0)
      (by intro d; cases F <;> simp [Data.cuts_added])
      (by intro d; cases F <;> simp [Data.cuts_added]),
    run_family_data (fun d => d.cuts_added F) _ Family.generalised_order _ _ _ _ 0
      (if Family.generalised_order = F then 1 else 0)
      (by intro d; cases F <;> simp [Data.cuts_added])
      (by intro d; cases F <;> simp [Data.cuts_added]),
    run_family_data (fun d => d.cuts_added F) _ Family.subtour_elimination _ _ _ _ 0
      (if Family.subtour_elimination = F then 1 else 0)
      (by intro d; cases F <;> simp [Data.cuts_added])
      (by intro d; cases F <;> simp [Data.cuts_added]),
    run_family_data (fun d => d.cuts_added F) _ Family.feasibility _ _ _ _ 0
      (if Family.feasibility = F then 1 else 0)
      (by intro d; cases F <;> simp [Data.cuts_added])
      (by intro d; cases F <;> simp [Data.cuts_added])]
  simp only [zero_add, smul_eq_mul, mul_ite, mul_one, mul_zero, ite_and]

/-- The number of calls of a separator in the log after the callback. -/
theorem cuts_callback_main_ran_count (g : Graph) (params : CallbackParams)
    (separate : Family → solution → List Cut) (time_span : Family → ℚ)
    (getValue : Nat → ℚ) (eps : ℚ) (N : Nat) (st : CallbackState) (F : Family) :
    (cuts_callback_main g params separate time_span getValue eps N st).ran.count F =
      st.ran.count F +
      (if (compute_x_values g getValue eps).is_integer = true ∧ Family.feasibility = F
        then 1 else 0) +
      (if (params.subtour_elim.enabled = true ∧
            N % params.subtour_elim.cut_every_n_nodes = 0) ∧ Family.subtour_elimination = F
        then 1 else 0) +
      (if (params.generalised_order.enabled = true ∧
            N % params.generalised_order.cut_every_n_nodes = 0) ∧ Family.generalised_order = F
        then 1 else 0) +
      (if (params.capacity.enabled = true ∧ N % params.capacity.cut_every_n_nodes = 0) ∧
            Family.capacity = F
        then 1 else 0) +
      (if (params.simplified_fork.enabled = true ∧
            N % params.simplified_fork.cut_every_n_nodes = 0) ∧ Family.simplified_fork = F
        then 1 else 0) +
      (if (params.fork.enabled = true ∧ N % params.fork.cut_every_n_nodes = 0) ∧
            Family.fork = F
        then 1 else 0) := by
  rw [cuts_callback_main_eq]
  simp only [run_family_ran_count]

/-! ## The accumulated separation times after the callback -/

theorem cuts_callback_main_subtour_elimination_time
    (g : Graph) (params : CallbackParams)
    (separate : Family → solution → List Cut) (time_span : Family → ℚ)
    (getValue : Nat → ℚ) (eps : ℚ) (N : Nat) (st : CallbackState) :
    (cuts_callback_main g params separate time_span getValue eps N st).data.time_spent_separating_subtour_elimination_vi =
      st.data.time_spent_separating_subtour_elimination_vi +
      (if params.subtour_elim.enabled = true ∧ N % params.subtour_elim.cut_every_n_nodes = 0
        then time_span Family.subtour_elimination else 0) := by
  rw [cuts_callback_main_eq]
  rw [
    run_family_data (fun d => d.time_spent_separating_subtour_elimination_vi) _ Family.fork _ _ _ _ 0 0
      (by intro d; simp) (by intro d; simp),
    run_family_data (fun d => d.time_spent_separating_subtour_elimination_vi) _ Family.simplified_fork _ _ _ _ 0 0
      (by intro d; simp) (by intro d; simp),
    run_family_data (fun d => d.time_spent_separating_subtour_elimination_vi) _ Family.capacity _ _ _ _ 0 0
      (by intro d; simp) (by intro d; simp),
    run_family_data (fun d => d.time_spent_separating_subtour_elimination_vi) _ Family.generalised_order _ _ _ _ 0 0
      (by intro d; simp) (by intro d; simp),
    run_family_data (fun d => d.time_spent_separating_subtour_elimination_vi) _ Family.subtour_elimination _ _ _ _ (time_span Family.subtour_elimination) 0
      (by intro d; simp) (by intro d; simp),
    run_family_data (fun d => d.time_spent_separating_subtour_elimination_vi) _ Family.feasibility _ _ _ _ 0 0
      (by intro d; simp) (by intro d; simp)]
  simp

theorem cuts_callback_main_generalised_order_time
    (g : Graph) (params : CallbackParams)
    (separate : Family → solution → List Cut) (time_span : Family → ℚ)
    (getValue : Nat → ℚ) (eps : ℚ) (N : Nat) (st : CallbackState) :
    (cuts_callback_main g params separate time_span getValue eps N st).data.time_spent_separating_generalised_order_vi =
      st.data.time_spent_separating_generalised_order_vi +
      (if params.generalised_order.enabled = true ∧ N % params.generalised_order.cut_every_n_nodes = 0
        then time_span Family.generalised_order else 0) := by
  rw [cuts_callback_main_eq]
  rw [
    run_family_data (fun d => d.time_spent_separating_generalised_order_vi) _ Family.fork _ _ _ _ 0 0
      (by intro d; simp) (by intro d; simp),
    run_family_data (fun d => d.time_spent_separating_generalised_order_vi) _ Family.simplified_fork _ _ _ _ 0 0
      (by intro d; simp) (by intro d; simp),
    run_family_data (fun d => d.time_spent_separating_generalised_order_vi) _ Family.capacity _ _ _ _ 0 0
      (by intro d; simp) (by intro d; simp),
    run_family_data (fun d => d.time_spent_separating_generalised_order_vi) _ Family.generalised_order _ _ _ _ (time_span Family.generalised_order) 0
      (by intro d; simp) (by intro d; simp),
    run_family_data (fun d => d.time_spent_separating_generalised_order_vi) _ Family.subtour_elimination _ _ _ _ 0 0
      (by intro d; simp) (by intro d; simp),
    run_family_data (fun d => d.time_spent_separating_generalised_order_vi) _ Family.feasibility _ _ _ _ 0 0
      (by intro d; simp) (by intro d; simp)]
  simp

theorem cuts_callback_main_capacity_time
    (g : Graph) (params : CallbackParams)
    (separate : Family → solution → List Cut) (time_span : Family → ℚ)
    (getValue : Nat → ℚ) (eps : ℚ) (N : Nat) (st : CallbackState) :
    (cuts_callback_main g params separate time_span getValue eps N st).data.time_spent_separating_capacity_vi =
      st.data.time_spent_separating_capacity_vi +
      (if params.capacity.enabled = true ∧ N % params.capacity.cut_every_n_nodes = 0
        then time_span Family.capacity else 0) := by
  rw [cuts_callback_main_eq]
  rw [
    run_family_data (fun d => d.time_spent_separating_capacity_vi) _ Family.fork _ _ _ _ 0 0
      (by intro d; simp) (by intro d; simp),
    run_family_data (fun d => d.time_spent_separating_capacity_vi) _ Family.simplified_fork _ _ _ _ 0 0
      (by intro d; simp) (by intro d; simp),
    run_family_data (fun d => d.time_spent_separating_capacity_vi) _ Family.capacity _ _ _ _ (time_span Family.capacity) 0
      (by intro d; simp) (by intro d; simp),
    run_family_data (fun d => d.time_spent_separating_capacity_vi) _ Family.generalised_order _ _ _ _ 0 0
      (by intro d; simp) (by intro d; simp),
    run_family_data (fun d => d.time_spent_separating_capacity_vi) _ Family.subtour_elimination _ _ _ _ 0 0
      (by intro d; simp) (by intro d; simp),
    run_family_data (fun d => d.time_spent_separating_capacity_vi) _ Family.feasibility _ _ _ _ 0 0
      (by intro d; simp) (by intro d; simp)]
  simp

theorem cuts_callback_main_simplified_fork_time
    (g : Graph) (params : CallbackParams)
    (separate : Family → solution → List Cut) (time_span : Family → ℚ)
    (getValue : Nat → ℚ) (eps : ℚ) (N : Nat) (st : CallbackState) :
    (cuts_callback_main g params separate time_span getValue eps N st).data.time_spent_separating_simplified_fork_vi =
      st.data.time_spent_separating_simplified_fork_vi +
      (if params.simplified_fork.enabled = true ∧ N % params.simplified_fork.cut_every_n_nodes = 0
        then time_span Family.simplified_fork else 0) := by
  rw [cuts_callback_main_eq]
  rw [
    run_family_data (fun d => d.time_spent_separating_simplified_fork_vi) _ Family.fork _ _ _ _ 0 0
      (by intro d; simp) (by intro d; simp),
    run_family_data (fun d => d.time_spent_separating_simplified_fork_vi) _ Family.simplified_fork _ _ _ _ (time_span Family.simplified_fork) 0
      (by intro d; simp) (by intro d; simp),
    run_family_data (fun d => d.time_spent_separating_simplified_fork_vi) _ Family.capacity _ _ _ _ 0 0
      (by intro d; simp) (by intro d; simp),
    run_family_data (fun d => d.time_spent_separating_simplified_fork_vi) _ Family.generalised_order _ _ _ _ 0 0
      (by intro d; simp) (by intro d; simp),
    run_family_data (fun d => d.time_spent_separating_simplified_fork_vi) _ Family.subtour_elimination _ _ _ _ 0 0
      (by intro d; simp) (by intro d; simp),
    run_family_data (fun d => d.time_spent_separating_simplified_fork_vi) _ Family.feasibility _ _ _ _ 0 0
      (by intro d; simp) (by intro d; simp)]
  simp

theorem cuts_callback_main_fork_time
    (g : Graph) (params : CallbackParams)
    (separate : Family → solution → List Cut) (time_span : Family → ℚ)
    (getValue : Nat → ℚ) (eps : ℚ) (N : Nat) (st : CallbackState) :
    (cuts_callback_main g params separate time_span getValue eps N st).data.time_spent_separating_fork_vi =
      st.data.time_spent_separating_fork_vi +
      (if (compute_x_values g getValue eps).is_integer = true
        then time_span Family.feasibility else 0) +
      (if params.fork.enabled = true ∧ N % params.fork.cut_every_n_nodes = 0
        then time_span Family.fork else 0) := by
  rw [cuts_callback_main_eq]
  rw [
    run_family_data (fun d => d.time_spent_separating_fork_vi) _ Family.fork _ _ _ _ (time_span Family.fork) 0
      (by intro d; simp) (by intro d; simp),
    run_family_data (fun d => d.time_spent_separating_fork_vi) _ Family.simplified_fork _ _ _ _ 0 0
      (by intro d; simp) (by intro d; simp),
    run_family_data (fun d => d.time_spent_separating_fork_vi) _ Family.capacity _ _ _ _ 0 0
      (by intro d; simp) (by intro d; simp),
    run_family_data (fun d => d.time_spent_separating_fork_vi) _ Family.generalised_order _ _ _ _ 0 0
      (by intro d; simp) (by intro d; simp),
    run_family_data (fun d => d.time_spent_separating_fork_vi) _ Family.subtour_elimination _ _ _ _ 0 0
      (by intro d; simp) (by intro d; simp),
    run_family_data (fun d => d.time_spent_separating_fork_vi) _ Family.feasibility _ _ _ _ (time_span Family.feasibility) 0
      (by intro d; simp) (by intro d; simp)]
  simp

/-! ## The families of valid inequalities in the callback -/

/-- C13. For each family `F` of valid inequalities (subtour elimination, generalised
order, capacity, simplified fork, fork), with parameters `fp`, and every invocation of
`cuts_callback::main` at node number `N` with `fp.cut_every_n_nodes >= 1`: when
`fp.enabled` and `N mod fp.cut_every_n_nodes = 0`, the separator of `F` is called once and
the counter of `F` grows by the number of cuts the separator returns on the snapshot;
otherwise the separator of `F` is not called and the counter of `F` is unchanged. This
holds whatever the flags of the other families, the snapshot and the cuts of the other
separators are. -/
theorem user_cut_family_runs_when_due (g : Graph) (params : CallbackParams)
    (separate : Family → solution → List Cut) (time_span : Family → ℚ)
    (getValue : Nat → ℚ) (eps : ℚ) (N : Nat) (st : CallbackState)
    (F : Family) (fp : FamilyParams) (hF : params.family F = some fp)
    (_ : 1 ≤ fp.cut_every_n_nodes) :
    (fp.enabled = true ∧ N % fp.cut_every_n_nodes = 0 →
      (cuts_callback_main g params separate time_span getValue eps N st).ran.count F =
        st.ran.count F + 1 ∧
      (cuts_callback_main g params separate time_span getValue eps N st).data.cuts_added F =
        st.data.cuts_added F + (separate F (compute_x_values g getValue eps)).length) ∧
    (¬ (fp.enabled = true ∧ N % fp.cut_every_n_nodes = 0) →
      (cuts_callback_main g params separate time_span getValue eps N st).ran.count F =
        st.ran.count F ∧
      (cuts_callback_main g params separate time_span getValue eps N st).data.cuts_added F =
        st.data.cuts_added F) := by
  rw [cuts_callback_main_cuts_added, cuts_callback_main_ran_count]
  cases F <;> simp only [CallbackParams.family, Option.some.injEq] at hF
  · exact absurd hF (by simp)
  all_goals subst hF
  all_goals constructor
  all_goals intro hc
  all_goals simp [hc]

theorem user_cut_family_runs_when_due_witness :
    capacity_every_2.family Family.capacity = some ⟨true, 2⟩ ∧
    (1 ≤ (FamilyParams.mk true 2).cut_every_n_nodes) ∧
    ((FamilyParams.mk true 2).enabled = true ∧
      4 % (FamilyParams.mk true 2).cut_every_n_nodes = 0) ∧
    (cuts_callback_main graph1 capacity_every_2
      (fun f _ => if f = Family.capacity then [⟨[3], 0⟩, ⟨[6], 0⟩] else [])
      (fun _ => 1 / 1000) lp_tour1 (1 / 1000000) 4 state0).ran.count Family.capacity =
      state0.ran.count Family.capacity + 1 ∧
    (cuts_callback_main graph1 capacity_every_2
      (fun f _ => if f = Family.capacity then [⟨[3], 0⟩, ⟨[6], 0⟩] else [])
      (fun _ => 1 / 1000) lp_tour1 (1 / 1000000) 4 state0).data.cuts_added Family.capacity =
      state0.data.cuts_added Family.capacity +
        ((fun (f : Family) (_ : solution) =>
            if f = Family.capacity then [(⟨[3], 0⟩ : Cut), ⟨[6], 0⟩] else [])
          Family.capacity (compute_x_values graph1 lp_tour1 (1 / 1000000))).length :=
  ⟨rfl, by decide, ⟨rfl, by decide⟩,
    (user_cut_family_runs_when_due graph1 capacity_every_2
      (fun f _ => if f = Family.capacity then [⟨[3], 0⟩, ⟨[6], 0⟩] else [])
      (fun _ => 1 / 1000) lp_tour1 (1 / 1000000) 4 state0 Family.capacity ⟨true, 2⟩
      rfl (by decide)).1 ⟨rfl, by decide⟩⟩

/-! ## The time of the feasibility separator -/

/-- C14 fails on the code. Whenever the snapshot is integer and the fork family is
disabled, `cuts_callback::main` does not call the fork separator and yet adds the time
measured around the feasibility separator to `time_spent_separating_fork_vi`. On `graph1`
with the LP values of the tour `0, 1, 2, 3`, every family disabled and 1 ms measured
around each call, only the feasibility separator is called and the fork accumulator goes
from 0 to 1/1000, while the other four accumulators stay 0. -/
theorem fork_time_grows_without_fork_separator :
    (∀ (g : Graph) (params : CallbackParams) (separate : Family → solution → List Cut)
        (time_span : Family → ℚ) (getValue : Nat → ℚ) (eps : ℚ) (N : Nat)
        (st : CallbackState),
      (compute_x_values g getValue eps).is_integer = true → params.fork.enabled = false →
      (cuts_callback_main g params separate time_span getValue eps N st).ran.count
          Family.fork = st.ran.count Family.fork ∧
      (cuts_callback_main g params separate time_span getValue eps N
          st).data.time_spent_separating_fork_vi =
        st.data.time_spent_separating_fork_vi + time_span Family.feasibility) ∧
    (compute_x_values graph1 lp_tour1 (1 / 1000000)).is_integer = true ∧
    all_disabled.fork.enabled = false ∧
    (cuts_callback_main graph1 all_disabled (fun _ _ => []) (fun _ => 1 / 1000) lp_tour1
      (1 / 1000000) 0 state0).ran = [Family.feasibility] ∧
    state0.data.time_spent Family.fork = some 0 ∧
    (cuts_callback_main graph1 all_disabled (fun _ _ => []) (fun _ => 1 / 1000) lp_tour1
      (1 / 1000000) 0 state0).data.time_spent Family.fork = some (1 / 1000) ∧
    (∀ F ∈ [Family.subtour_elimination, Family.generalised_order, Family.capacity,
        Family.simplified_fork],
      (cuts_callback_main graph1 all_disabled (fun _ _ => []) (fun _ => 1 / 1000) lp_tour1
        (1 / 1000000) 0 state0).data.time_spent F = some 0) := by
  refine ⟨?_, by decide!, by decide!, by decide!, by decide!, by decide!, by decide!⟩
  intro g params separate time_span getValue eps N st hint hfork
  rw [cuts_callback_main_ran_count, cuts_callback_main_fork_time]
  simp [hint, hfork]

/-! ## The 2-cycle rows -/

/-- The loop nest over the pairs `i < j` with both arcs allowed is a fold over
`tce_pairs g`. -/
theorem foldl_tce_pairs {σ : Type} (g : Graph) (step : σ → Nat → Nat → σ) (init : σ) :
    (List.range (2 * g.n + 2)).foldl (fun s ii =>
      (List.range' (ii + 1) (2 * g.n + 1 - ii)).foldl (fun s jj =>
        if g.cost ii jj ≥ 0 ∧ g.cost jj ii ≥ 0 then step s ii jj else s) s) init =
    (tce_pairs g).foldl (fun s p => step s p.1 p.2) init := by
  unfold tce_pairs upper_pairs
  rw [← foldl_ite_eq_filter, foldl_flatMap_eq]
  simp [List.foldl_map]

theorem mem_upper_pairs (n a b : Nat) :
    (a, b) ∈ upper_pairs n ↔ a < b ∧ b ≤ 2 * n + 1 := by
  simp only [upper_pairs, List.mem_flatMap, List.mem_map, List.mem_range, mem_range'_one,
    Prod.mk.injEq]
  constructor
  · rintro ⟨i, hi, j, hj, rfl, rfl⟩
    omega
  · intro h
    exact ⟨a, by omega, b, by omega, rfl, rfl⟩

theorem nodup_upper_pairs (n : Nat) : (upper_pairs n).Nodup := by
  unfold upper_pairs
  rw [List.nodup_flatMap]
  constructor
  · intro a _
    exact (List.nodup_range' _ _).map (fun x y h => by simpa using h)
  · refine (List.nodup_range _).imp ?_
    intro a b hab
    rw [Function.onFun, List.disjoint_left]
    intro p hp hq
    obtain ⟨_, _, rfl⟩ := List.mem_map.mp hp
    obtain ⟨_, _, h⟩ := List.mem_map.mp hq
    exact hab (by simpa using (congrArg Prod.fst h).symm)

theorem mem_tce_pairs (g : Graph) (a b : Nat) :
    (a, b) ∈ tce_pairs g ↔ a < b ∧ b ≤ 2 * g.n + 1 ∧ g.cost a b ≥ 0 ∧ g.cost b a ≥ 0 := by
  rw [tce_pairs, List.mem_filter, mem_upper_pairs]
  simp [and_assoc]

theorem nodup_tce_pairs (g : Graph) : (tce_pairs g).Nodup :=
  (nodup_upper_pairs _).filter _

theorem foldl_rows_counter {α : Type} (l : List α) (r : Row) (nm : α → RowName)
    (rows0 : List Row) :
    l.foldl (fun (s : List Row × Nat) a => (setName (s.1 ++ [r]) s.2 (nm a), s.2 + 1))
      (rows0, rows0.length) =
    (rows0 ++ l.map (fun a => { r with name := some (nm a) }), rows0.length + l.length) := by
  induction l generalizing rows0 with
  | nil => simp
  | cons a l ih =>
    simp only [List.foldl_cons, setName_append_last]
    have := ih (rows0 ++ [{ r with name := some (nm a) }])
    simp only [List.length_append, List.length_singleton] at this
    rw [this]
    simp
    omega

theorem two_cycles_rows_eq (g : Graph) (params : Params) :
    two_cycles_rows g params =
      if params.two_cycles_elim = true then
        (tce_pairs g).map (fun p => ⟨none, some 1, some (RowName.tce p.1 p.2)⟩)
      else [] := by
  unfold two_cycles_rows
  by_cases h : params.two_cycles_elim = true
  · rw [if_pos h, if_pos h]
    rw [foldl_tce_pairs g (fun (s : List Row × Nat) i j =>
      (setName (s.1 ++ [(⟨none, some 1, none⟩ : Row)]) s.2 (RowName.tce i j), s.2 + 1)) ([], 0)]
    have := foldl_rows_counter (tce_pairs g) ⟨none, some 1, none⟩
      (fun p => RowName.tce p.1 p.2) []
    simp only [List.length_nil, List.nil_append] at this
    rw [this]
  · rw [if_neg h, if_neg h]

/-- The 2-cycle stage of the column of `x_i_j`. -/
theorem x_column_tce_eq (g : Graph) (i j : Nat) (col : Column) :
    ((List.range (2 * g.n + 2)).foldl (fun s ii =>
      (List.range' (ii + 1) (2 * g.n + 1 - ii)).foldl (fun (s : Column × Nat) jj =>
        if g.cost ii jj ≥ 0 ∧ g.cost jj ii ≥ 0 then
          ((if (i = ii ∧ j = jj) ∨ (i = jj ∧ j = ii) then
              s.1 ++ [(RowRef.two_cycles_elimination s.2, 1)] else s.1), s.2 + 1)
        else s) s) (col, 0)).1 = col ++ x_column_tce g i j := by
  rw [foldl_tce_pairs g (fun (s : Column × Nat) ii jj =>
    ((if (i = ii ∧ j = jj) ∨ (i = jj ∧ j = ii) then
        s.1 ++ [(RowRef.two_cycles_elimination s.2, 1)] else s.1), s.2 + 1)) (col, 0)]
  have h := foldl_counter (tce_pairs g) (fun k (p : Nat × Nat) =>
    if (i = p.1 ∧ j = p.2) ∨ (i = p.2 ∧ j = p.1) then
      [(RowRef.two_cycles_elimination k, (1 : Int))] else []) col 0
  have e : (fun (s : Column × Nat) (p : Nat × Nat) =>
      ((if (i = p.1 ∧ j = p.2) ∨ (i = p.2 ∧ j = p.1) then
          s.1 ++ [(RowRef.two_cycles_elimination s.2, (1 : Int))] else s.1), s.2 + 1)) =
      (fun (s : Column × Nat) (p : Nat × Nat) =>
        (s.1 ++ (if (i = p.1 ∧ j = p.2) ∨ (i = p.2 ∧ j = p.1) then
          [(RowRef.two_cycles_elimination s.2, (1 : Int))] else []), s.2 + 1)) := by
    funext s p
    split <;> simp
  rw [e, h]
  rfl

/-- The column of `x_i_j` is its entries in the base rows, then its entries in the 2-cycle
rows when these are built, then entries in subpath and k-opt rows only. -/
theorem x_column_extends_tce (g : Graph) (params : Params) (i j : Nat) :
    Extends RowRef.is_after_tce
      (x_column_base g i j ++ (if params.two_cycles_elim = true then x_column_tce g i j else []))
      (x_column g params i j) := by
  unfold x_column
  simp only [x_column_base_eq, x_column_tce_eq]
  have e : (if params.two_cycles_elim = true then x_column_base g i j ++ x_column_tce g i j
      else x_column_base g i j) =
      x_column_base g i j ++ (if params.two_cycles_elim = true then x_column_tce g i j else []) := by
    split <;> simp
  rw [e]
  generalize x_column_base g i j ++
    (if params.two_cycles_elim = true then x_column_tce g i j else []) = c1
  have hsub : Extends RowRef.is_after_tce c1
      (if params.subpath_elim = true then
        ((List.range' 1 (2 * g.n)).foldl (fun s ii =>
          (List.range' 1 (2 * g.n)).foldl (fun s jj =>
            (List.range' 1 (2 * g.n)).foldl (fun (s : Column × Nat) kk =>
              if g.cost ii jj ≥ 0 ∧ g.cost jj kk ≥ 0 ∧ params.is_path_eliminable ii jj kk = true then
                ((if (i = ii ∧ j = jj) ∨ (i = jj ∧ j = kk) then
                    s.1 ++ [(RowRef.subpath_elimination s.2, 1)] else s.1), s.2 + 1)
              else s) s) s) (c1, 0)).1
      else c1) := by
    split
    · apply foldl_inv (fun s : Column × Nat => Extends RowRef.is_after_tce c1 s.1)
      · exact Extends.refl _ _
      · intro s ii hs
        apply foldl_inv (fun s : Column × Nat => Extends RowRef.is_after_tce c1 s.1)
        · exact hs
        · intro s jj hs
          apply foldl_inv (fun s : Column × Nat => Extends RowRef.is_after_tce c1 s.1)
          · exact hs
          · intro s kk hs
            split
            · split
              · exact hs.snoc _ _ trivial
              · exact hs
            · exact hs
    · exact Extends.refl _ _
  generalize (if params.subpath_elim = true then
        ((List.range' 1 (2 * g.n)).foldl (fun s ii =>
          (List.range' 1 (2 * g.n)).foldl (fun s jj =>
            (List.range' 1 (2 * g.n)).foldl (fun (s : Column × Nat) kk =>
              if g.cost ii jj ≥ 0 ∧ g.cost jj kk ≥ 0 ∧ params.is_path_eliminable ii jj kk = true then
                ((if (i = ii ∧ j = jj) ∨ (i = jj ∧ j = kk) then
                    s.1 ++ [(RowRef.subpath_elimination s.2, 1)] else s.1), s.2 + 1)
              else s) s) s) (c1, 0)).1
      else c1) = c2 at hsub ⊢
  split
  · exact hsub.snoc _ _ trivial
  · exact hsub

theorem coef_x_column_base_tce (g : Graph) (i j k : Nat) :
    coef (x_column_base g i j) (RowRef.two_cycles_elimination k) = 0 := by
  apply coef_eq_zero
  intro e he
  unfold x_column_base at he
  simp only [List.mem_append, List.mem_flatMap] at he
  rcases he with (he | he) | ⟨q, _, he⟩
  · split at he
    · simp only [List.mem_singleton] at he
      subst he
      simp
    · simp at he
  · split at he
    · simp only [List.mem_singleton] at he
      subst he
      simp
    · simp at he
  · simp only [List.mem_cons, List.mem_singleton, List.not_mem_nil, or_false] at he
    rcases he with rfl | rfl <;> simp

theorem coef_x_column_tce (g : Graph) (i j k : Nat) :
    coef (x_column_tce g i j) (RowRef.two_cycles_elimination k) =
      (((tce_pairs g)[k]?).map (fun p =>
        if (i = p.1 ∧ j = p.2) ∨ (i = p.2 ∧ j = p.1) then (1 : Int) else 0)).getD 0 := by
  unfold x_column_tce
  rw [coef_flatMap]
  have h := sum_enumFrom_select (tce_pairs g) 0 k (fun p =>
    if (i = p.1 ∧ j = p.2) ∨ (i = p.2 ∧ j = p.1) then (1 : Int) else 0)
  simp only [Nat.zero_le, if_true, Nat.sub_zero] at h
  rw [← h]
  congr 1
  apply List.map_congr_left
  intro q _
  by_cases hc : (i = q.2.1 ∧ j = q.2.2) ∨ (i = q.2.2 ∧ j = q.2.1)
  · by_cases hq : q.1 = k
    · simp [hc, hq, coef_cons, coef_nil]
    · simp [hc, hq, coef_cons, coef_nil]
  · simp [hc, coef_nil]

/-- The coefficient of `x_i_j` in the `k`-th 2-cycle row. -/
theorem coef_x_two_cycles (g : Graph) (params : Params) (i j k : Nat) :
    coef (x_column g params i j) (RowRef.two_cycles_elimination k) =
      if params.two_cycles_elim = true then
        (((tce_pairs g)[k]?).map (fun p =>
          if (i = p.1 ∧ j = p.2) ∨ (i = p.2 ∧ j = p.1) then (1 : Int) else 0)).getD 0
      else 0 := by
  obtain ⟨ext, h, hext⟩ := x_column_extends_tce g params i j
  rw [h, coef_append, coef_append, coef_x_column_base_tce, zero_add,
    coef_eq_zero ext _ (by
      intro e he heq
      have := hext e he
      rw [heq] at this
      exact this), add_zero]
  split
  · exact coef_x_column_tce g i j k
  · rfl

theorem coef_y_two_cycles (g : Graph) (i j k : Nat) :
    coef (y_column g i j) (RowRef.two_cycles_elimination k) = 0 :=
  coef_y_other g i j _ (by simp) (by simp) (by simp) (by simp)

/-- C16. When `bc.two_cycles_elim` is set, the 2-cycle rows of the model builder are, in
order, one row `-∞ <= . <= 1` named `tce_i_j` for each pair of `tce_pairs g`, and these
pairs are, without repetition, the pairs `i < j` of nodes `0..2n+1` with `C[i][j] >= 0`
and `C[j][i] >= 0`: every unordered pair of distinct nodes with both arcs allowed has
exactly one row. In the `k`-th row, of the pair `(a, b)`, the x variables of the arcs
`(a, b)` and `(b, a)` have coefficient 1, every other x variable and every y variable has
coefficient 0, so the row is `x(a,b) + x(b,a) <= 1`; the index `k` at which the columns
add their coefficient is the index of the row. -/
theorem two_cycle_rows_of_allowed_pairs (g : Graph) (params : Params)
    (h2 : params.two_cycles_elim = true) :
    (setup_model g params).two_cycles_elimination =
      (tce_pairs g).map (fun p => ⟨none, some 1, some (RowName.tce p.1 p.2)⟩) ∧
    (tce_pairs g).Nodup ∧
    (∀ a b : Nat, (a, b) ∈ tce_pairs g ↔
      a < b ∧ b ≤ 2 * g.n + 1 ∧ g.cost a b ≥ 0 ∧ g.cost b a ≥ 0) ∧
    (∀ i j : Nat, i ≠ j → i ≤ 2 * g.n + 1 → j ≤ 2 * g.n + 1 → g.cost i j ≥ 0 →
      g.cost j i ≥ 0 →
      ∃ k : Nat,
        (setup_model g params).two_cycles_elimination[k]? =
          some ⟨none, some 1, some (RowName.tce (min i j) (max i j))⟩ ∧
        ∀ (k' : Nat) (row : Row),
          (setup_model g params).two_cycles_elimination[k']? = some row →
          (row.name = some (RowName.tce i j) ∨ row.name = some (RowName.tce j i)) → k' = k) ∧
    (∀ k a b : Nat, (tce_pairs g)[k]? = some (a, b) →
      (∀ v ∈ (setup_model g params).variables_x,
        coef v.col (RowRef.two_cycles_elimination k) =
          if v.name = (a, b) ∨ v.name = (b, a) then 1 else 0) ∧
      (∀ v ∈ (setup_model g params).variables_y,
        coef v.col (RowRef.two_cycles_elimination k) = 0) ∧
      (∃ v ∈ (setup_model g params).variables_x, v.name = (a, b)) ∧
      (∃ v ∈ (setup_model g params).variables_x, v.name = (b, a)) ∧
      (∀ xv yv : Nat → Nat → Int,
        (setup_model g params).row_value xv yv (RowRef.two_cycles_elimination k) =
          xv a b + xv b a)) := by
  have hrows : (setup_model g params).two_cycles_elimination =
      (tce_pairs g).map (fun p => ⟨none, some 1, some (RowName.tce p.1 p.2)⟩) := by
    simp [setup_model, two_cycles_rows_eq, h2]
  refine ⟨hrows, nodup_tce_pairs g, mem_tce_pairs g, ?_, ?_⟩
  · intro i j hij hi hj hcij hcji
    have hmem : (min i j, max i j) ∈ tce_pairs g := by
      rw [mem_tce_pairs]
      rcases Nat.lt_or_gt_of_ne hij with h | h
      · rw [Nat.min_eq_left h.le, Nat.max_eq_right h.le]
        exact ⟨h, hj, hcij, hcji⟩
      · rw [Nat.min_eq_right h.le, Nat.max_eq_left h.le]
        exact ⟨h, hi, hcji, hcij⟩
    obtain ⟨k, hk⟩ := List.mem_iff_getElem?.mp hmem
    refine ⟨k, by simp [hrows, List.getElem?_map, hk], ?_⟩
    intro k' row hrow hname
    rw [hrows, List.getElem?_map] at hrow
    cases hk' : (tce_pairs g)[k']? with
    | none => simp [hk'] at hrow
    | some p =>
      obtain ⟨a, b⟩ := p
      simp only [hk', Option.map_some', Option.some.injEq] at hrow
      subst hrow
      have hab := (mem_tce_pairs g a b).mp (List.getElem?_mem hk')
      have hp : (a, b) = (min i j, max i j) := by
        rcases hname with hn | hn <;> simp at hn <;> obtain ⟨rfl, rfl⟩ := hn
        · rw [Nat.min_eq_left hab.1.le, Nat.max_eq_right hab.1.le]
        · rw [Nat.min_eq_right hab.1.le, Nat.max_eq_left hab.1.le]
      rw [hp] at hk'
      obtain ⟨h1, e1⟩ := List.getElem?_eq_some_iff.mp hk'
      obtain ⟨h2, e2⟩ := List.getElem?_eq_some_iff.mp hk
      exact (List.Nodup.getElem_inj_iff (nodup_tce_pairs g)).mp (e1.trans e2.symm)
  · intro k a b hk
    have hab := (mem_tce_pairs g a b).mp (List.getElem?_mem hk)
    have hne : a ≠ b := by omega
    have hm1 : (a, b) ∈ arcs g := (mem_arcs g a b).mpr ⟨by omega, hab.2.1, hab.2.2.1⟩
    have hm2 : (b, a) ∈ arcs g := (mem_arcs g b a).mpr ⟨hab.2.1, by omega, hab.2.2.2⟩
    have hcoef : ∀ p : Nat × Nat,
        coef (x_column g params p.1 p.2) (RowRef.two_cycles_elimination k) =
          (if p = (a, b) then 1 else 0) + (if p = (b, a) then 1 else 0) := by
      intro p
      obtain ⟨c, d⟩ := p
      rw [coef_x_two_cycles, if_pos h2, hk]
      simp only [Option.map_some', Option.getD_some, Prod.mk.injEq]
      by_cases h1 : c = a ∧ d = b
      · obtain ⟨rfl, rfl⟩ := h1
        have : ¬ (c = d ∧ d = c) := fun h => hne h.1
        simp [this]
      · by_cases h3 : c = b ∧ d = a
        · obtain ⟨rfl, rfl⟩ := h3
          simp [h1]
        · simp [h1, h3]
    refine ⟨?_, ?_, ?_, ?_, ?_⟩
    · intro v hv
      obtain ⟨p, _, rfl⟩ := (mem_variables_x g params v).mp hv
      have := hcoef p
      obtain ⟨c, d⟩ := p
      simp only [x_var] at this ⊢
      rw [this]
      by_cases h1 : (c, d) = (a, b)
      · have h3 : ¬ (c, d) = (b, a) := by
          rw [h1]
          intro h
          exact hne (congrArg Prod.fst h)
        rw [if_pos h1, if_neg h3, if_pos (Or.inl h1)]
        rfl
      · by_cases h3 : (c, d) = (b, a)
        · rw [if_neg h1, if_pos h3, if_pos (Or.inr h3)]
          rfl
        · rw [if_neg h1, if_neg h3, if_neg (not_or.mpr ⟨h1, h3⟩)]
          rfl
    · intro v hv
      obtain ⟨p, _, rfl⟩ := (mem_variables_y g v).mp hv
      exact coef_y_two_cycles g p.1 p.2 k
    · exact ⟨x_var g params (a, b), (mem_variables_x g params _).mpr ⟨(a, b), hm1, rfl⟩, rfl⟩
    · exact ⟨x_var g params (b, a), (mem_variables_x g params _).mpr ⟨(b, a), hm2, rfl⟩, rfl⟩
    · intro xv yv
      rw [row_value_eq]
      simp only [hcoef, coef_y_two_cycles, zero_mul, List.map_const', List.sum_replicate,
        smul_zero, add_zero, add_mul]
      rw [List.sum_map_add]
      have s1 := sum_select (arcs g) (nodup_arcs g) (a, b) (fun p => xv p.1 p.2)
      have s2 := sum_select (arcs g) (nodup_arcs g) (b, a) (fun p => xv p.1 p.2)
      rw [if_pos hm1] at s1
      rw [if_pos hm2] at s2
      simp only [ite_mul, one_mul, zero_mul]
      rw [s1, s2]

theorem two_cycle_rows_of_allowed_pairs_witness :
    params_tce.two_cycles_elim = true ∧
    tce_pairs graph1 = [(1, 2)] ∧
    (setup_model graph1 params_tce).two_cycles_elimination =
      (tce_pairs graph1).map (fun p => ⟨none, some 1, some (RowName.tce p.1 p.2)⟩) ∧
    (∀ xv yv : Nat → Nat → Int,
      (setup_model graph1 params_tce).row_value xv yv (RowRef.two_cycles_elimination 0) =
        xv 1 2 + xv 2 1) :=
  have h := two_cycle_rows_of_allowed_pairs graph1 params_tce rfl
  ⟨rfl, by decide, h.1, (h.2.2.2.2 0 1 2 (by decide)).2.2.2.2⟩

/-! ## The arc vector and the loads of a tour in the rows of the base model -/

theorem tour_mem (g : Graph) (p : List Nat) (hp : is_tour g p) (v : Nat)
    (hv : v ≤ 2 * g.n + 1) : v ∈ p := by
  have hsub : p ⊆ List.range (2 * g.n + 2) := by
    intro a ha
    have := hp.2.2.1 a ha
    exact List.mem_range.mpr (by omega)
  have hperm : List.Perm p (List.range (2 * g.n + 2)) :=
    (List.subperm_of_subset hp.2.1 hsub).perm_of_length_le (by rw [List.length_range, hp.1])
  exact hperm.mem_iff.mpr (List.mem_range.mpr (by omega))

theorem indexOf_of_get (p : List Nat) (hp : p.Nodup) (k a : Nat) (h : p[k]? = some a) :
    p.indexOf a = k :=
  nodup_index_unique p hp _ _ a (List.getElem?_indexOf (List.getElem?_mem h)) h

theorem tour_position (g : Graph) (p : List Nat) (hp : is_tour g p) (v : Nat)
    (hv : v ≤ 2 * g.n + 1) : p[p.indexOf v]? = some v ∧ p.indexOf v ≤ 2 * g.n + 1 := by
  have hmem := tour_mem g p hp v hv
  have := List.indexOf_lt_length.mpr hmem
  rw [hp.1] at this
  exact ⟨List.getElem?_indexOf hmem, by omega⟩

theorem tour_getD (p : List Nat) (k a : Nat) (h : p[k]? = some a) : p.getD k 0 = a := by
  rw [List.getD_eq_getElem?_getD, h]
  rfl

theorem tour_y_on (g : Graph) (p : List Nat) (hp : p.Nodup) (k a b : Nat)
    (h1 : p[k]? = some a) (h2 : p[k + 1]? = some b) : tour_y g p a b = load_after g p k := by
  unfold tour_y
  rw [if_pos ((mem_tour_arcs_iff p a b).mpr ⟨k, h1, h2⟩), indexOf_of_get p hp k a h1]

theorem tour_x_on (p : List Nat) (k a b : Nat)
    (h1 : p[k]? = some a) (h2 : p[k + 1]? = some b) : tour_x p a b = 1 := by
  unfold tour_x
  rw [if_pos ((mem_tour_arcs_iff p a b).mpr ⟨k, h1, h2⟩)]

/-- The sum over the arcs leaving a node of a tour, of values that vanish off the tour, is
the value on the arc of the tour that leaves the node. -/
theorem out_sum_of_tour (g : Graph) (p : List Nat) (hp : is_tour g p) (f : Nat → Nat → Int)
    (hoff : ∀ a b : Nat, (a, b) ∉ tour_arcs p → f a b = 0) (k a b : Nat)
    (h1 : p[k]? = some a) (h2 : p[k + 1]? = some b) :
    ((arcs g).map (fun q => if q.1 = a then f q.1 q.2 else 0)).sum = f a b := by
  have hmem : (a, b) ∈ tour_arcs p := (mem_tour_arcs_iff p a b).mpr ⟨k, h1, h2⟩
  rw [sum_single (arcs g) (nodup_arcs g) (a, b) (tour_arc_mem_arcs g p hp a b hmem)]
  · simp
  · intro q _ hne
    by_cases hq1 : q.1 = a
    · simp only [hq1, if_true]
      apply hoff
      intro hin
      exact hne (Prod.ext hq1 (tour_succ_unique p hp.2.1 k a b q.2 h1 h2 hin))
    · simp [hq1]

/-- The sum over the arcs entering a node of a tour, of values that vanish off the tour,
is the value on the arc of the tour that enters the node. -/
theorem in_sum_of_tour (g : Graph) (p : List Nat) (hp : is_tour g p) (f : Nat → Nat → Int)
    (hoff : ∀ a b : Nat, (a, b) ∉ tour_arcs p → f a b = 0) (k a b : Nat)
    (h1 : p[k]? = some a) (h2 : p[k + 1]? = some b) :
    ((arcs g).map (fun q => if q.2 = b then f q.1 q.2 else 0)).sum = f a b := by
  have hmem : (a, b) ∈ tour_arcs p := (mem_tour_arcs_iff p a b).mpr ⟨k, h1, h2⟩
  rw [sum_single (arcs g) (nodup_arcs g) (a, b) (tour_arc_mem_arcs g p hp a b hmem)]
  · simp
  · intro q _ hne
    by_cases hq2 : q.2 = b
    · simp only [hq2, if_true]
      apply hoff
      intro hin
      exact hne (Prod.ext (tour_pred_unique p hp.2.1 k a b q.1 h1 h2 hin) hq2)
    · simp [hq2]

theorem tour_x_off (p : List Nat) (a b : Nat) (h : (a, b) ∉ tour_arcs p) : tour_x p a b = 0 := by
  unfold tour_x
  rw [if_neg h]

theorem tour_y_off (g : Graph) (p : List Nat) (a b : Nat) (h : (a, b) ∉ tour_arcs p) :
    tour_y g p a b = 0 := by
  unfold tour_y
  rw [if_neg h]

theorem row_value_outdegree (g : Graph) (params : Params) (xv yv : Nat → Nat → Int)
    (i : Nat) (hi : i ≤ 2 * g.n) :
    (setup_model g params).row_value xv yv (RowRef.outdegree i) =
      ((arcs g).map (fun q => if q.1 = i then xv q.1 q.2 else 0)).sum := by
  rw [row_value_eq]
  have hy : ∀ q : Nat × Nat, coef (y_column g q.1 q.2) (RowRef.outdegree i) = 0 :=
    fun q => coef_y_other g q.1 q.2 _ (by simp) (by simp) (by simp) (by simp)
  simp only [hy, zero_mul, List.map_const', List.sum_replicate, smul_zero, add_zero,
    coef_x_outdegree]
  congr 1
  apply List.map_congr_left
  intro q _
  have e : (q.1 ≤ 2 * g.n ∧ q.1 = i) ↔ q.1 = i := by omega
  simp only [e]
  by_cases h : q.1 = i <;> simp [h]

theorem row_value_indegree (g : Graph) (params : Params) (xv yv : Nat → Nat → Int)
    (j : Nat) (h1 : 1 ≤ j) (h2 : j ≤ 2 * g.n + 1) :
    (setup_model g params).row_value xv yv (RowRef.indegree (j - 1)) =
      ((arcs g).map (fun q => if q.2 = j then xv q.1 q.2 else 0)).sum := by
  rw [row_value_eq]
  have hy : ∀ q : Nat × Nat, coef (y_column g q.1 q.2) (RowRef.indegree (j - 1)) = 0 :=
    fun q => coef_y_other g q.1 q.2 _ (by simp) (by simp) (by simp) (by simp)
  simp only [hy, zero_mul, List.map_const', List.sum_replicate, smul_zero, add_zero,
    coef_x_indegree]
  congr 1
  apply List.map_congr_left
  intro q _
  have e : (1 ≤ q.2 ∧ q.2 ≤ 2 * g.n + 1 ∧ q.2 - 1 = j - 1) ↔ q.2 = j := by omega
  simp only [e]
  by_cases h : q.2 = j <;> simp [h]

theorem tour_not_last (g : Graph) (p : List Nat) (hp : is_tour g p) (v : Nat)
    (hv : v ≤ 2 * g.n) : p.indexOf v ≤ 2 * g.n := by
  obtain ⟨h1, h2⟩ := tour_position g p hp v (by omega)
  by_contra hc
  have hk : p.indexOf v = 2 * g.n + 1 := by omega
  rw [hk, tour_last g p hp] at h1
  have := Option.some.inj h1
  omega

theorem tour_not_first (g : Graph) (p : List Nat) (hp : is_tour g p) (v : Nat)
    (h1 : 1 ≤ v) (hv : v ≤ 2 * g.n + 1) : 1 ≤ p.indexOf v := by
  obtain ⟨h2, _⟩ := tour_position g p hp v hv
  by_contra hc
  have hk : p.indexOf v = 0 := by omega
  rw [hk, tour_first g p hp] at h2
  have := Option.some.inj h2
  omega

/-- The load on an arc of a tour whose loads fit the links. -/
theorem loads_fit_at (g : Graph) (p : List Nat) (hfit : loads_fit_links g p) (k a b : Nat)
    (hk : k ≤ 2 * g.n) (h1 : p[k]? = some a) (h2 : p[k + 1]? = some b) :
    alpha g a b ≤ load_after g p k ∧ load_after g p k ≤ beta g a b ∧
    0 ≤ load_after g p k ∧ load_after g p k ≤ g.capacity := by
  have := hfit k (List.mem_range.mpr (by omega))
  rwa [tour_getD p k a h1, tour_getD p (k + 1) b h2] at this

theorem tour_arc_position (g : Graph) (p : List Nat) (hp : is_tour g p) (a b : Nat)
    (h : (a, b) ∈ tour_arcs p) :
    ∃ k : Nat, k ≤ 2 * g.n ∧ p[k]? = some a ∧ p[k + 1]? = some b := by
  obtain ⟨k, h1, h2⟩ := (mem_tour_arcs_iff p a b).mp h
  have hlt : k + 1 < p.length := (List.getElem?_eq_some_iff.mp h2).1
  rw [hp.1] at hlt
  exact ⟨k, by omega, h1, h2⟩

/-- The arc vector of a Hamiltonian path from `0` to `2n+1` over allowed arcs, with the
loads of the path, satisfies the rows and the bounds of the base model as soon as the load
on every arc of the path fits the coefficients of the arc and `[0, Q]`. -/
theorem tour_base_rows_hold (g : Graph) (params : Params) (p : List Nat) (hp : is_tour g p)
    (hfit : loads_fit_links g p) :
    (setup_model g params).base_rows_hold (tour_x p) (tour_y g p) := by
  have hxoff := tour_x_off p
  have hyoff := tour_y_off g p
  refine ⟨?_, ?_, ?_, ?_, ?_, ?_, ?_, ?_⟩
  · rw [rows_hold_iff]
    intro idx row hrow
    have hrow' : (outdegree_rows g)[idx]? = some row := hrow
    rw [outdegree_rows_eq, List.getElem?_map] at hrow'
    cases hidx : (List.range (2 * g.n + 1))[idx]? with
    | none => simp [hidx] at hrow'
    | some i =>
      obtain ⟨hlt, hi⟩ := List.getElem?_eq_some_iff.mp hidx
      simp only [List.length_range] at hlt
      simp only [List.getElem_range] at hi
      subst hi
      simp only [hidx, Option.map_some', Option.some.injEq] at hrow'
      subst hrow'
      obtain ⟨hpos, _⟩ := tour_position g p hp idx (by omega)
      have hk := tour_not_last g p hp idx (by omega)
      obtain ⟨b, hb⟩ := tour_get g p hp (p.indexOf idx + 1) (by omega)
      rw [row_value_outdegree g params _ _ idx (by omega),
        out_sum_of_tour g p hp (tour_x p) hxoff _ idx b hpos hb, tour_x_on p _ idx b hpos hb]
      simp [Row.holds, lower_ok, upper_ok]
  · rw [rows_hold_iff]
    intro idx row hrow
    have hrow' : (indegree_rows g)[idx]? = some row := hrow
    rw [indegree_rows_eq, List.getElem?_map] at hrow'
    cases hidx : (List.range' 1 (2 * g.n + 1))[idx]? with
    | none => simp [hidx] at hrow'
    | some j =>
      obtain ⟨hlt, hj⟩ := List.getElem?_eq_some_iff.mp hidx
      simp only [List.length_range'] at hlt
      simp only [List.getElem_range', one_mul] at hj
      subst hj
      simp only [hidx, Option.map_some', Option.some.injEq] at hrow'
      subst hrow'
      obtain ⟨hpos, _⟩ := tour_position g p hp (1 + idx) (by omega)
      have hk := tour_not_first g p hp (1 + idx) (by omega) (by omega)
      obtain ⟨c, hc⟩ := tour_get g p hp (p.indexOf (1 + idx) - 1) (by omega)
      have hpos' : p[p.indexOf (1 + idx) - 1 + 1]? = some (1 + idx) := by
        rw [Nat.sub_add_cancel hk]
        exact hpos
      have hrv := row_value_indegree g params (tour_x p) (tour_y g p) (1 + idx) (by omega)
        (by omega)
      rw [show 1 + idx - 1 = idx by omega] at hrv
      rw [hrv, in_sum_of_tour g p hp (tour_x p) hxoff _ c (1 + idx) hc hpos',
        tour_x_on p _ c (1 + idx) hc hpos']
      simp [Row.holds, lower_ok, upper_ok]
  · rw [rows_hold_iff]
    intro idx row hrow
    have hlen : idx < 2 * g.n := by
      have h1 := (List.getElem?_eq_some_iff.mp hrow).1
      have h2 : (setup_model g params).load.length = 2 * g.n := by
        simp [setup_model, load_rows_eq]
      omega
    have hget := load_row_get g params (idx + 1) (by omega) (by omega)
    rw [show idx + 1 - 1 = idx by omega, hrow] at hget
    have hrow' := Option.some.inj hget
    subst hrow'
    obtain ⟨hpos, _⟩ := tour_position g p hp (idx + 1) (by omega)
    have hk1 := tour_not_first g p hp (idx + 1) (by omega) (by omega)
    have hk2 := tour_not_last g p hp (idx + 1) (by omega)
    obtain ⟨c, hc⟩ := tour_get g p hp (p.indexOf (idx + 1) - 1) (by omega)
    obtain ⟨b, hb⟩ := tour_get g p hp (p.indexOf (idx + 1) + 1) (by omega)
    have hpos' : p[p.indexOf (idx + 1) - 1 + 1]? = some (idx + 1) := by
      rw [Nat.sub_add_cancel hk1]
      exact hpos
    have hrv := row_value_load g params (tour_x p) (tour_y g p) (idx + 1) (by omega) (by omega)
    rw [show idx + 1 - 1 = idx by omega] at hrv
    rw [hrv, out_sum_of_tour g p hp (tour_y g p) hyoff _ (idx + 1) b hpos hb,
      in_sum_of_tour g p hp (tour_y g p) hyoff _ c (idx + 1) hc hpos',
      tour_y_on g p hp.2.1 _ (idx + 1) b hpos hb, tour_y_on g p hp.2.1 _ c (idx + 1) hc hpos']
    have hs := load_after_succ g p (p.indexOf (idx + 1) - 1) (idx + 1) hpos'
    rw [Nat.sub_add_cancel hk1] at hs
    simp only [Row.holds, lower_ok, upper_ok]
    omega
  · rw [rows_hold_iff]
    intro idx row hrow
    have hrow' : initial_load_rows[idx]? = some row := hrow
    rw [initial_load_rows_eq] at hrow'
    have hidx : idx = 0 := by
      have := (List.getElem?_eq_some_iff.mp hrow').1
      simpa using this
    subst hidx
    simp only [List.getElem?_cons_zero, Option.some.injEq] at hrow'
    subst hrow'
    obtain ⟨b, hb⟩ := tour_get g p hp 1 (by omega)
    rw [row_value_initial_load,
      out_sum_of_tour g p hp (tour_y g p) hyoff 0 0 b (tour_first g p hp) hb,
      tour_y_on g p hp.2.1 0 0 b (tour_first g p hp) hb, load_after_zero]
    simp [Row.holds, lower_ok, upper_ok]
  · rw [rows_hold_iff]
    intro idx row hrow
    simp only [setup_model, y_rows_eq, List.getElem?_map] at hrow
    cases hidx : (arcs g)[idx]? with
    | none => simp [hidx] at hrow
    | some q =>
      obtain ⟨a, b⟩ := q
      simp only [hidx, Option.map_some', Option.some.injEq] at hrow
      subst hrow
      rw [row_value_y_lower g params _ _ idx a b hidx]
      simp only [Row.holds, lower_ok, upper_ok, true_and]
      by_cases hon : (a, b) ∈ tour_arcs p
      · obtain ⟨k, hk, h1, h2⟩ := tour_arc_position g p hp a b hon
        rw [tour_x_on p k a b h1 h2, tour_y_on g p hp.2.1 k a b h1 h2]
        have := (loads_fit_at g p hfit k a b hk h1 h2).1
        omega
      · rw [hxoff a b hon, hyoff a b hon]
        simp
  · rw [rows_hold_iff]
    intro idx row hrow
    simp only [setup_model, y_rows_eq, List.getElem?_map] at hrow
    cases hidx : (arcs g)[idx]? with
    | none => simp [hidx] at hrow
    | some q =>
      obtain ⟨a, b⟩ := q
      simp only [hidx, Option.map_some', Option.some.injEq] at hrow
      subst hrow
      rw [row_value_y_upper g params _ _ idx a b hidx]
      simp only [Row.holds, lower_ok, upper_ok, and_true]
      by_cases hon : (a, b) ∈ tour_arcs p
      · obtain ⟨k, hk, h1, h2⟩ := tour_arc_position g p hp a b hon
        rw [tour_x_on p k a b h1 h2, tour_y_on g p hp.2.1 k a b h1 h2]
        have := (loads_fit_at g p hfit k a b hk h1 h2).2.1
        omega
      · rw [hxoff a b hon, hyoff a b hon]
        simp
  · intro v hv
    obtain ⟨q, _, rfl⟩ := (mem_variables_x g params v).mp hv
    simp only [x_var, tour_x]
    split <;> simp
  · intro v hv
    obtain ⟨⟨a, b⟩, _, rfl⟩ := (mem_variables_y g v).mp hv
    simp only [y_var]
    have hQ : 0 ≤ g.capacity := by
      have := (hfit 0 (List.mem_range.mpr (by omega))).2.2.2
      rwa [load_after_zero] at this
    by_cases hon : (a, b) ∈ tour_arcs p
    · obtain ⟨k, hk, h1, h2⟩ := tour_arc_position g p hp a b hon
      rw [tour_y_on g p hp.2.1 k a b h1 h2]
      have := (loads_fit_at g p hfit k a b hk h1 h2).2.2
      exact this
    · rw [hyoff a b hon]
      exact ⟨le_refl _, hQ⟩

/-! ## The load of a feasible tour is what is on board -/

theorem tour_position_iff (g : Graph) (p : List Nat) (hp : is_tour g p) (k v w : Nat)
    (hw : w ≤ 2 * g.n + 1) (hv : p[k]? = some v) : p.indexOf w = k ↔ w = v := by
  constructor
  · intro h
    have := (tour_position g p hp w hw).1
    rw [h, hv] at this
    exact (Option.some.inj this).symm
  · intro h
    subst h
    exact indexOf_of_get p hp.2.1 k w hv

theorem sum_map_add_select (l : List Nat) (hl : l.Nodup) (f h : Nat → Int) (c : Nat) (d : Int)
    (hc : c ∈ l) (hterm : ∀ j ∈ l, f j = h j + (if j = c then d else 0)) :
    (l.map f).sum = (l.map h).sum + d := by
  rw [List.map_congr_left hterm, List.sum_map_add, sum_select l hl c (fun _ => d), if_pos hc]

/-- On a tour on which every pickup precedes its delivery, the load after the `k`-th node
is the sum of the demands of the requests picked up and not yet delivered. -/
theorem load_after_onboard (g : Graph) (p : List Nat) (hinv : data_model_invariants g)
    (hp : is_tour g p)
    (hprec : ∀ i ∈ List.range' 1 g.n, p.indexOf i < p.indexOf (g.n + i)) (k : Nat)
    (hk : k ≤ 2 * g.n + 1) :
    load_after g p k =
      ((List.range' 1 g.n).map (fun i =>
        if p.indexOf i ≤ k ∧ k < p.indexOf (g.n + i) then g.demand i else 0)).sum := by
  induction k with
  | zero =>
    rw [load_after_zero]
    symm
    apply List.sum_eq_zero
    intro x hx
    obtain ⟨i, hi, rfl⟩ := List.mem_map.mp hx
    rw [mem_range'_one] at hi
    have := tour_not_first g p hp i (by omega) (by omega)
    rw [if_neg (by omega)]
  | succ k ih =>
    obtain ⟨v, hv⟩ := tour_get g p hp (k + 1) hk
    rw [load_after_succ g p k v hv, ih (by omega)]
    have hvle : v ≤ 2 * g.n + 1 := hp.2.2.1 v (List.getElem?_mem hv)
    have hv0 : v ≠ 0 := by
      intro e
      subst e
      have := nodup_index_unique p hp.2.1 (k + 1) 0 0 hv (tour_first g p hp)
      omega
    have hpos : ∀ w : Nat, w ≤ 2 * g.n + 1 → (p.indexOf w = k + 1 ↔ w = v) :=
      fun w hw => tour_position_iff g p hp (k + 1) v w hw hv
    have hsame : ∀ j : Nat, 1 ≤ j → j ≤ g.n → j ≠ v → g.n + j ≠ v →
        (if p.indexOf j ≤ k + 1 ∧ k + 1 < p.indexOf (g.n + j) then g.demand j else 0) =
        (if p.indexOf j ≤ k ∧ k < p.indexOf (g.n + j) then g.demand j else 0) := by
      intro j h1 h2 h3 h4
      have e1 : p.indexOf j ≠ k + 1 := fun e => h3 ((hpos j (by omega)).mp e)
      have e2 : p.indexOf (g.n + j) ≠ k + 1 := fun e => h4 ((hpos (g.n + j) (by omega)).mp e)
      have e : (p.indexOf j ≤ k + 1 ∧ k + 1 < p.indexOf (g.n + j)) ↔
          (p.indexOf j ≤ k ∧ k < p.indexOf (g.n + j)) := by omega
      simp only [e]
    by_cases hpick : v ≤ g.n
    · symm
      apply sum_map_add_select _ (List.nodup_range' _ _) _ _ v (g.demand v)
        ((mem_range'_one 1 g.n v).mpr (by omega))
      intro j hj
      have hj' := (mem_range'_one 1 g.n j).mp hj
      by_cases hjv : j = v
      · subst hjv
        have e1 := (hpos j (by omega)).mpr rfl
        have e2 := hprec j hj
        rw [if_pos ⟨by omega, by omega⟩, if_neg (by omega), if_pos rfl, zero_add]
      · rw [hsame j hj'.1 (by omega) hjv (by omega), if_neg hjv, add_zero]
    · by_cases hdel : v ≤ 2 * g.n
      · have hc : v - g.n ∈ List.range' 1 g.n := (mem_range'_one 1 g.n _).mpr (by omega)
        have hq := ((hinv.2.2.1) (v - g.n) hc).2.1
        rw [show g.n + (v - g.n) = v by omega] at hq
        symm
        apply sum_map_add_select _ (List.nodup_range' _ _) _ _ (v - g.n) (g.demand v) hc
        intro j hj
        have hj' := (mem_range'_one 1 g.n j).mp hj
        by_cases hjv : j = v - g.n
        · subst hjv
          have e1 := (hpos (g.n + (v - g.n)) (by omega)).mpr (by omega)
          have e2 := hprec (v - g.n) hj
          rw [if_neg (by omega), if_pos ⟨by omega, by omega⟩, if_pos rfl, hq]
          omega
        · rw [hsame j hj'.1 (by omega) (by omega) (by omega), if_neg hjv, add_zero]
      · have hvs : v = 2 * g.n + 1 := by omega
        rw [hvs, hinv.2.1, add_zero]
        apply congrArg
        apply List.map_congr_left
        intro j hj
        have hj' := (mem_range'_one 1 g.n j).mp hj
        exact (hsame j hj'.1 (by omega) (by omega) (by omega)).symm

/-- A request that is on board after the `k`-th node of the tour is part of the load. -/
theorem onboard_le_load (g : Graph) (p : List Nat) (hinv : data_model_invariants g)
    (hp : is_tour g p)
    (hprec : ∀ i ∈ List.range' 1 g.n, p.indexOf i < p.indexOf (g.n + i)) (k c : Nat)
    (hk : k ≤ 2 * g.n + 1) (hc : c ∈ List.range' 1 g.n)
    (hon : p.indexOf c ≤ k ∧ k < p.indexOf (g.n + c)) : g.demand c ≤ load_after g p k := by
  rw [load_after_onboard g p hinv hp hprec k hk]
  have hnonneg : ∀ x ∈ (List.range' 1 g.n).map (fun i =>
      if p.indexOf i ≤ k ∧ k < p.indexOf (g.n + i) then g.demand i else 0), 0 ≤ x := by
    intro x hx
    obtain ⟨i, hi, rfl⟩ := List.mem_map.mp hx
    have := (hinv.2.2.1 i hi).1
    split
    · omega
    · exact le_refl _
  refine List.single_le_sum hnonneg _ (List.mem_map.mpr ⟨c, hc, ?_⟩)
  rw [if_pos hon]

/-- On a feasible tour of an instance with the data-model invariants, the load on every
arc fits the coefficients alpha and beta of the arc and `[0, Q]`. -/
theorem feasible_tour_loads_fit (g : Graph) (p : List Nat) (hinv : data_model_invariants g)
    (hp : feasible_tour g p) : loads_fit_links g p := by
  obtain ⟨htour, hprec, hload⟩ := hp
  intro k hk
  have hk' : k ≤ 2 * g.n := by
    have := List.mem_range.mp hk
    omega
  obtain ⟨a, ha⟩ := tour_get g p htour k (by omega)
  obtain ⟨b, hb⟩ := tour_get g p htour (k + 1) (by omega)
  rw [tour_getD p k a ha, tour_getD p (k + 1) b hb]
  have hale : a ≤ 2 * g.n + 1 := htour.2.2.1 a (List.getElem?_mem ha)
  have hble : b ≤ 2 * g.n + 1 := htour.2.2.1 b (List.getElem?_mem hb)
  have hposa := indexOf_of_get p htour.2.1 k a ha
  have hposb := indexOf_of_get p htour.2.1 (k + 1) b hb
  have hfk := hload k (List.mem_range.mpr (by omega))
  have hfk1 := hload (k + 1) (List.mem_range.mpr (by omega))
  rw [tour_getD p k a ha] at hfk
  rw [tour_getD p (k + 1) b hb, show k + 1 - 1 = k by omega] at hfk1
  have hsucc := load_after_succ g p k b hb
  have h0 := hfk.1
  have hQ : load_after g p k ≤ g.capacity := le_trans hfk.2.1 (min_le_left _ _)
  have hda : load_after g p k ≤ g.draught a := le_trans hfk.2.1 (min_le_right _ _)
  have hQ1 : load_after g p (k + 1) ≤ g.capacity := le_trans hfk1.2.1 (min_le_left _ _)
  have hdb1 : load_after g p (k + 1) ≤ g.draught b := le_trans hfk1.2.1 (min_le_right _ _)
  have hdb : load_after g p k ≤ g.draught b := le_trans hfk1.2.2 (min_le_right _ _)
  have hpick : 1 ≤ a → a ≤ g.n → g.demand a ≤ load_after g p k := by
    intro h1 h2
    have hk1 : 1 ≤ k := by
      have := tour_not_first g p htour a h1 hale
      omega
    have hprev := (hload (k - 1) (List.mem_range.mpr (by omega))).1
    have hs := load_after_succ g p (k - 1) a (by rw [Nat.sub_add_cancel hk1]; exact ha)
    rw [Nat.sub_add_cancel hk1] at hs
    omega
  have hpd : 1 ≤ a → a ≤ g.n → g.n + 1 ≤ b → b ≤ 2 * g.n → b ≠ g.n + a →
      g.demand a - g.demand b ≤ load_after g p k := by
    intro h1 h2 h3 h4 h5
    have hk1 : 1 ≤ k := by
      have := tour_not_first g p htour a h1 hale
      omega
    have hc : b - g.n ∈ List.range' 1 g.n := (mem_range'_one 1 g.n _).mpr (by omega)
    have hq := (hinv.2.2.1 (b - g.n) hc).2.1
    rw [show g.n + (b - g.n) = b by omega] at hq
    have hpc := hprec (b - g.n) hc
    rw [show g.n + (b - g.n) = b by omega, hposb] at hpc
    have hne : p.indexOf (b - g.n) ≠ k := by
      intro e
      have := (tour_position_iff g p htour k a (b - g.n) (by omega) ha).mp e
      omega
    have hon := onboard_le_load g p hinv htour hprec (k - 1) (b - g.n) (by omega) hc
      ⟨by omega, by rw [show g.n + (b - g.n) = b by omega, hposb]; omega⟩
    have hs := load_after_succ g p (k - 1) a (by rw [Nat.sub_add_cancel hk1]; exact ha)
    rw [Nat.sub_add_cancel hk1] at hs
    omega
  refine ⟨?_, ?_, h0, hQ⟩
  · have hneg : g.n + 1 ≤ b → b ≤ 2 * g.n → g.demand b < 0 := by
      intro h3 h4
      have hc : b - g.n ∈ List.range' 1 g.n := (mem_range'_one 1 g.n _).mpr (by omega)
      have hq := hinv.2.2.1 (b - g.n) hc
      rw [show g.n + (b - g.n) = b by omega] at hq
      omega
    have hpos : 1 ≤ a → a ≤ g.n → 0 < g.demand a := fun h1 h2 =>
      (hinv.2.2.1 a ((mem_range'_one 1 g.n _).mpr (by omega))).1
    have hdd := hfk1.1
    unfold alpha
    simp only []
    split_ifs with c1 c2 c3 c4
    · have h := hpd c1.1 c1.2.1 c1.2.2.1 c1.2.2.2 (by omega)
      have h1 := hneg c1.2.2.1 c1.2.2.2
      have h2 := hpos c1.1 c1.2.1
      exact le_trans (wrap_int_le _ (by omega)) h
    · exact hpick c1.1 c1.2.1
    · have h1 := hneg c3.2.2.1 c3.2.2.2
      exact le_trans (wrap_int_le _ (by omega)) (by omega)
    · exact hpick c4.1 c4.2.1
    · exact h0
  · unfold beta
    refine le_min (le_min ?_ hda) ?_
    · rcases le_total 0 (g.demand b) with hb0 | hb0
      · rw [max_eq_right hb0]
        omega
      · rw [max_eq_left hb0]
        omega
    · rcases le_total 0 (g.demand b) with hb0 | hb0
      · rw [max_eq_right hb0]
        omega
      · rw [max_eq_left hb0]
        omega

/-! ## Feasible tours in the base model -/

/-- C21. The base model cuts off no feasible tour. On an instance with the data-model
invariants, for every Hamiltonian path from `0` to `2n+1` over allowed arcs on which each
pickup `i` precedes `n+i` and the load on arrival at and on departure from every node lies
in `[0, min(Q, d(node))]`, the assignment `x = 1` on the arcs of the path and `0`
elsewhere, `y` = the load carried on the arcs of the path and `0` elsewhere satisfies
every `outdegree`, `indegree`, `load`, `initial_load`, `y_lower` and `y_upper` row the
model builder creates, the bounds `0 <= x <= 1` and the bounds `0 <= y <= Q`, whatever
optional strengthenings are switched on. -/
theorem base_model_keeps_feasible_tours (g : Graph) (params : Params) (p : List Nat)
    (hinv : data_model_invariants g) (hp : feasible_tour g p) :
    (setup_model g params).rows_hold (tour_x p) (tour_y g p)
      (setup_model g params).outdegree RowRef.outdegree ∧
    (setup_model g params).rows_hold (tour_x p) (tour_y g p)
      (setup_model g params).indegree RowRef.indegree ∧
    (setup_model g params).rows_hold (tour_x p) (tour_y g p)
      (setup_model g params).load RowRef.load ∧
    (setup_model g params).rows_hold (tour_x p) (tour_y g p)
      (setup_model g params).initial_load RowRef.initial_load ∧
    (setup_model g params).rows_hold (tour_x p) (tour_y g p)
      (setup_model g params).y_lower RowRef.y_lower ∧
    (setup_model g params).rows_hold (tour_x p) (tour_y g p)
      (setup_model g params).y_upper RowRef.y_upper ∧
    (setup_model g params).x_bounds_hold (tour_x p) ∧
    (setup_model g params).y_bounds_hold (tour_y g p) ∧
    (∀ k a b : Nat, p[k]? = some a → p[k + 1]? = some b →
      tour_x p a b = 1 ∧ tour_y g p a b = load_after g p k) ∧
    (∀ a b : Nat, (a, b) ∉ tour_arcs p → tour_x p a b = 0 ∧ tour_y g p a b = 0) := by
  have h := tour_base_rows_hold g params p hp.1 (feasible_tour_loads_fit g p hinv hp)
  obtain ⟨h1, h2, h3, h4, h5, h6, h7, h8⟩ := h
  refine ⟨h1, h2, h3, h4, h5, h6, h7, h8, ?_, ?_⟩
  · intro k a b ha hb
    exact ⟨tour_x_on p k a b ha hb, tour_y_on g p hp.1.2.1 k a b ha hb⟩
  · intro a b hoff
    exact ⟨tour_x_off p a b hoff, tour_y_off g p a b hoff⟩

/-- The theorem for C21 on `graph1` (`n = 1`, `q = 5`, `d = 10`, `Q = 10`) with the tour
`0, 1, 2, 3`: the loads are 0, 5, 0 on its arcs. -/
theorem base_model_keeps_feasible_tours_witness :
    (data_model_invariants graph1 ∧ feasible_tour graph1 tour1) ∧
    (tour_y graph1 tour1 0 1 = 0 ∧ tour_y graph1 tour1 1 2 = 5 ∧
      tour_y graph1 tour1 2 3 = 0) ∧
    (setup_model graph1 params1).rows_hold (tour_x tour1) (tour_y graph1 tour1)
      (setup_model graph1 params1).outdegree RowRef.outdegree ∧
    (setup_model graph1 params1).rows_hold (tour_x tour1) (tour_y graph1 tour1)
      (setup_model graph1 params1).indegree RowRef.indegree ∧
    (setup_model graph1 params1).rows_hold (tour_x tour1) (tour_y graph1 tour1)
      (setup_model graph1 params1).load RowRef.load ∧
    (setup_model graph1 params1).rows_hold (tour_x tour1) (tour_y graph1 tour1)
      (setup_model graph1 params1).initial_load RowRef.initial_load ∧
    (setup_model graph1 params1).rows_hold (tour_x tour1) (tour_y graph1 tour1)
      (setup_model graph1 params1).y_lower RowRef.y_lower ∧
    (setup_model graph1 params1).rows_hold (tour_x tour1) (tour_y graph1 tour1)
      (setup_model graph1 params1).y_upper RowRef.y_upper ∧
    (setup_model graph1 params1).x_bounds_hold (tour_x tour1) ∧
    (setup_model graph1 params1).y_bounds_hold (tour_y graph1 tour1) :=
  have h := base_model_keeps_feasible_tours graph1 params1 tour1 (by decide) (by decide)
  ⟨⟨by decide, by decide⟩, by decide, h.1, h.2.1, h.2.2.1, h.2.2.2.1, h.2.2.2.2.1,
    h.2.2.2.2.2.1, h.2.2.2.2.2.2.1, h.2.2.2.2.2.2.2.1⟩

/-! ## Precedence is not enforced by the base rows -/

/-- C22. The base rows alone do not enforce precedence. The instance `graph3u` (three
requests of demand 1, `Q = 10`, `d = 10`) satisfies the data-model invariants; the path
`0, 1, 2, 6, 3, 4, 5, 7` is Hamiltonian from `0` to `2n+1` over allowed arcs and visits
the delivery `6 = n + 3` before its pickup `3`, so it is not a feasible tour; and its
integer arc vector, with the loads `0, 1, 2, 1, 2, 1, 0` on its arcs and `0` elsewhere,
satisfies every `outdegree`, `indegree`, `load`, `initial_load`, `y_lower` and `y_upper`
row and the bounds of the x and y variables, whatever optional strengthenings are switched
on in the columns. -/
theorem base_rows_do_not_enforce_precedence :
    data_model_invariants graph3u ∧ is_tour graph3u tour3u ∧
    (3 ∈ List.range' 1 graph3u.n ∧ tour3u.indexOf (graph3u.n + 3) < tour3u.indexOf 3) ∧
    ¬ feasible_tour graph3u tour3u ∧
    (tour_arcs tour3u).map (fun a => tour_y graph3u tour3u a.1 a.2) = [0, 1, 2, 1, 2, 1, 0] ∧
    ∀ params : Params,
      (setup_model graph3u params).rows_hold (tour_x tour3u) (tour_y graph3u tour3u)
        (setup_model graph3u params).outdegree RowRef.outdegree ∧
      (setup_model graph3u params).rows_hold (tour_x tour3u) (tour_y graph3u tour3u)
        (setup_model graph3u params).indegree RowRef.indegree ∧
      (setup_model graph3u params).rows_hold (tour_x tour3u) (tour_y graph3u tour3u)
        (setup_model graph3u params).load RowRef.load ∧
      (setup_model graph3u params).rows_hold (tour_x tour3u) (tour_y graph3u tour3u)
        (setup_model graph3u params).initial_load RowRef.initial_load ∧
      (setup_model graph3u params).rows_hold (tour_x tour3u) (tour_y graph3u tour3u)
        (setup_model graph3u params).y_lower RowRef.y_lower ∧
      (setup_model graph3u params).rows_hold (tour_x tour3u) (tour_y graph3u tour3u)
        (setup_model graph3u params).y_upper RowRef.y_upper ∧
      (setup_model graph3u params).x_bounds_hold (tour_x tour3u) ∧
      (setup_model graph3u params).y_bounds_hold (tour_y graph3u tour3u) := by
  refine ⟨by decide, by decide, by decide, by decide, by decide, ?_⟩
  intro params
  exact tour_base_rows_hold graph3u params tour3u (by decide) (by decide)

end Tsppddl
